import Mathlib

/-!
Verification of the envsitter dotenv parser/editor and matching engine.

Text is modelled as `List Char` (one JS UTF-16 code unit per `Char` for the
BMP characters exercised here). JS library functions that are external to the
repository (ICU `localeCompare`, `RegExp`, `TextEncoder`, HMAC-SHA-256,
base64 codecs, the file system) are taken as parameters of the definitions
that use them; everything else is translated directly from the source.
-/

namespace Envsitter

/-- Text, one entry per JS string code unit. -/
abbrev Str := List Char

/-- The JS `\s` / `String.prototype.trim` whitespace class (WhiteSpace ∪ LineTerminator). -/
def jsWs (c : Char) : Bool :=
  c == ' ' || c == '\t' || c == '\n' || c == '\x0b' || c == '\x0c' || c == '\r' ||
  c == '\u00A0' || c == '\u1680' || ('\u2000' ≤ c && c ≤ '\u200A') || c == '\u2028' ||
  c == '\u2029' || c == '\u202F' || c == '\u205F' || c == '\u3000' || c == '\uFEFF'

/-- `[A-Za-z0-9_]`, the dotenv key alphabet (`isValidKeyChar` in the source). -/
def isValidKeyChar (c : Char) : Bool :=
  ('A' ≤ c && c ≤ 'Z') || ('a' ≤ c && c ≤ 'z') || ('0' ≤ c && c ≤ '9') || c == '_'

/-- JS `String.prototype.trimStart`. -/
def trimStart (l : Str) : Str := l.dropWhile jsWs

/-- JS `String.prototype.trimEnd`. -/
def trimEnd : Str → Str
  | [] => []
  | c :: rest =>
    match trimEnd rest with
    | [] => if jsWs c then [] else [c]
    | r => c :: r

/-- JS `String.prototype.trim`. -/
def trim (l : Str) : Str := trimEnd (trimStart l)

/-- Helper for `splitLines`: prepend a character to the first segment. -/
def consHead (c : Char) : List Str → List Str
  | [] => [[c]]
  | s :: ss => (c :: s) :: ss

/-- JS `contents.split(/\r?\n/)`: split on LF or CRLF, greedy on CRLF. -/
def splitLines : Str → List Str
  | [] => [[]]
  | [c] => if c = '\n' then [[], []] else [[c]]
  | c :: c2 :: rest =>
    if c = '\n' then [] :: splitLines (c2 :: rest)
    else if c = '\r' ∧ c2 = '\n' then [] :: splitLines rest
    else consHead c (splitLines (c2 :: rest))

/-- Whether the text contains a CRLF (`"\r\n"`) two-character sequence. -/
def hasCRLF : Str → Bool
  | [] => false
  | [_] => false
  | c :: c2 :: rest => (c == '\r' && c2 == '\n') || hasCRLF (c2 :: rest)

/-- JS `contents.endsWith('\n')`. -/
def endsWithLF (l : Str) : Bool := l.getLast? == some '\n'

/-- JS `Array.prototype.join('\n')`. -/
def joinLines : List Str → Str
  | [] => []
  | [s] => s
  | s :: ss => s ++ '\n' :: joinLines ss

theorem splitLines_ne_nil : ∀ T : Str, splitLines T ≠ []
  | [] => by simp [splitLines]
  | [c] => by
    simp only [splitLines]
    split <;> simp
  | c :: c2 :: rest => by
    simp only [splitLines]
    split
    · simp
    · split
      · simp
      · cases h : splitLines (c2 :: rest) <;> simp [consHead, h]

theorem joinLines_consHead (c : Char) (ss : List Str) (h : ss ≠ []) :
    joinLines (consHead c ss) = c :: joinLines ss := by
  match ss with
  | [] => exact absurd rfl h
  | [s] => simp [consHead, joinLines]
  | s :: t :: ss' => simp [consHead, joinLines]

theorem joinLines_nilCons (ss : List Str) (h : ss ≠ []) :
    joinLines ([] :: ss) = '\n' :: joinLines ss := by
  match ss with
  | [] => exact absurd rfl h
  | s :: ss' => simp [joinLines]

/-- Splitting on line breaks and joining with `\n` is the identity on CRLF-free text. -/
theorem joinLines_splitLines : ∀ T : Str, hasCRLF T = false →
    joinLines (splitLines T) = T
  | [], _ => rfl
  | [c], _ => by
    by_cases hc : c = '\n' <;> simp [splitLines, joinLines, hc]
  | c :: c2 :: rest, h => by
    have h2 : hasCRLF (c2 :: rest) = false := by
      simp only [hasCRLF, Bool.or_eq_false_iff] at h
      exact h.2
    have hcr : ¬(c = '\r' ∧ c2 = '\n') := by
      simp only [hasCRLF, Bool.or_eq_false_iff] at h
      intro ⟨h1', h2'⟩
      subst h1'; subst h2'
      simp at h
    by_cases hc : c = '\n'
    · subst hc
      have e : splitLines ('\n' :: c2 :: rest) = [] :: splitLines (c2 :: rest) := by
        simp [splitLines]
      rw [e, joinLines_nilCons _ (splitLines_ne_nil (c2 :: rest)),
        joinLines_splitLines (c2 :: rest) h2]
    · have e : splitLines (c :: c2 :: rest) = consHead c (splitLines (c2 :: rest)) := by
        simp [splitLines, hc, hcr]
      rw [e, joinLines_consHead c _ (splitLines_ne_nil (c2 :: rest)),
        joinLines_splitLines (c2 :: rest) h2]

/-- A text with a final LF splits into a nonempty prefix plus one trailing empty segment. -/
theorem splitLines_endsWithLF : ∀ T : Str, endsWithLF T = true →
    ∃ xs, splitLines T = xs ++ [[]] ∧ xs ≠ []
  | [], h => by simp [endsWithLF] at h
  | [c], h => by
    have hc : c = '\n' := by simpa [endsWithLF, List.getLast?] using h
    subst hc
    exact ⟨[[]], by simp [splitLines], by simp⟩
  | c :: c2 :: rest, h => by
    have h' : endsWithLF (c2 :: rest) = true := by
      simpa [endsWithLF, List.getLast?_cons_cons] using h
    obtain ⟨xs, hxs, hne⟩ := splitLines_endsWithLF (c2 :: rest) h'
    by_cases hc : c = '\n'
    · subst hc
      have e : splitLines ('\n' :: c2 :: rest) = [] :: splitLines (c2 :: rest) := by
        simp [splitLines]
      exact ⟨[] :: xs, by simp [e, hxs], by simp⟩
    · by_cases hcr : c = '\r' ∧ c2 = '\n'
      · obtain ⟨hc1, hc2⟩ := hcr
        subst hc1; subst hc2
        have e : splitLines ('\r' :: '\n' :: rest) = [] :: splitLines rest := by
          simp [splitLines]
        match rest, h with
        | [], _ => exact ⟨[[]], by simp [e, splitLines], by simp⟩
        | r :: rest', h =>
          have h'' : endsWithLF (r :: rest') = true := by
            simpa [endsWithLF, List.getLast?_cons_cons] using h
          obtain ⟨ys, hys, hyne⟩ := splitLines_endsWithLF (r :: rest') h''
          exact ⟨[] :: ys, by simp [e, hys], by simp⟩
      · have e : splitLines (c :: c2 :: rest) = consHead c (splitLines (c2 :: rest)) := by
          simp [splitLines, hc, hcr]
        refine ⟨consHead c xs, ?_, ?_⟩
        · rw [e, hxs]
          match xs, hne with
          | x :: xs', _ => simp [consHead]
        · match xs, hne with
          | x :: xs', _ => simp [consHead]

theorem joinLines_append_nil : ∀ (xs : List Str), xs ≠ [] →
    joinLines (xs ++ [[]]) = joinLines xs ++ ['\n']
  | [x], _ => by simp [joinLines]
  | x :: y :: xs', _ => by
    have ih := joinLines_append_nil (y :: xs') (by simp)
    have h1 : joinLines (x :: (y :: xs' ++ [[]])) =
        x ++ '\n' :: joinLines (y :: xs' ++ [[]]) := rfl
    have h2 : joinLines (x :: y :: xs') = x ++ '\n' :: joinLines (y :: xs') := rfl
    show joinLines (x :: (y :: xs' ++ [[]])) = joinLines (x :: y :: xs') ++ ['\n']
    rw [h1, ih, h2]
    simp

/-- Quoting style of an assignment value (`'none' | 'single' | 'double'`). -/
inductive Quote
  | qnone
  | qsingle
  | qdouble
deriving DecidableEq, Repr

/-- A recoverable parse issue (`DotenvIssue` in the source). -/
structure DotenvIssue where
  line : Nat
  column : Nat
  message : String
deriving DecidableEq, Repr

/-- A parsed assignment line (`DotenvParsedAssignment` in the source). -/
structure Assignment where
  line : Nat
  raw : Str
  leadingWhitespace : Str
  exported : Bool
  key : Str
  keyColumn : Nat
  beforeEqWhitespace : Str
  afterEqRaw : Str
  quote : Quote
  value : Str
deriving DecidableEq, Repr

/-- A classified document line (`DotenvLine` in the source). -/
inductive DLine
  | blank (line : Nat) (raw : Str)
  | comment (line : Nat) (raw : Str)
  | assignment (a : Assignment)
  | unknown (line : Nat) (raw : Str)
deriving DecidableEq, Repr

/-- The raw text of a line, exactly as read. -/
def DLine.raw : DLine → Str
  | .blank _ r => r
  | .comment _ r => r
  | .assignment a => a.raw
  | .unknown _ r => r

/-- A parsed document (`DotenvDocument` in the source). -/
structure DotenvDocument where
  lines : List DLine
  issues : List DotenvIssue
  endsWithNewline : Bool
deriving DecidableEq, Repr

/-- `stripInlineComment`: cut an unquoted value at the first `#` that is at
position 0 or preceded by whitespace. `prevWs` starts `true` (position 0). -/
def sicGo (prevWs : Bool) : Str → Str
  | [] => []
  | c :: rest => if c == '#' && prevWs then [] else c :: sicGo (jsWs c) rest

/-- `stripInlineComment` from the source. -/
def stripInlineComment (l : Str) : Str := sicGo true l

/-- `unescapeDoubleQuoted`: decode `\n \r \t \\`, drop the backslash of any
other escape, keep a trailing lone backslash. -/
def unescapeDQ : Str → Str
  | [] => []
  | c :: rest =>
    if c = '\\' then
      match rest with
      | [] => ['\\']
      | c2 :: rest2 =>
        (if c2 == 'n' then '\n' else if c2 == 'r' then '\r' else if c2 == 't' then '\t' else c2)
          :: unescapeDQ rest2
    else c :: unescapeDQ rest

theorem unescapeDQ_cons (c : Char) (l : Str) :
    unescapeDQ (c :: l) =
      if c = '\\' then
        (match l with
         | [] => ['\\']
         | c2 :: rest2 =>
           (if c2 == 'n' then '\n' else if c2 == 'r' then '\r' else if c2 == 't' then '\t' else c2)
             :: unescapeDQ rest2)
      else c :: unescapeDQ l := by
  rw [unescapeDQ.eq_def]
  rfl

/-- `trimmed.indexOf(q, 1)` as a splitter: content before the first `q` plus the rest. -/
def findClose (q : Char) : Str → Option (Str × Str)
  | [] => none
  | c :: rest =>
    if c = q then some ([], rest)
    else (findClose q rest).map (fun p => (c :: p.1, p.2))

/-- The double-quote terminator scan of `parseValueDetailed`: find the first `"`
whose immediately preceding character is not `\`; `prev` is that predecessor. -/
def scanDq (prev : Char) : Str → Option (Str × Str)
  | [] => none
  | c :: rest =>
    if c = '"' ∧ prev ≠ '\\' then some ([], rest)
    else (scanDq c rest).map (fun p => (c :: p.1, p.2))

/-- `parseValueDetailed` from the source: value text after `=` to
(value, quote, issues). -/
def parseValueDetailed (n : Nat) (afterEqRaw : Str) : Str × Quote × List DotenvIssue :=
  match trimStart afterEqRaw with
  | [] => ([], Quote.qnone, [])
  | '\'' :: tl =>
    match findClose '\'' tl with
    | none => (tl, Quote.qsingle, [⟨n, 1, "Unterminated single-quoted value"⟩])
    | some (content, _) => (content, Quote.qsingle, [])
  | '"' :: tl =>
    match scanDq '"' tl with
    | none => (unescapeDQ tl, Quote.qdouble, [⟨n, 1, "Unterminated double-quoted value"⟩])
    | some (content, _) => (unescapeDQ content, Quote.qdouble, [])
  | c :: tl => (trimEnd (stripInlineComment (c :: tl)), Quote.qnone, [])

/-- The literal `export` keyword. -/
def exportKw : Str := ['e', 'x', 'p', 'o', 'r', 't']

/-- `parseAssignmentLine` from the source: classify one line's text as an
assignment, or fail with the issue the source records. -/
def parseAssignmentLine (n : Nat) (raw : Str) : Option Assignment × List DotenvIssue :=
  let lw := raw.takeWhile jsWs
  let r1 := raw.dropWhile jsWs
  let isExp := exportKw.isPrefixOf r1 &&
    (match r1.drop 6 with | c :: _ => jsWs c | [] => false)
  let r2 := if isExp then (r1.drop 6).dropWhile jsWs else r1
  let keyStart := lw.length +
    (if isExp then 6 + ((r1.drop 6).takeWhile jsWs).length else 0)
  let key := r2.takeWhile isValidKeyChar
  let r3 := r2.dropWhile isValidKeyChar
  if key = [] then
    (none, [⟨n, keyStart + 1, "Invalid key name"⟩])
  else if (match r3.head? with
           | some c => !jsWs c && c != '='
           | none => false) then
    (none, [⟨n, keyStart + key.length + 1, "Invalid key name"⟩])
  else
    let beforeEq := r3.takeWhile jsWs
    let r4 := r3.dropWhile jsWs
    match r4 with
    | '=' :: afterEq =>
      let v := parseValueDetailed n afterEq
      (some ⟨n, raw, lw, isExp, key, keyStart + 1, beforeEq, afterEq, v.2.1, v.1⟩, v.2.2)
    | _ =>
      (none, [⟨n, keyStart + key.length + beforeEq.length + 1, "Missing = in assignment"⟩])

/-- Classification of one raw line (the per-line body of `parseDotenvDocument`). -/
def classifyLine (n : Nat) (raw : Str) : DLine × List DotenvIssue :=
  if trim raw = [] then (DLine.blank n raw, [])
  else if (trimStart raw).head? = some '#' then (DLine.comment n raw, [])
  else
    match parseAssignmentLine n raw with
    | (some a, iss) => (DLine.assignment a, iss)
    | (none, iss) => (DLine.unknown n raw, iss)

/-- Classify consecutive segments, numbering lines from `n`. -/
def buildLines (n : Nat) : List Str → List DLine × List DotenvIssue
  | [] => ([], [])
  | raw :: rest =>
    let c := classifyLine n raw
    let r := buildLines (n + 1) rest
    (c.1 :: r.1, c.2 ++ r.2)

/-- `parseDotenvDocument` from the source. -/
def parseDotenvDocument (contents : Str) : DotenvDocument :=
  let e := endsWithLF contents
  let split := splitLines contents
  let segs := if e then split.dropLast else split
  let b := buildLines 1 segs
  ⟨b.1, b.2, e⟩

/-- `stringifyDotenvDocument` from the source. -/
def stringifyDotenvDocument (doc : DotenvDocument) : Str :=
  joinLines (doc.lines.map DLine.raw) ++ (if doc.endsWithNewline then ['\n'] else [])

theorem parseAssignmentLine_raw (n : Nat) (raw : Str) :
    ∀ a iss, parseAssignmentLine n raw = (some a, iss) → a.raw = raw := by
  intro a iss h
  unfold parseAssignmentLine at h
  dsimp only [] at h
  repeat' split at h
  all_goals first
    | (simp only [Prod.mk.injEq, Option.some.injEq] at h
       obtain ⟨h1, h2⟩ := h
       subst h1
       rfl)
    | simp at h

theorem classifyLine_raw (n : Nat) (raw : Str) : (classifyLine n raw).1.raw = raw := by
  unfold classifyLine
  split
  · rfl
  · split
    · rfl
    · split
      · rename_i a iss heq
        simpa [DLine.raw] using parseAssignmentLine_raw n raw a iss heq
      · rfl

theorem buildLines_raws : ∀ (n : Nat) (segs : List Str),
    ((buildLines n segs).1.map DLine.raw) = segs
  | _, [] => rfl
  | n, raw :: rest => by
    simp only [buildLines, List.map_cons, classifyLine_raw, buildLines_raws (n + 1) rest]

/-- Parsing then stringifying reproduces any CRLF-free input exactly. -/
theorem stringify_parse_of_noCRLF (T : Str) (h : hasCRLF T = false) :
    stringifyDotenvDocument (parseDotenvDocument T) = T := by
  unfold parseDotenvDocument stringifyDotenvDocument
  dsimp only []
  rw [buildLines_raws]
  by_cases he : endsWithLF T = true
  · simp only [he, if_pos]
    obtain ⟨xs, hxs, hne⟩ := splitLines_endsWithLF T he
    rw [hxs, List.dropLast_concat, ← joinLines_append_nil xs hne, ← hxs,
      joinLines_splitLines T h]
  · simp only [Bool.not_eq_true] at he
    simp only [he, if_neg, Bool.false_eq_true, if_false, List.append_nil]
    exact joinLines_splitLines T h

/-- C1 counterexample: the text `"A=1\r\n"` has no malformed lines (no issues,
no `unknown` line), yet `stringify (parse T)` is `"A=1\n"`, not `T`: parsing
does not preserve CRLF line endings. -/
theorem C1_roundtrip_counterexample :
    (parseDotenvDocument ("A=1\r\n".toList)).issues = [] ∧
    ((parseDotenvDocument ("A=1\r\n".toList)).lines.all fun l =>
      match l with | DLine.unknown _ _ => false | _ => true) = true ∧
    stringifyDotenvDocument (parseDotenvDocument ("A=1\r\n".toList)) ≠ "A=1\r\n".toList := by
  decide

/-- C1 (amended): for every input text `T` containing no malformed lines and no
CRLF (`"\r\n"`) sequence, `stringifyDotenvDocument (parseDotenvDocument T)`
equals `T` byte for byte, including its trailing-newline state. (A CRLF input
is normalized to LF, which is the only failure mode; malformed lines are in
fact also preserved.) -/
theorem C1_roundtrip_amended (T : Str)
    (_hm : (parseDotenvDocument T).issues = [])
    (hcrlf : hasCRLF T = false) :
    stringifyDotenvDocument (parseDotenvDocument T) = T :=
  stringify_parse_of_noCRLF T hcrlf

/-- C1 witness: the amended round trip evaluated on a concrete document. -/
theorem C1_roundtrip_amended_witness :
    stringifyDotenvDocument (parseDotenvDocument ("A=1\n# c\nB=2\n".toList)) =
      "A=1\n# c\nB=2\n".toList :=
  C1_roundtrip_amended ("A=1\n# c\nB=2\n".toList) (by decide) (by decide)

/-- JS `String.prototype.replace(/c/g, rep)` for a single-character pattern. -/
def replaceAllChar (c : Char) (rep : Str) : Str → Str
  | [] => []
  | x :: rest => (if x = c then rep else [x]) ++ replaceAllChar c rep rest

/-- The escape body of `quoteValue`: escape `\`, `"`, `\n`, `\r`, `\t`, in that
order of `.replace` passes. -/
def escapeDQ (v : Str) : Str :=
  replaceAllChar '\t' ['\\', 't']
    (replaceAllChar '\r' ['\\', 'r']
      (replaceAllChar '\n' ['\\', 'n']
        (replaceAllChar '"' ['\\', '"']
          (replaceAllChar '\\' ['\\', '\\'] v))))

/-- `quoteValue` from the source: auto-quote a value for writing. -/
def quoteValue (v : Str) : Str :=
  if v = [] then []
  else
    let hasWhitespace := v.any jsWs
    let hasSpecialChars := v.any fun c =>
      c == '#' || c == '"' || c == '\'' || c == '\\' || c == '$' || c == '`'
    let hasControlChars := v.any fun c => c == '\n' || c == '\r' || c == '\t'
    let hasEdgeSpaces := v.head? == some ' ' || v.getLast? == some ' '
    if hasWhitespace || hasSpecialChars || hasControlChars || hasEdgeSpaces then
      '"' :: (escapeDQ v ++ ['"'])
    else v

/-- Per-character view of the five chained `.replace` passes of `quoteValue`. -/
def escChar (c : Char) : Str :=
  if c = '\\' then ['\\', '\\']
  else if c = '"' then ['\\', '"']
  else if c = '\n' then ['\\', 'n']
  else if c = '\r' then ['\\', 'r']
  else if c = '\t' then ['\\', 't']
  else [c]

theorem replaceAllChar_append (c : Char) (rep : Str) (l1 l2 : Str) :
    replaceAllChar c rep (l1 ++ l2) = replaceAllChar c rep l1 ++ replaceAllChar c rep l2 := by
  induction l1 with
  | nil => rfl
  | cons x rest ih => simp [replaceAllChar, ih]

theorem escapeDQ_cons (c : Char) (v : Str) :
    escapeDQ (c :: v) = escChar c ++ escapeDQ v := by
  have step : ∀ (t : Char) (rep : Str) (x : Char) (l : Str),
      replaceAllChar t rep (x :: l) = (if x = t then rep else [x]) ++ replaceAllChar t rep l :=
    fun _ _ _ _ => rfl
  unfold escapeDQ escChar
  by_cases h1 : c = '\\'
  · subst h1
    simp [step, replaceAllChar_append, replaceAllChar]
  · by_cases h2 : c = '"'
    · subst h2
      simp [step, replaceAllChar_append, replaceAllChar]
    · by_cases h3 : c = '\n'
      · subst h3
        simp [step, replaceAllChar_append, replaceAllChar]
      · by_cases h4 : c = '\r'
        · subst h4
          simp [step, replaceAllChar_append, replaceAllChar]
        · by_cases h5 : c = '\t'
          · subst h5
            simp [step, replaceAllChar_append, replaceAllChar]
          · simp [step, replaceAllChar_append, replaceAllChar, h1, h2, h3, h4, h5]

theorem unescapeDQ_escapeDQ : ∀ v : Str, unescapeDQ (escapeDQ v) = v
  | [] => rfl
  | c :: v => by
    rw [escapeDQ_cons]
    have ih := unescapeDQ_escapeDQ v
    unfold escChar
    by_cases h1 : c = '\\'
    · subst h1; simp [unescapeDQ, ih]
    · by_cases h2 : c = '"'
      · subst h2; simp [h1, unescapeDQ, ih]
      · by_cases h3 : c = '\n'
        · subst h3; simp [h1, h2, unescapeDQ, ih]
        · by_cases h4 : c = '\r'
          · subst h4; simp [h1, h2, h3, unescapeDQ, ih]
          · by_cases h5 : c = '\t'
            · subst h5; simp [h1, h2, h3, h4, unescapeDQ, ih]
            · have hstep : unescapeDQ (c :: escapeDQ v) = c :: unescapeDQ (escapeDQ v) := by
                rw [unescapeDQ_cons, if_neg h1]
              simp only [h1, h2, h3, h4, h5, if_false, List.cons_append, List.nil_append]
              rw [hstep, ih]

theorem scanDq_cons (prev c : Char) (l : Str) :
    scanDq prev (c :: l) =
      if c = '"' ∧ prev ≠ '\\' then some ([], l)
      else (scanDq c l).map (fun p => (c :: p.1, p.2)) := by
  rw [scanDq.eq_def]

/-- Scanning the escaped body of a value that does not end in a backslash finds
exactly the closing quote. -/
theorem scanDq_escapeDQ : ∀ (v : Str) (prev : Char), v ≠ [] → v.getLast? ≠ some '\\' →
    scanDq prev (escapeDQ v ++ ['"']) = some (escapeDQ v, [])
  | [c], prev, _, hlast => by
    have hc : c ≠ '\\' := by
      intro h
      exact hlast (by simp [h, List.getLast?])
    rw [show escapeDQ [c] = escChar c from by
      rw [escapeDQ_cons, show escapeDQ [] = [] from rfl, List.append_nil]]
    unfold escChar
    by_cases h2 : c = '"'
    · subst h2
      simp [scanDq_cons]
    · by_cases h3 : c = '\n'
      · subst h3; simp [scanDq_cons]
      · by_cases h4 : c = '\r'
        · subst h4; simp [scanDq_cons]
        · by_cases h5 : c = '\t'
          · subst h5; simp [scanDq_cons]
          · simp [hc, h2, h3, h4, h5, scanDq_cons]
  | c :: c2 :: v, prev, _, hlast => by
    have hlast' : (c2 :: v).getLast? ≠ some '\\' := by
      simpa [List.getLast?_cons_cons] using hlast
    have ih := fun p => scanDq_escapeDQ (c2 :: v) p (by simp) hlast'
    rw [escapeDQ_cons]
    unfold escChar
    by_cases h1 : c = '\\'
    · subst h1
      simp [scanDq_cons, ih]
    · by_cases h2 : c = '"'
      · subst h2
        simp [h1, scanDq_cons, ih]
      · by_cases h3 : c = '\n'
        · subst h3; simp [h1, h2, scanDq_cons, ih]
        · by_cases h4 : c = '\r'
          · subst h4; simp [h1, h2, h3, scanDq_cons, ih]
          · by_cases h5 : c = '\t'
            · subst h5; simp [h1, h2, h3, h4, scanDq_cons, ih]
            · simp [h1, h2, h3, h4, h5, scanDq_cons, ih]

theorem parseValueDetailed_dq_of_trimStart (n : Nat) (a tl : Str)
    (h : trimStart a = '"' :: tl) :
    parseValueDetailed n a =
      match scanDq '"' tl with
      | none => (unescapeDQ tl, Quote.qdouble, [⟨n, 1, "Unterminated double-quoted value"⟩])
      | some (content, _) => (unescapeDQ content, Quote.qdouble, []) := by
  rw [parseValueDetailed.eq_def, h]
  rfl

theorem parseValueDetailed_unquoted_of_trimStart (n : Nat) (a : Str) (c : Char) (tl : Str)
    (h : trimStart a = c :: tl) (h1 : c ≠ '\'') (h2 : c ≠ '"') :
    parseValueDetailed n a = (trimEnd (stripInlineComment (c :: tl)), Quote.qnone, []) := by
  rw [parseValueDetailed.eq_def, h]
  split
  · rename_i heq
    exact absurd heq (by simp)
  · rename_i tl' heq
    exact absurd (List.head_eq_of_cons_eq heq) h1
  · rename_i tl' heq
    exact absurd (List.head_eq_of_cons_eq heq) h2
  · rename_i c' tl' _ _ heq
    obtain ⟨hc, htl⟩ := List.cons_eq_cons.mp heq
    rw [hc, htl]

theorem trimStart_cons_of_not_ws (c : Char) (l : Str) (h : jsWs c = false) :
    trimStart (c :: l) = c :: l := by
  simp [trimStart, List.dropWhile_cons, h]

theorem sicGo_eq_self (l : Str) (h : ∀ x ∈ l, x ≠ '#') : ∀ b, sicGo b l = l := by
  induction l with
  | nil => intro b; rfl
  | cons c rest ih =>
    intro b
    have hc : (c == '#') = false := by
      simpa using h c (by simp)
    simp only [sicGo, hc, Bool.false_and, if_neg (by simp : ¬(false = true))]
    rw [ih (fun x hx => h x (by simp [hx]))]

theorem trimEnd_eq_self (l : Str) (h : ∀ x ∈ l, jsWs x = false) : trimEnd l = l := by
  induction l with
  | nil => rfl
  | cons c rest ih =>
    have hrest : trimEnd rest = rest := ih (fun x hx => h x (by simp [hx]))
    have hc : jsWs c = false := h c (by simp)
    rw [trimEnd.eq_def]
    cases rest with
    | nil => simp [trimEnd, hc]
    | cons r rest' =>
      dsimp only []
      rw [hrest]

theorem quoteValue_eq (v : Str) (hne : v ≠ []) :
    quoteValue v =
      if (v.any jsWs ||
          (v.any fun c => c == '#' || c == '"' || c == '\'' || c == '\\' || c == '$' || c == '`') ||
          (v.any fun c => c == '\n' || c == '\r' || c == '\t') ||
          (v.head? == some ' ' || v.getLast? == some ' ')) then
        '"' :: (escapeDQ v ++ ['"'])
      else v := by
  unfold quoteValue
  rw [if_neg hne]

/-- C2 counterexample: for `v = "\"` (a single backslash) the quoted form is
`"\\"`, whose closing quote is preceded by a backslash; the parser's
terminator scan skips it, reports the value as unterminated, and decodes the
value to `\"` (backslash, quote), not `v`. -/
theorem C2_quote_parse_counterexample :
    (parseValueDetailed 1 (quoteValue "\\".toList)).1 ≠ "\\".toList ∧
    (parseValueDetailed 1 (quoteValue "\\".toList)).1 = "\\\"".toList := by
  decide

/-- C2 (amended): for every string `v` that does not end in a backslash
(including control characters, `#`, quotes, embedded spaces), parsing the
value text produced by `quoteValue v` yields exactly `v`. -/
theorem C2_quote_parse_amended (n : Nat) (v : Str) (h : v.getLast? ≠ some '\\') :
    (parseValueDetailed n (quoteValue v)).1 = v := by
  by_cases hne : v = []
  · subst hne; rfl
  · rw [quoteValue_eq v hne]
    by_cases hq : (v.any jsWs ||
        (v.any fun c => c == '#' || c == '"' || c == '\'' || c == '\\' || c == '$' || c == '`') ||
        (v.any fun c => c == '\n' || c == '\r' || c == '\t') ||
        (v.head? == some ' ' || v.getLast? == some ' ')) = true
    · rw [if_pos hq]
      rw [parseValueDetailed_dq_of_trimStart n _ (escapeDQ v ++ ['"'])
        (trimStart_cons_of_not_ws '"' _ (by decide))]
      rw [scanDq_escapeDQ v '"' hne h]
      simp [unescapeDQ_escapeDQ]
    · rw [if_neg hq]
      have hws : v.any jsWs = false := by
        revert hq; cases v.any jsWs <;> simp
      have hsp : (v.any fun c =>
          c == '#' || c == '"' || c == '\'' || c == '\\' || c == '$' || c == '`') = false := by
        revert hq
        cases (v.any fun c =>
          c == '#' || c == '"' || c == '\'' || c == '\\' || c == '$' || c == '`') <;> simp
      have hws' : ∀ x ∈ v, jsWs x = false := by
        intro x hx
        have := List.any_eq_false.mp hws x hx
        simpa using this
      have hsp' : ∀ x ∈ v, ¬(x = '#' ∨ x = '"' ∨ x = '\'' ∨ x = '\\' ∨ x = '$' ∨ x = '`') := by
        intro x hx
        have h0 := List.any_eq_false.mp hsp x hx
        intro hor
        rcases hor with h | h | h | h | h | h <;> simp [h] at h0
      match v, hne with
      | c :: tl, _ =>
        have hts : trimStart (c :: tl) = c :: tl :=
          trimStart_cons_of_not_ws c tl (hws' c (by simp))
        have hc1 : c ≠ '\'' := fun hc => hsp' c (by simp) (by simp [hc])
        have hc2 : c ≠ '"' := fun hc => hsp' c (by simp) (by simp [hc])
        rw [parseValueDetailed_unquoted_of_trimStart n _ c tl hts hc1 hc2]
        show trimEnd (stripInlineComment (c :: tl)) = c :: tl
        rw [show stripInlineComment (c :: tl) = sicGo true (c :: tl) from rfl,
          sicGo_eq_self (c :: tl) (fun x hx hh => hsp' x hx (by simp [hh])) true,
          trimEnd_eq_self (c :: tl) hws']

/-- C2 witness: the amended quoting round trip on a value with spaces, `#`,
quotes, a backslash, and control characters. -/
theorem C2_quote_parse_amended_witness :
    (parseValueDetailed 1 (quoteValue "a b#\"'\\`\t$x".toList)).1 = "a b#\"'\\`\t$x".toList :=
  C2_quote_parse_amended 1 ("a b#\"'\\`\t$x".toList) (by decide)

/-- External JS facts the matching engine consumes: whether `Number(trimmed)`
is finite for a string already matching the signed-decimal grammar. -/
structure JsEnv where
  numFinite : Str → Bool

/-- ASCII decimal digit. -/
def isDigit (c : Char) : Bool := '0' ≤ c && c ≤ '9'

/-- The regex `^[+-]?(\d+(\.\d+)?|\.\d+)$` of `isNumberLike`. -/
def numberGrammar (l : Str) : Bool :=
  let l1 := match l with
    | c :: rest => if c = '+' ∨ c = '-' then rest else l
    | [] => l
  let ds := l1.takeWhile isDigit
  let r := l1.dropWhile isDigit
  if ds ≠ [] then
    match r with
    | [] => true
    | '.' :: r2 => r2.takeWhile isDigit ≠ [] && r2.dropWhile isDigit = []
    | _ => false
  else
    match r with
    | '.' :: r2 => r2.takeWhile isDigit ≠ [] && r2.dropWhile isDigit = []
    | _ => false

/-- `isNumberLike` from the source (the final finiteness test is external). -/
def isNumberLike (env : JsEnv) (value : Str) : Bool :=
  let trimmed := trim value
  if trimmed.length = 0 then false
  else if !numberGrammar trimmed then false
  else env.numFinite trimmed

/-- `isBooleanLike` from the source. -/
def isBooleanLike (value : Str) : Bool :=
  let t := (trim value).map Char.toLower
  t == "true".toList || t == "false".toList

/-- The closed matcher variant set (`EnvSitterMatcher`); the regex is embedded
as its match predicate. -/
inductive Matcher where
  | opExists
  | opIsEmpty
  | opIsEqual (candidate : Str)
  | opMatchRegex (test : Str → Bool)
  | opMatchStart (pre : Str)
  | opMatchEnd (suf : Str)
  | opIsNumber
  | opIsString
  | opIsBoolean

/-- One bulk-matching result (`EnvSitterKeyMatch`). -/
structure KeyMatch where
  key : Str
  matched : Bool
deriving DecidableEq, Repr

/-- A read-only key→value view (`Snapshot`). -/
structure Snapshot where
  values : List (Str × Str)

/-- JS `Map.prototype.get`. -/
def Snapshot.get (s : Snapshot) (k : Str) : Option Str := s.values.lookup k

/-- JS `Map.prototype.has`. -/
def Snapshot.has (s : Snapshot) (k : Str) : Bool := (s.get k).isSome

/-- The external HMAC-SHA-256 (`fingerprintValueHmacSha256`) and the resolved
pepper of one call. -/
structure MatchCtx where
  hmac : List Nat → Str → List Nat
  pepper : List Nat

/-- `crypto.timingSafeEqual` on equal-length buffers decides byte equality. -/
def timingSafeEqual (a b : List Nat) : Bool := a == b

/-- `matchValue` from the source; `exists` and `is_equal` are handled by the
callers before `matchValue` is reached (the source throws on them). -/
def matchValue (env : JsEnv) (value : Str) : Matcher → Bool
  | .opIsEmpty => value.length == 0
  | .opMatchStart pre => pre.isPrefixOf value
  | .opMatchEnd suf => suf.isSuffixOf value
  | .opMatchRegex t => t value
  | .opIsNumber => isNumberLike env value
  | .opIsBoolean => isBooleanLike value
  | .opIsString => !isNumberLike env value && !isBooleanLike value
  | _ => false

/-- `EnvSitter.matchKey`: the boolean result plus how many times the pepper
was resolved during the call. -/
def matchKey (ctx : MatchCtx) (snap : Snapshot) (key : Str) (m : Matcher) (env : JsEnv) :
    Bool × Nat :=
  match m with
  | .opExists => (snap.has key, 0)
  | m =>
    match snap.get key with
    | none => (false, 0)
    | some value =>
      match m with
      | .opIsEqual cand =>
        let a := ctx.hmac ctx.pepper cand
        let b := ctx.hmac ctx.pepper value
        (if a.length ≠ b.length then false else timingSafeEqual a b, 1)
      | m => (matchValue env value m, 0)

/-- `EnvSitter.matchKeyBulk`: one result per requested key, pepper resolved
once up front for `is_equal` and never otherwise. -/
def matchKeyBulk (ctx : MatchCtx) (snap : Snapshot) (keys : List Str) (m : Matcher)
    (env : JsEnv) : List KeyMatch × Nat :=
  match m with
  | .opIsEqual cand =>
    let candFp := ctx.hmac ctx.pepper cand
    (keys.map fun key =>
      match snap.get key with
      | none => ⟨key, false⟩
      | some value =>
        let valueFp := ctx.hmac ctx.pepper value
        ⟨key, valueFp.length == candFp.length && timingSafeEqual valueFp candFp⟩, 1)
  | m =>
    (keys.map fun key =>
      match m with
      | .opExists => ⟨key, snap.has key⟩
      | m =>
        match snap.get key with
        | none => ⟨key, false⟩
        | some value => ⟨key, matchValue env value m⟩, 0)

/-- `EnvSitter.listKeys` (no filter): keys sorted by the external
`localeCompare`, taken as the parameter `le`. -/
def listKeys (le : Str → Str → Bool) (snap : Snapshot) : List Str :=
  (snap.values.map Prod.fst).insertionSort fun a b => le a b = true

/-- `EnvSitter.matchKeyAll`. -/
def matchKeyAll (ctx : MatchCtx) (snap : Snapshot) (m : Matcher) (env : JsEnv)
    (le : Str → Str → Bool) : List KeyMatch × Nat :=
  matchKeyBulk ctx snap (listKeys le snap) m env

/-- `EnvSitter.matchCandidate`. -/
def matchCandidate (ctx : MatchCtx) (snap : Snapshot) (key : Str) (candidate : Str)
    (env : JsEnv) : Bool × Nat :=
  matchKey ctx snap key (Matcher.opIsEqual candidate) env

/-- `EnvSitter.matchCandidatesByKey`: pepper resolved once, then one result
per (key, candidate) entry in input order. -/
def matchCandidatesByKey (ctx : MatchCtx) (snap : Snapshot) (pairs : List (Str × Str)) :
    List KeyMatch × Nat :=
  (pairs.map fun p =>
    match snap.get p.1 with
    | none => ⟨p.1, false⟩
    | some value =>
      let a := ctx.hmac ctx.pepper p.2
      let b := ctx.hmac ctx.pepper value
      ⟨p.1, a.length == b.length && timingSafeEqual a b⟩, 1)

theorem matchKey_isEqual_eq (hmac : List Nat → Str → List Nat) (pepper : List Nat)
    (env : JsEnv) (snap : Snapshot) (key secret cand : Str)
    (hstore : snap.get key = some secret) :
    (matchKey ⟨hmac, pepper⟩ snap key (Matcher.opIsEqual cand) env).1 =
      (if (hmac pepper cand).length ≠ (hmac pepper secret).length then false
       else timingSafeEqual (hmac pepper cand) (hmac pepper secret)) := by
  unfold matchKey
  rw [hstore]

/-- C3: with `KEY=secret` stored, `matchCandidate KEY c` is `true` for
`c = secret` and, provided the fingerprint under the call's pepper has no
collision with `secret`, `false` for every other `c`; the result is computed
from the two HMAC digests by comparing lengths first and then bytes (the
constant-time execution of that byte compare is a timing property outside
this model). -/
theorem C3_equal_value_match (hmac : List Nat → Str → List Nat) (pepper : List Nat)
    (env : JsEnv) (snap : Snapshot) (key secret c : Str)
    (hstore : snap.get key = some secret)
    (hcol : ∀ x, hmac pepper x = hmac pepper secret → x = secret) :
    (matchCandidate ⟨hmac, pepper⟩ snap key secret env).1 = true ∧
    ((matchCandidate ⟨hmac, pepper⟩ snap key c env).1 = true ↔ c = secret) ∧
    (matchCandidate ⟨hmac, pepper⟩ snap key c env).1 =
      (if (hmac pepper c).length ≠ (hmac pepper secret).length then false
       else timingSafeEqual (hmac pepper c) (hmac pepper secret)) := by
  have hdef : ∀ cand, (matchCandidate ⟨hmac, pepper⟩ snap key cand env).1 =
      (if (hmac pepper cand).length ≠ (hmac pepper secret).length then false
       else timingSafeEqual (hmac pepper cand) (hmac pepper secret)) := fun cand =>
    matchKey_isEqual_eq hmac pepper env snap key secret cand hstore
  refine ⟨?_, ⟨?_, ?_⟩, hdef c⟩
  · rw [hdef secret]
    simp [timingSafeEqual]
  · intro h
    rw [hdef c] at h
    by_cases hl : (hmac pepper c).length ≠ (hmac pepper secret).length
    · rw [if_pos hl] at h
      exact absurd h (by simp)
    · rw [if_neg hl] at h
      exact hcol c (by simpa [timingSafeEqual] using h)
  · intro h
    subst h
    rw [hdef c]
    simp [timingSafeEqual]

/-- C3 witness: a concrete snapshot, pepper, and collision-free digest
function; the stored value matches and a different candidate does not. -/
theorem C3_equal_value_match_witness :
    (matchCandidate
        ⟨fun _ s => if s = "secret".toList then [1] else [0], [7]⟩
        ⟨[("KEY".toList, "secret".toList)]⟩ "KEY".toList "secret".toList
        ⟨fun _ => true⟩).1 = true ∧
    (matchCandidate
        ⟨fun _ s => if s = "secret".toList then [1] else [0], [7]⟩
        ⟨[("KEY".toList, "secret".toList)]⟩ "KEY".toList "not-secret".toList
        ⟨fun _ => true⟩).1 = false := by
  have h := C3_equal_value_match
    (fun _ s => if s = "secret".toList then [1] else [0]) [7]
    ⟨fun _ => true⟩ ⟨[("KEY".toList, "secret".toList)]⟩
    "KEY".toList "secret".toList "not-secret".toList
    (by decide)
    (fun x hx => by simpa using hx)
  refine ⟨h.1, ?_⟩
  cases hb : (matchCandidate
      ⟨fun _ s => if s = "secret".toList then [1] else [0], [7]⟩
      ⟨[("KEY".toList, "secret".toList)]⟩ "KEY".toList "not-secret".toList
      ⟨fun _ => true⟩).1 with
  | false => rfl
  | true => exact absurd (h.2.1.mp hb) (by decide)

theorem matchKeyBulk_keys (ctx : MatchCtx) (snap : Snapshot) (keys : List Str)
    (m : Matcher) (env : JsEnv) :
    (matchKeyBulk ctx snap keys m env).1.map KeyMatch.key = keys := by
  cases m <;>
    (simp only [matchKeyBulk, List.map_map]
     conv_rhs => rw [← List.map_id keys]
     apply List.map_congr_left
     intro k _
     cases hg : snap.get k <;> simp [hg])

theorem matchCandidatesByKey_keys (ctx : MatchCtx) (snap : Snapshot)
    (pairs : List (Str × Str)) :
    (matchCandidatesByKey ctx snap pairs).1.map KeyMatch.key = pairs.map Prod.fst := by
  simp only [matchCandidatesByKey, List.map_map]
  apply List.map_congr_left
  intro p _
  cases hg : snap.get p.1 <;> simp [hg]

/-- C4: every matcher except `exists` yields `false` on a key absent from the
snapshot, and no error path exists (the functions are total); `exists` yields
`false` exactly on absence; the bulk operations return one result per
requested key, in input order, and resolve the pepper at most once per call. -/
theorem C4_matching_totality (ctx : MatchCtx) (snap : Snapshot) (env : JsEnv)
    (key : Str) (keys : List Str) (pairs : List (Str × Str)) (m : Matcher)
    (habs : snap.get key = none) (hm : m ≠ Matcher.opExists) :
    (matchKey ctx snap key m env).1 = false ∧
    (∀ k, (matchKey ctx snap k Matcher.opExists env).1 = false ↔ snap.get k = none) ∧
    (matchKeyBulk ctx snap keys m env).1.map KeyMatch.key = keys ∧
    (∀ r ∈ (matchKeyBulk ctx snap keys m env).1, snap.get r.key = none → r.matched = false) ∧
    (matchKeyBulk ctx snap keys m env).2 ≤ 1 ∧
    (matchCandidatesByKey ctx snap pairs).1.map KeyMatch.key = pairs.map Prod.fst ∧
    (∀ r ∈ (matchCandidatesByKey ctx snap pairs).1, snap.get r.key = none → r.matched = false) ∧
    (matchCandidatesByKey ctx snap pairs).2 ≤ 1 := by
  refine ⟨?_, ?_, matchKeyBulk_keys ctx snap keys m env, ?_, ?_,
    matchCandidatesByKey_keys ctx snap pairs, ?_, ?_⟩
  · cases m <;> first
      | exact absurd rfl hm
      | (unfold matchKey; rw [habs])
  · intro k
    show Snapshot.has snap k = false ↔ snap.get k = none
    unfold Snapshot.has
    cases hg : snap.get k <;> simp
  · intro r hr habs'
    cases m <;>
      (simp only [matchKeyBulk, List.mem_map] at hr
       obtain ⟨k, _, hk⟩ := hr
       first
        | exact absurd rfl hm
        | (cases hg : snap.get k with
           | none =>
             rw [hg] at hk
             rw [← hk]
           | some v =>
             rw [hg] at hk
             have : r.key = k := by rw [← hk]
             rw [this] at habs'
             exact absurd hg (by rw [habs']; simp)))
  · cases m <;> simp [matchKeyBulk]
  · intro r hr habs'
    simp only [matchCandidatesByKey, List.mem_map] at hr
    obtain ⟨p, _, hp⟩ := hr
    cases hg : snap.get p.1 with
    | none =>
      rw [hg] at hp
      rw [← hp]
    | some v =>
      rw [hg] at hp
      have : r.key = p.1 := by rw [← hp]
      rw [this] at habs'
      exact absurd hg (by rw [habs']; simp)
  · simp [matchCandidatesByKey]

/-- C4 witness: a concrete absent key across single, bulk, and by-key
matching, with the pepper resolved at most once. -/
theorem C4_matching_totality_witness :
    (matchKey ⟨fun _ _ => [], []⟩ ⟨[("A".toList, "1".toList)]⟩ "B".toList
      (Matcher.opIsEqual "1".toList) ⟨fun _ => true⟩).1 = false ∧
    ((matchKeyBulk ⟨fun _ _ => [], []⟩ ⟨[("A".toList, "1".toList)]⟩
      ["B".toList, "A".toList] (Matcher.opIsEqual "1".toList) ⟨fun _ => true⟩).1.map
        KeyMatch.key) = ["B".toList, "A".toList] ∧
    (matchKeyBulk ⟨fun _ _ => [], []⟩ ⟨[("A".toList, "1".toList)]⟩
      ["B".toList, "A".toList] (Matcher.opIsEqual "1".toList) ⟨fun _ => true⟩).2 ≤ 1 := by
  have h := C4_matching_totality ⟨fun _ _ => [], []⟩ ⟨[("A".toList, "1".toList)]⟩
    ⟨fun _ => true⟩ "B".toList ["B".toList, "A".toList] []
    (Matcher.opIsEqual "1".toList) (by decide) (by intro hk; cases hk)
  exact ⟨h.1, h.2.2.1, h.2.2.2.2.1⟩

/-- Pepper provenance (`source: 'env' | 'file'`). -/
inductive PepperSource
  | env
  | file
deriving DecidableEq, Repr

/-- `PepperOptions` from the source. -/
structure PepperOptions where
  envVarNames : Option (List String)
  pepperFilePath : Option String
  createIfMissing : Option Bool
deriving DecidableEq, Repr

/-- `PepperResult` from the source. -/
structure PepperResult where
  pepperBytes : List Nat
  source : PepperSource
  pepperFilePath : Option String
deriving DecidableEq, Repr

/-- `getPepperFromEnv`: first configured environment variable holding a
non-empty value. -/
def getPepperFromEnv (envGet : String → Option String) : List String → Option String
  | [] => none
  | n :: rest =>
    match envGet n with
    | some v => if v.length > 0 then some v else getPepperFromEnv envGet rest
    | none => getPepperFromEnv envGet rest

/-- `parsePepperFileContentToBytes`: trim, base64-decode (the decoder is the
external `Buffer.from(_, 'base64')`), and reject fewer than 16 bytes. -/
def parsePepperFileContentToBytes (b64decode : Str → List Nat) (content : Str) :
    Except String (List Nat) :=
  let trimmed := trim content
  if trimmed = [] then .error "Pepper file is empty"
  else
    let decoded := b64decode trimmed
    if decoded.length < 16 then .error "Pepper file content is too short"
    else .ok decoded

/-- `resolvePepper` from the source. `envGet`, `readFile`, `b64decode`,
`utf8`, the default path, and the 32 random bytes `rnd` of the regeneration
branch are the external collaborators. The source wraps both the file read
and the content parse in one `try`, so either failure falls into the
create-if-missing branch, which persists and returns fresh random bytes. -/
def resolvePepper (envGet : String → Option String) (readFile : String → Except String Str)
    (b64decode : Str → List Nat) (utf8 : String → List Nat) (defaultPath : String)
    (rnd : List Nat) (opts : PepperOptions) : Except String PepperResult :=
  let envVarNames := opts.envVarNames.getD ["ENVSITTER_PEPPER", "ENV_SITTER_PEPPER"]
  match getPepperFromEnv envGet envVarNames with
  | some v => .ok ⟨utf8 v, .env, none⟩
  | none =>
    let path := opts.pepperFilePath.getD defaultPath
    let createIfMissing := opts.createIfMissing.getD true
    match readFile path with
    | .ok content =>
      match parsePepperFileContentToBytes b64decode content with
      | .ok bytes => .ok ⟨bytes, .file, some path⟩
      | .error e => if createIfMissing then .ok ⟨rnd, .file, some path⟩ else .error e
    | .error e => if createIfMissing then .ok ⟨rnd, .file, some path⟩ else .error e

/-- C5 counterexample: with no pepper in the environment and a pepper file
whose trimmed content decodes to only 3 bytes, a call with default options
(`createIfMissing` unset, hence `true`) does **not** fail: the parse error is
caught and fresh random pepper material is returned. -/
theorem C5_pepper_too_short_counterexample :
    trim "QUJD".toList ≠ [] ∧
    ((fun _ => [0, 1, 2]) (trim "QUJD".toList) : List Nat).length < 16 ∧
    resolvePepper (fun _ => none) (fun _ => .ok "QUJD".toList) (fun _ => [0, 1, 2])
        (fun _ => []) "/home/u/.envsitter/pepper"
        [1, 2, 3, 4, 5, 6, 7, 8, 9, 10, 11, 12, 13, 14, 15, 16,
         17, 18, 19, 20, 21, 22, 23, 24, 25, 26, 27, 28, 29, 30, 31, 32]
        ⟨none, none, none⟩ =
      .ok ⟨[1, 2, 3, 4, 5, 6, 7, 8, 9, 10, 11, 12, 13, 14, 15, 16,
            17, 18, 19, 20, 21, 22, 23, 24, 25, 26, 27, 28, 29, 30, 31, 32],
           .file, some "/home/u/.envsitter/pepper"⟩ := by
  refine ⟨by decide, by decide, ?_⟩
  rfl

/-- C5 (amended): if no configured pepper environment variable holds a
non-empty value, the pepper file reads successfully, its trimmed content is
non-empty but decodes to fewer than 16 bytes, **and creation is not
permitted** (`createIfMissing = false`), then `resolvePepper` fails with the
"too short" error and returns no pepper material; with creation permitted
(the default) the corrupt file is instead overwritten with fresh random
pepper, which is returned. -/
theorem C5_pepper_too_short_amended (envGet : String → Option String)
    (readFile : String → Except String Str) (b64decode : Str → List Nat)
    (utf8 : String → List Nat) (defaultPath : String) (rnd : List Nat)
    (opts : PepperOptions) (content : Str)
    (henv : getPepperFromEnv envGet
      (opts.envVarNames.getD ["ENVSITTER_PEPPER", "ENV_SITTER_PEPPER"]) = none)
    (hread : readFile (opts.pepperFilePath.getD defaultPath) = .ok content)
    (htrim : trim content ≠ [])
    (hshort : (b64decode (trim content)).length < 16)
    (hcreate : opts.createIfMissing = some false) :
    resolvePepper envGet readFile b64decode utf8 defaultPath rnd opts =
      .error "Pepper file content is too short" := by
  have hparse : parsePepperFileContentToBytes b64decode content =
      .error "Pepper file content is too short" := by
    unfold parsePepperFileContentToBytes
    dsimp only []
    rw [if_neg htrim, if_pos hshort]
  unfold resolvePepper
  dsimp only []
  rw [henv, hread]
  dsimp only []
  rw [hparse, hcreate]
  rfl

/-- C5 witness: the amended statement evaluated on a concrete environment,
file content, and decoder with `createIfMissing = false`. -/
theorem C5_pepper_too_short_amended_witness :
    resolvePepper (fun _ => none) (fun _ => .ok "QUJD".toList) (fun _ => [0, 1, 2])
        (fun _ => []) "/home/u/.envsitter/pepper" [9] ⟨none, none, some false⟩ =
      .error "Pepper file content is too short" :=
  C5_pepper_too_short_amended (fun _ => none) (fun _ => .ok "QUJD".toList)
    (fun _ => [0, 1, 2]) (fun _ => []) "/home/u/.envsitter/pepper" [9]
    ⟨none, none, some false⟩ "QUJD".toList rfl rfl (by decide) (by decide) rfl

/-- Copy conflict policy (`'error' | 'skip' | 'overwrite'`). -/
inductive CopyConflictPolicy
  | cpError
  | cpSkip
  | cpOverwrite
deriving DecidableEq, Repr

/-- Per-key action of the copy plan. -/
inductive CopyAction
  | copy
  | skip
  | overwrite
  | missing_source
  | conflict
deriving DecidableEq, Repr

/-- One entry of the copy plan (`CopyPlanItem`). -/
structure CopyPlanItem where
  fromKey : Str
  toKey : Str
  action : CopyAction
  fromLine : Option Nat
  toLine : Option Nat
deriving DecidableEq, Repr

/-- `listAssignments` from the source. -/
def listAssignments (docLines : List DLine) : List Assignment :=
  docLines.filterMap fun l =>
    match l with
    | .assignment a => some a
    | _ => none

/-- `lastAssignmentForKey` from the source. -/
def lastAssignmentForKey (ls : List Assignment) (key : Str) : Option Assignment :=
  ls.foldl (fun last l => if l.key = key then some l else last) none

/-- Split on a single separator character (`String.prototype.split(sep)`). -/
def splitOnChar (sep : Char) : Str → List Str
  | [] => [[]]
  | c :: rest => if c = sep then [] :: splitOnChar sep rest else consHead c (splitOnChar sep rest)

/-- JS `Map.prototype.set`: replace in place, else append. -/
def jsMapSet (k v : Str) : List (Str × Str) → List (Str × Str)
  | [] => [(k, v)]
  | (k', v') :: rest => if k' = k then (k, v) :: rest else (k', v') :: jsMapSet k v rest

/-- `parseRenameMap` from the source: a comma-separated `from=to` list. -/
def parseRenameMap (raw : Option Str) : List (Str × Str) :=
  match raw with
  | none => []
  | some r =>
    (splitOnChar ',' r).foldl
      (fun m part =>
        let trimmed := trim part
        if trimmed = [] then m
        else
          let pieces := splitOnChar '=' trimmed
          match pieces.head?, pieces.tail.head? with
          | some f, some t =>
            let fromKey := trim f
            let toKey := trim t
            if fromKey = [] ∨ toKey = [] then m else jsMapSet fromKey toKey m
          | _, _ => m)
      []

/-- `withNewKey` from the source: re-emit an assignment under a new key. -/
def withNewKey (source : Assignment) (newKey : Str) : Str :=
  source.leadingWhitespace ++ (if source.exported then "export ".toList else []) ++
    newKey ++ source.beforeEqWhitespace ++ '=' :: source.afterEqRaw

/-- JS `Set.prototype.add` on an insertion-ordered list. -/
def jsSetAdd (s : List Str) (k : Str) : List Str := if k ∈ s then s else s ++ [k]

/-- The backward scan of the overwrite branch: replace the **last** assignment
line bearing `key` and report the replaced assignment. -/
def replaceLastAssign (key : Str) (nl : DLine) : List DLine → Option (List DLine × Assignment)
  | [] => none
  | l :: rest =>
    match replaceLastAssign key nl rest with
    | some p => some (l :: p.1, p.2)
    | none =>
      match l with
      | .assignment a => if a.key = key then some (nl :: rest, a) else none
      | _ => none

/-- The mutable state of the copy loop: the target's line list, the plan, and
the change flag. -/
structure CopyState where
  lines : List DLine
  plan : List CopyPlanItem
  hasChanges : Bool
deriving Repr

/-- One iteration of the per-key loop of `copyDotenvKeys`. -/
def copyStep (policy : CopyConflictPolicy) (include? exclude? : Option (Str → Bool))
    (renameMap : List (Str × Str)) (sourceAssignments targetAssignments : List Assignment)
    (st : CopyState) (fromKey : Str) : CopyState :=
  if (match include? with | some t => !t fromKey | none => false) then st
  else if (match exclude? with | some t => t fromKey | none => false) then st
  else
    let toKey := (renameMap.lookup fromKey).getD fromKey
    match lastAssignmentForKey sourceAssignments fromKey with
    | none => { st with plan := st.plan ++ [⟨fromKey, toKey, .missing_source, none, none⟩] }
    | some sourceLine =>
      match lastAssignmentForKey targetAssignments toKey with
      | none =>
        let newRaw := if toKey = fromKey then sourceLine.raw else withNewKey sourceLine toKey
        { lines := st.lines ++ [DLine.assignment { sourceLine with key := toKey, raw := newRaw }],
          plan := st.plan ++ [⟨fromKey, toKey, .copy, some sourceLine.line, none⟩],
          hasChanges := true }
      | some targetLine =>
        match policy with
        | .cpSkip =>
          { st with plan := st.plan ++
              [⟨fromKey, toKey, .skip, some sourceLine.line, some targetLine.line⟩] }
        | .cpError =>
          { st with plan := st.plan ++
              [⟨fromKey, toKey, .conflict, some sourceLine.line, some targetLine.line⟩] }
        | .cpOverwrite =>
          let newRaw := if toKey = fromKey then sourceLine.raw else withNewKey sourceLine toKey
          match replaceLastAssign toKey
              (DLine.assignment { sourceLine with key := toKey, raw := newRaw }) st.lines with
          | some (lines', a) =>
            ⟨lines', st.plan ++ [⟨fromKey, toKey, .overwrite, some sourceLine.line, some a.line⟩],
              true⟩
          | none => st

/-- The requested key set of `copyDotenvKeys` (a JS `Set`, insertion order). -/
def requestedKeys (keys? : Option (List Str)) (sourceAssignments : List Assignment) : List Str :=
  match keys? with
  | some ks => ks.foldl (fun s k => let t := trim k; if t = [] then s else jsSetAdd s t) []
  | none => sourceAssignments.foldl (fun s a => jsSetAdd s a.key) []

/-- The whole per-key loop of `copyDotenvKeys`, from the two parsed documents. -/
def copyProcess (le : Str → Str → Bool) (policy : CopyConflictPolicy)
    (include? exclude? : Option (Str → Bool)) (rename? : Option Str)
    (keys? : Option (List Str)) (sourceDoc targetDoc : DotenvDocument) : CopyState :=
  let sourceAssignments := listAssignments sourceDoc.lines
  let targetAssignments := listAssignments targetDoc.lines
  let renameMap := parseRenameMap rename?
  let sorted := (requestedKeys keys? sourceAssignments).insertionSort fun a b => le a b = true
  sorted.foldl (copyStep policy include? exclude? renameMap sourceAssignments targetAssignments)
    ⟨targetDoc.lines, [], false⟩

/-- The result shape of `copyDotenvKeys` (`CopyDotenvResult`). -/
structure CopyResult where
  output : Str
  issues : List DotenvIssue
  plan : List CopyPlanItem
  hasChanges : Bool

/-- `copyDotenvKeys` from the source; the key ordering comparator
(`localeCompare`) and the include/exclude regexes are external parameters. -/
def copyDotenvKeys (le : Str → Str → Bool) (policy : CopyConflictPolicy)
    (include? exclude? : Option (Str → Bool)) (rename? : Option Str)
    (keys? : Option (List Str)) (sourceContents targetContents : Str) : CopyResult :=
  let sourceDoc := parseDotenvDocument sourceContents
  let targetDoc := parseDotenvDocument targetContents
  let issues :=
    sourceDoc.issues.map (fun i => { i with message := "source: " ++ i.message }) ++
    targetDoc.issues.map (fun i => { i with message := "target: " ++ i.message })
  let final := copyProcess le policy include? exclude? rename? keys? sourceDoc targetDoc
  ⟨stringifyDotenvDocument ⟨final.lines, targetDoc.issues, targetDoc.endsWithNewline⟩,
    issues, final.plan, final.hasChanges⟩

theorem copyStep_error_shape (inc exc : Option (Str → Bool)) (rm : List (Str × Str))
    (sa ta : List Assignment) (st : CopyState) (k : Str) :
    ∃ app Δ, copyStep .cpError inc exc rm sa ta st k =
      ⟨st.lines ++ app, st.plan ++ Δ,
        st.hasChanges || Δ.any fun i => i.action == CopyAction.copy⟩ := by
  rcases st with ⟨lines, plan, hc⟩
  unfold copyStep
  dsimp only []
  split
  · exact ⟨[], [], by simp⟩
  · split
    · exact ⟨[], [], by simp⟩
    · cases hsl : lastAssignmentForKey sa k with
      | none =>
        exact ⟨[], [⟨k, ((rm.lookup k).getD k), .missing_source, none, none⟩], by simp⟩
      | some sl =>
        cases htl : lastAssignmentForKey ta ((rm.lookup k).getD k) with
        | none =>
          refine ⟨[DLine.assignment { sl with
              key := (rm.lookup k).getD k
              raw := (if (rm.lookup k).getD k = k then sl.raw
                      else withNewKey sl ((rm.lookup k).getD k)) }],
            [⟨k, (rm.lookup k).getD k, .copy, some sl.line, none⟩], by simp⟩
        | some tl =>
          exact ⟨[], [⟨k, (rm.lookup k).getD k, .conflict, some sl.line, some tl.line⟩],
            by simp⟩

theorem copyFold_error_shape (inc exc : Option (Str → Bool)) (rm : List (Str × Str))
    (sa ta : List Assignment) : ∀ (ks : List Str) (st : CopyState),
    ∃ app Δ, ks.foldl (copyStep .cpError inc exc rm sa ta) st =
      ⟨st.lines ++ app, st.plan ++ Δ,
        st.hasChanges || Δ.any fun i => i.action == CopyAction.copy⟩
  | [], st => ⟨[], [], by simp⟩
  | k :: ks, st => by
    obtain ⟨app₀, Δ₀, h₀⟩ := copyStep_error_shape inc exc rm sa ta st k
    obtain ⟨app₁, Δ₁, h₁⟩ := copyFold_error_shape inc exc rm sa ta ks
      (copyStep .cpError inc exc rm sa ta st k)
    refine ⟨app₀ ++ app₁, Δ₀ ++ Δ₁, ?_⟩
    rw [List.foldl_cons, h₁, h₀]
    dsimp only []
    simp [List.append_assoc, List.any_append, Bool.or_assoc]

theorem copyStep_error_conflict (rm : List (Str × Str)) (sa ta : List Assignment)
    (st : CopyState) (k : Str) (sl tl : Assignment)
    (hsl : lastAssignmentForKey sa k = some sl)
    (htl : lastAssignmentForKey ta ((rm.lookup k).getD k) = some tl) :
    copyStep .cpError none none rm sa ta st k =
      { st with plan := st.plan ++
          [⟨k, (rm.lookup k).getD k, .conflict, some sl.line, some tl.line⟩] } := by
  unfold copyStep
  dsimp only []
  rw [hsl, htl]
  rfl

theorem copyStep_error_copy (rm : List (Str × Str)) (sa ta : List Assignment)
    (st : CopyState) (k : Str) (sl : Assignment)
    (hsl : lastAssignmentForKey sa k = some sl)
    (htl : lastAssignmentForKey ta ((rm.lookup k).getD k) = none) :
    copyStep .cpError none none rm sa ta st k =
      ⟨st.lines ++ [DLine.assignment { sl with
          key := (rm.lookup k).getD k
          raw := (if (rm.lookup k).getD k = k then sl.raw
                  else withNewKey sl ((rm.lookup k).getD k)) }],
        st.plan ++ [⟨k, (rm.lookup k).getD k, .copy, some sl.line, none⟩], true⟩ := by
  unfold copyStep
  dsimp only []
  rw [hsl, htl]
  rfl

theorem copyFold_plan_mem (inc exc : Option (Str → Bool)) (rm : List (Str × Str))
    (sa ta : List Assignment) : ∀ (ks : List Str) (st : CopyState) (item : CopyPlanItem),
    item ∈ st.plan →
    item ∈ (ks.foldl (copyStep .cpError inc exc rm sa ta) st).plan
  | [], _, _, h => h
  | k :: ks, st, item, h => by
    obtain ⟨app₀, Δ₀, h₀⟩ := copyStep_error_shape inc exc rm sa ta st k
    rw [List.foldl_cons]
    exact copyFold_plan_mem inc exc rm sa ta ks _ item
      (by rw [h₀]; exact List.mem_append_left _ h)

theorem replaceLastAssign_cons (key : Str) (nl l : DLine) (rest : List DLine) :
    replaceLastAssign key nl (l :: rest) =
      (match replaceLastAssign key nl rest with
       | some p => some (l :: p.1, p.2)
       | none =>
         match l with
         | .assignment a => if a.key = key then some (nl :: rest, a) else none
         | _ => none) := rfl

theorem lastAssignmentForKey_fold (key : Str) : ∀ (ls : List Assignment)
    (acc : Option Assignment) (tl : Assignment),
    ls.foldl (fun last l => if l.key = key then some l else last) acc = some tl →
    (tl ∈ ls ∧ tl.key = key) ∨ acc = some tl
  | [], acc, tl, h => Or.inr h
  | l :: ls, acc, tl, h => by
    rw [List.foldl_cons] at h
    rcases lastAssignmentForKey_fold key ls _ tl h with ⟨hm, hk⟩ | hacc
    · exact Or.inl ⟨List.mem_cons_of_mem l hm, hk⟩
    · by_cases hlk : l.key = key
      · rw [if_pos hlk] at hacc
        have hl := Option.some.inj hacc
        exact Or.inl ⟨hl ▸ List.mem_cons_self l ls, hl ▸ hlk⟩
      · rw [if_neg hlk] at hacc
        exact Or.inr hacc

theorem lastAssignmentForKey_spec (ls : List Assignment) (key : Str) (tl : Assignment)
    (h : lastAssignmentForKey ls key = some tl) : tl ∈ ls ∧ tl.key = key := by
  rcases lastAssignmentForKey_fold key ls none tl h with hok | hbad
  · exact hok
  · exact absurd hbad (by simp)

theorem mem_listAssignments (lines : List DLine) (a : Assignment)
    (h : a ∈ listAssignments lines) : DLine.assignment a ∈ lines := by
  unfold listAssignments at h
  rw [List.mem_filterMap] at h
  obtain ⟨l, hl, he⟩ := h
  cases l with
  | assignment a' =>
    simp only [Option.some.injEq] at he
    rwa [← he]
  | blank n r => simp at he
  | comment n r => simp at he
  | unknown n r => simp at he

theorem replaceLastAssign_none (key : Str) (nl : DLine) : ∀ (lines : List DLine),
    replaceLastAssign key nl lines = none →
    ∀ b, DLine.assignment b ∈ lines → b.key ≠ key
  | [], _, b, hb => by simp at hb
  | l :: rest, h, b, hb => by
    rw [replaceLastAssign_cons] at h
    cases hr : replaceLastAssign key nl rest with
    | some p => rw [hr] at h; dsimp only [] at h; cases h
    | none =>
      rw [hr] at h
      dsimp only [] at h
      rcases List.mem_cons.mp hb with hbl | hbm
      · cases l with
        | assignment a =>
          intro hk
          rw [← hbl] at h
          have h' : (if b.key = key then some (nl :: rest, b) else none) =
              (none : Option (List DLine × Assignment)) := h
          rw [if_pos hk] at h'
          cases h' 
        | blank n r => cases hbl
        | comment n r => cases hbl
        | unknown n r => cases hbl
      · exact replaceLastAssign_none key nl rest hr b hbm

theorem replaceLastAssign_spec (key : Str) (nl : DLine) : ∀ (lines lines' : List DLine)
    (a : Assignment), replaceLastAssign key nl lines = some (lines', a) →
    ∃ i, lines[i]? = some (DLine.assignment a) ∧ a.key = key ∧
      lines' = lines.set i nl ∧
      ∀ j b, i < j → lines[j]? = some (DLine.assignment b) → b.key ≠ key
  | [], _, _, h => by cases h
  | l :: rest, lines', a, h => by
    rw [replaceLastAssign_cons] at h
    cases hr : replaceLastAssign key nl rest with
    | some p =>
      rw [hr] at h
      dsimp only [] at h
      obtain ⟨rest', a'⟩ := p
      simp only [Option.some.injEq, Prod.mk.injEq] at h
      obtain ⟨hl', ha'⟩ := h
      obtain ⟨i, hget, hkey, hset, hlater⟩ := replaceLastAssign_spec key nl rest rest' a
        (by rw [hr, ha'])
      refine ⟨i + 1, by simpa using hget, hkey, ?_, ?_⟩
      · rw [← hl', hset]
        rfl
      · intro j b hij hj
        match j, hij with
        | j' + 1, hij =>
          exact hlater j' b (by omega) (by simpa using hj)
    | none =>
      rw [hr] at h
      dsimp only [] at h
      cases l with
      | assignment a0 =>
        have h' : (if a0.key = key then some (nl :: rest, a0) else none) =
            some (lines', a) := h
        by_cases hk : a0.key = key
        · rw [if_pos hk] at h'
          simp only [Option.some.injEq, Prod.mk.injEq] at h'
          obtain ⟨hl', ha'⟩ := h' 
          refine ⟨0, by simp [← ha'], by rw [← ha']; exact hk, by rw [← hl']; rfl, ?_⟩
          intro j b hij hj
          match j, hij with
          | j' + 1, _ =>
            exact replaceLastAssign_none key nl rest hr b
              (List.getElem?_mem (by simpa using hj))
        · rw [if_neg hk] at h'
          cases h'
      | blank n r => exact absurd h (by simp)
      | comment n r => exact absurd h (by simp)
      | unknown n r => exact absurd h (by simp)

theorem replaceLastAssign_isSome (key : Str) (nl : DLine) (lines : List DLine)
    (b : Assignment) (hb : DLine.assignment b ∈ lines) (hk : b.key = key) :
    ∃ p, replaceLastAssign key nl lines = some p := by
  cases h : replaceLastAssign key nl lines with
  | none => exact absurd hk (replaceLastAssign_none key nl lines h b hb)
  | some p => exact ⟨p, rfl⟩

theorem copyProcess_eq (le : Str → Str → Bool) (policy : CopyConflictPolicy)
    (inc exc : Option (Str → Bool)) (rename? : Option Str) (keys? : Option (List Str))
    (sdoc tdoc : DotenvDocument) :
    copyProcess le policy inc exc rename? keys? sdoc tdoc =
      ((requestedKeys keys? (listAssignments sdoc.lines)).insertionSort
          fun a b => le a b = true).foldl
        (copyStep policy inc exc (parseRenameMap rename?) (listAssignments sdoc.lines)
          (listAssignments tdoc.lines))
        ⟨tdoc.lines, [], false⟩ := rfl

/-- The assignments of a parsed document. -/
def docAssignments (contents : Str) : List Assignment :=
  listAssignments (parseDotenvDocument contents).lines

/-- `copyDotenvKeys` without filters and rename, reduced to its final loop
state (lines, plan, hasChanges). -/
def copyFinalState (le : Str → Str → Bool) (policy : CopyConflictPolicy)
    (keys? : Option (List Str)) (src tgt : Str) : CopyState :=
  copyProcess le policy none none none keys? (parseDotenvDocument src)
    (parseDotenvDocument tgt)

theorem copyFinalState_eq (le : Str → Str → Bool) (policy : CopyConflictPolicy)
    (keys? : Option (List Str)) (src tgt : Str) :
    copyFinalState le policy keys? src tgt =
      ((requestedKeys keys? (docAssignments src)).insertionSort
          fun a b => le a b = true).foldl
        (copyStep policy none none (parseRenameMap none) (docAssignments src)
          (docAssignments tgt))
        ⟨(parseDotenvDocument tgt).lines, [], false⟩ := rfl

/-- C7: under the `error` policy a requested key present in source and target
is recorded as `conflict` and the target document is only ever appended to
(no existing line of it is mutated); other requested keys absent from the
target are still copied, and `hasChanges` is true exactly when some key was
copied; under `overwrite`, the **last** existing occurrence of the key in the
target is replaced in place (same position, all other lines untouched). -/
theorem C7_copy_conflict_policy (le : Str → Str → Bool)
    (sourceContents targetContents : Str) (ks : List Str) (k k' : Str)
    (sl tl sl' : Assignment)
    (hsl : lastAssignmentForKey (docAssignments sourceContents) k = some sl)
    (htl : lastAssignmentForKey (docAssignments targetContents) k = some tl)
    (hk : k ∈ (requestedKeys (some ks) (docAssignments sourceContents)).insertionSort
      fun a b => le a b = true)
    (hk' : k' ∈ (requestedKeys (some ks) (docAssignments sourceContents)).insertionSort
      fun a b => le a b = true)
    (hsl' : lastAssignmentForKey (docAssignments sourceContents) k' = some sl')
    (htl' : lastAssignmentForKey (docAssignments targetContents) k' = none)
    (htrim : trim k = k) (hkne : k ≠ []) :
    (∃ app, (copyFinalState le .cpError (some ks) sourceContents targetContents).lines =
      (parseDotenvDocument targetContents).lines ++ app) ∧
    (⟨k, k, CopyAction.conflict, some sl.line, some tl.line⟩ : CopyPlanItem) ∈
      (copyFinalState le .cpError (some ks) sourceContents targetContents).plan ∧
    (⟨k', k', CopyAction.copy, some sl'.line, none⟩ : CopyPlanItem) ∈
      (copyFinalState le .cpError (some ks) sourceContents targetContents).plan ∧
    (copyFinalState le .cpError (some ks) sourceContents targetContents).hasChanges =
      (copyFinalState le .cpError (some ks) sourceContents targetContents).plan.any
        (fun i => i.action == CopyAction.copy) ∧
    (copyFinalState le .cpError (some ks) sourceContents targetContents).hasChanges = true ∧
    (∃ i a,
      (parseDotenvDocument targetContents).lines[i]? = some (DLine.assignment a) ∧
      a.key = k ∧
      (∀ j b, i < j →
        (parseDotenvDocument targetContents).lines[j]? = some (DLine.assignment b) →
        b.key ≠ k) ∧
      (copyFinalState le .cpOverwrite (some [k]) sourceContents targetContents).lines =
        (parseDotenvDocument targetContents).lines.set i
          (DLine.assignment { sl with key := k, raw := sl.raw }) ∧
      (copyFinalState le .cpOverwrite (some [k]) sourceContents targetContents).plan =
        [⟨k, k, CopyAction.overwrite, some sl.line, some a.line⟩] ∧
      (copyFinalState le .cpOverwrite (some [k]) sourceContents targetContents).hasChanges =
        true) := by
  have hrm : ((parseRenameMap none).lookup k).getD k = k := rfl
  have hrm' : ((parseRenameMap none).lookup k').getD k' = k' := rfl
  obtain ⟨app, Δ, hf⟩ := copyFold_error_shape none none (parseRenameMap none)
    (docAssignments sourceContents) (docAssignments targetContents)
    ((requestedKeys (some ks) (docAssignments sourceContents)).insertionSort
      fun a b => le a b = true)
    ⟨(parseDotenvDocument targetContents).lines, [], false⟩
  have hconf : (⟨k, k, CopyAction.conflict, some sl.line, some tl.line⟩ : CopyPlanItem) ∈
      (copyFinalState le .cpError (some ks) sourceContents targetContents).plan := by
    obtain ⟨s, t, hst⟩ := List.append_of_mem hk
    rw [copyFinalState_eq, hst, List.foldl_append, List.foldl_cons,
      copyStep_error_conflict (parseRenameMap none) (docAssignments sourceContents)
        (docAssignments targetContents) _ k sl tl hsl (by rw [hrm]; exact htl)]
    refine copyFold_plan_mem none none (parseRenameMap none) _ _ t _ _ ?_
    rw [hrm]
    simp
  have hcopy : (⟨k', k', CopyAction.copy, some sl'.line, none⟩ : CopyPlanItem) ∈
      (copyFinalState le .cpError (some ks) sourceContents targetContents).plan := by
    obtain ⟨s, t, hst⟩ := List.append_of_mem hk'
    rw [copyFinalState_eq, hst, List.foldl_append, List.foldl_cons,
      copyStep_error_copy (parseRenameMap none) (docAssignments sourceContents)
        (docAssignments targetContents) _ k' sl' hsl' (by rw [hrm']; exact htl')]
    refine copyFold_plan_mem none none (parseRenameMap none) _ _ t _ _ ?_
    rw [hrm']
    simp
  have hhc : (copyFinalState le .cpError (some ks) sourceContents targetContents).hasChanges =
      (copyFinalState le .cpError (some ks) sourceContents targetContents).plan.any
        (fun i => i.action == CopyAction.copy) := by
    rw [copyFinalState_eq, hf]
    simp
  refine ⟨⟨app, ?_⟩, hconf, hcopy, hhc, ?_, ?_⟩
  · rw [copyFinalState_eq, hf]
  · rw [hhc]
    exact List.any_eq_true.mpr ⟨_, hcopy, by simp⟩
  · have hreq : requestedKeys (some [k]) (docAssignments sourceContents) = [k] := by
      simp [requestedKeys, htrim, hkne, jsSetAdd]
    have hmemtl := lastAssignmentForKey_spec (docAssignments targetContents) k tl htl
    have hlineMem : DLine.assignment tl ∈ (parseDotenvDocument targetContents).lines :=
      mem_listAssignments (parseDotenvDocument targetContents).lines tl hmemtl.1
    obtain ⟨p, hp⟩ := replaceLastAssign_isSome k
      (DLine.assignment { sl with key := k, raw := sl.raw })
      (parseDotenvDocument targetContents).lines tl hlineMem hmemtl.2
    obtain ⟨lines', a⟩ := p
    have hfinal : copyFinalState le .cpOverwrite (some [k]) sourceContents targetContents =
        ⟨lines', [⟨k, k, CopyAction.overwrite, some sl.line, some a.line⟩], true⟩ := by
      rw [copyFinalState_eq, hreq]
      rw [show (([k]).insertionSort fun a b => le a b = true) = [k] from by
        simp [List.insertionSort, List.orderedInsert]]
      rw [List.foldl_cons, List.foldl_nil]
      unfold copyStep
      dsimp only []
      rw [hrm, hsl, htl]
      dsimp only []
      rw [if_pos rfl, hp]
      rfl
    obtain ⟨i, hget, hkey, hset, hlater⟩ := replaceLastAssign_spec k
      (DLine.assignment { sl with key := k, raw := sl.raw })
      (parseDotenvDocument targetContents).lines lines' a hp
    exact ⟨i, a, hget, hkey, hlater, by rw [hfinal, ← hset], by rw [hfinal], by rw [hfinal]⟩

/-- C7 witness: copying `["A","B"]` from `"A=1\nB=two\n"` into `"B=old\n"`:
under `error` the plan records a conflict for `B` while `A` is still copied
(`hasChanges = true`); under `overwrite` the call reports a change. -/
theorem C7_copy_conflict_policy_witness :
    (copyFinalState (fun _ _ => true) .cpError (some ["A".toList, "B".toList])
        "A=1\nB=two\n".toList "B=old\n".toList).hasChanges = true ∧
    (⟨"B".toList, "B".toList, CopyAction.conflict, some 2, some 1⟩ : CopyPlanItem) ∈
      (copyFinalState (fun _ _ => true) .cpError (some ["A".toList, "B".toList])
        "A=1\nB=two\n".toList "B=old\n".toList).plan ∧
    (copyFinalState (fun _ _ => true) .cpOverwrite (some ["B".toList])
        "A=1\nB=two\n".toList "B=old\n".toList).hasChanges = true := by
  have h := C7_copy_conflict_policy (fun _ _ => true) "A=1\nB=two\n".toList "B=old\n".toList
    ["A".toList, "B".toList] "B".toList "A".toList
    ⟨2, "B=two".toList, [], false, "B".toList, 1, [], "two".toList, Quote.qnone, "two".toList⟩
    ⟨1, "B=old".toList, [], false, "B".toList, 1, [], "old".toList, Quote.qnone, "old".toList⟩
    ⟨1, "A=1".toList, [], false, "A".toList, 1, [], "1".toList, Quote.qnone, "1".toList⟩
    (by decide) (by decide) (by decide) (by decide) (by decide) (by decide)
    (by decide) (by decide)
  obtain ⟨i, a, _, _, _, _, _, how⟩ := h.2.2.2.2.2
  exact ⟨h.2.2.2.2.1, h.2.1, how⟩

/-- Annotate plan actions. -/
inductive AnnotateAction
  | inserted
  | updated
  | not_found
  | ambiguous
deriving DecidableEq, Repr

/-- `AnnotatePlan` from the source. -/
structure AnnotatePlan where
  key : Str
  action : AnnotateAction
  keyLines : Option (List Nat)
  line : Option Nat
deriving DecidableEq, Repr

/-- `AnnotateDotenvResult` from the source. -/
structure AnnotateResult where
  output : Str
  issues : List DotenvIssue
  plan : AnnotatePlan
  hasChanges : Bool
deriving DecidableEq, Repr

/-- The fixed marker prefix of annotation comments. -/
def markerPrefix : Str := "# envsitter:".toList

/-- `annotateDotenvKey` from the source. -/
def annotateDotenvKey (contents key comment : Str) (line? : Option Nat) : AnnotateResult :=
  let doc := parseDotenvDocument contents
  let issues := doc.issues
  let assignments := (listAssignments doc.lines).filter fun a => decide (a.key = key)
  let lines := assignments.map Assignment.line
  match assignments with
  | [] => ⟨contents, issues, ⟨key, .not_found, none, none⟩, false⟩
  | first :: _ =>
    let target? : Option Assignment :=
      match line? with
      | some ln => assignments.find? fun a => decide (a.line = ln)
      | none => if assignments.length > 1 then none else some first
    match target? with
    | none => ⟨contents, issues, ⟨key, .ambiguous, some lines, none⟩, false⟩
    | some target =>
      match doc.lines.findIdx? (fun l => match l with
        | .assignment a => decide (a.line = target.line)
        | _ => false) with
      | none => ⟨contents, issues, ⟨key, .not_found, none, none⟩, false⟩
      | some ti =>
        let desiredRaw := target.leadingWhitespace ++ "# envsitter: ".toList ++ comment
        match (if ti > 0 then doc.lines[ti - 1]? else none) with
        | some (DLine.comment pn praw) =>
          if markerPrefix.isPrefixOf (trimStart praw) then
            ⟨stringifyDotenvDocument
                ⟨doc.lines.set (ti - 1) (DLine.comment pn desiredRaw), doc.issues,
                  doc.endsWithNewline⟩,
              issues, ⟨key, .updated, none, some target.line⟩, true⟩
          else
            ⟨stringifyDotenvDocument
                ⟨doc.lines.insertIdx ti (DLine.comment target.line desiredRaw), doc.issues,
                  doc.endsWithNewline⟩,
              issues, ⟨key, .inserted, none, some target.line⟩, true⟩
        | _ =>
          ⟨stringifyDotenvDocument
              ⟨doc.lines.insertIdx ti (DLine.comment target.line desiredRaw), doc.issues,
                doc.endsWithNewline⟩,
            issues, ⟨key, .inserted, none, some target.line⟩, true⟩

theorem list_set_self {α : Type} : ∀ (l : List α) (i : Nat) (a : α),
    l[i]? = some a → l.set i a = l
  | [], i, a, h => by simp at h
  | x :: xs, 0, a, h => by
    simp only [List.getElem?_cons_zero, Option.some.injEq] at h
    rw [← h]
    rfl
  | x :: xs, i + 1, a, h => by
    simp only [List.getElem?_cons_succ] at h
    rw [List.set_cons_succ, list_set_self xs i a h]

theorem parseAssignmentLine_lw (n : Nat) (raw : Str) :
    ∀ a iss, parseAssignmentLine n raw = (some a, iss) →
    a.leadingWhitespace = raw.takeWhile jsWs := by
  intro a iss h
  unfold parseAssignmentLine at h
  dsimp only [] at h
  repeat' split at h
  all_goals first
    | (simp only [Prod.mk.injEq, Option.some.injEq] at h
       obtain ⟨h1, h2⟩ := h
       subst h1
       rfl)
    | simp at h

theorem buildLines_mem : ∀ (n : Nat) (segs : List Str) (l : DLine),
    l ∈ (buildLines n segs).1 → ∃ m r, (classifyLine m r).1 = l
  | n, [], l, h => by simp [buildLines] at h
  | n, raw :: rest, l, h => by
    simp only [buildLines, List.mem_cons] at h
    rcases h with h | h
    · exact ⟨n, raw, h.symm⟩
    · exact buildLines_mem (n + 1) rest l h

theorem mem_parse_assignment_lw (T : Str) (a : Assignment)
    (h : DLine.assignment a ∈ (parseDotenvDocument T).lines) :
    ∀ c ∈ a.leadingWhitespace, jsWs c = true := by
  obtain ⟨m, r, hcl⟩ := buildLines_mem 1 _ _ h
  unfold classifyLine at hcl
  split at hcl
  · cases hcl
  · split at hcl
    · cases hcl
    · split at hcl
      · rename_i a' iss heq
        simp only at hcl
        obtain rfl : a' = a := by
          injection hcl
        rw [parseAssignmentLine_lw m r a' iss heq]
        intro c hc
        exact List.mem_takeWhile_imp hc
      · cases hcl

theorem trimStart_ws_append (lw rest : Str) (h : ∀ c ∈ lw, jsWs c = true) :
    trimStart (lw ++ rest) = trimStart rest := by
  induction lw with
  | nil => rfl
  | cons c cs ih =>
    simp only [List.cons_append, trimStart, List.dropWhile_cons, h c (by simp)]
    exact ih fun x hx => h x (by simp [hx])

theorem isPrefixOf_append_self (l t : Str) : l.isPrefixOf (l ++ t) = true := by
  induction l with
  | nil => simp [List.isPrefixOf]
  | cons c cs ih => simpa [List.isPrefixOf] using ih

/-- C10: every `updated` annotation reports `hasChanges = true`, and when the
existing marker comment already carries the desired text, the output equals
the input byte for byte while `hasChanges` is still `true`. -/
theorem C10_annotate_updated_hasChanges (contents key comment : Str)
    (hcrlf : hasCRLF contents = false) :
    (∀ c2 k2 cm2 l2, (annotateDotenvKey c2 k2 cm2 l2).plan.action = .updated →
      (annotateDotenvKey c2 k2 cm2 l2).hasChanges = true) ∧
    (∀ ti target pn,
      ((listAssignments (parseDotenvDocument contents).lines).filter
        fun a => decide (a.key = key)) = [target] →
      (parseDotenvDocument contents).lines.findIdx? (fun l => match l with
        | .assignment a => decide (a.line = target.line)
        | _ => false) = some ti →
      0 < ti →
      (parseDotenvDocument contents).lines[ti - 1]? = some (DLine.comment pn
        (target.leadingWhitespace ++ "# envsitter: ".toList ++ comment)) →
      (annotateDotenvKey contents key comment none).plan.action = .updated ∧
      (annotateDotenvKey contents key comment none).hasChanges = true ∧
      (annotateDotenvKey contents key comment none).output = contents) := by
  constructor
  · intro c2 k2 cm2 l2
    unfold annotateDotenvKey
    dsimp only []
    repeat' split
    all_goals intro h
    all_goals first
      | rfl
      | (exact absurd h (by simp at h ⊢; cases h))
      | simp at h
  · intro ti target pn hfilter hfind hti hprev
    have hlw : ∀ c ∈ target.leadingWhitespace, jsWs c = true := by
      apply mem_parse_assignment_lw contents target
      have : target ∈ (listAssignments (parseDotenvDocument contents).lines).filter
          fun a => decide (a.key = key) := by
        rw [hfilter]; simp
      exact mem_listAssignments _ _ (List.mem_of_mem_filter this)
    have hmarker : markerPrefix.isPrefixOf
        (trimStart (target.leadingWhitespace ++ "# envsitter: ".toList ++ comment)) = true := by
      rw [List.append_assoc, trimStart_ws_append _ _ hlw]
      rw [show ("# envsitter: ".toList ++ comment : Str) =
        '#' :: (" envsitter: ".toList ++ comment) from rfl]
      rw [trimStart_cons_of_not_ws _ _ (by decide)]
      rw [show ('#' :: (" envsitter: ".toList ++ comment) : Str) =
        markerPrefix ++ (' ' :: comment) from rfl]
      exact isPrefixOf_append_self markerPrefix (' ' :: comment)
    unfold annotateDotenvKey
    dsimp only []
    rw [hfilter]
    dsimp only []
    rw [show (if ([target] : List Assignment).length > 1 then (none : Option Assignment)
      else some target) = some target from rfl]
    dsimp only []
    rw [hfind]
    dsimp only []
    rw [if_pos hti, hprev]
    dsimp only []
    rw [if_pos hmarker]
    refine ⟨rfl, rfl, ?_⟩
    show stringifyDotenvDocument
      ⟨(parseDotenvDocument contents).lines.set (ti - 1)
        (DLine.comment pn (target.leadingWhitespace ++ "# envsitter: ".toList ++ comment)),
        (parseDotenvDocument contents).issues,
        (parseDotenvDocument contents).endsWithNewline⟩ = contents
    rw [list_set_self _ _ _ hprev]
    exact stringify_parse_of_noCRLF contents hcrlf

/-- C10 witness: re-annotating `A` with the same comment text on
`"# envsitter: c\nA=1\n"` reports `updated`, `hasChanges = true`, and returns
the input unchanged. -/
theorem C10_annotate_updated_hasChanges_witness :
    (annotateDotenvKey "# envsitter: c\nA=1\n".toList "A".toList "c".toList none).plan.action =
      .updated ∧
    (annotateDotenvKey "# envsitter: c\nA=1\n".toList "A".toList "c".toList none).hasChanges =
      true ∧
    (annotateDotenvKey "# envsitter: c\nA=1\n".toList "A".toList "c".toList none).output =
      "# envsitter: c\nA=1\n".toList := by
  have h := (C10_annotate_updated_hasChanges "# envsitter: c\nA=1\n".toList "A".toList
    "c".toList (by decide)).2 1
    ⟨2, "A=1".toList, [], false, "A".toList, 1, [], "1".toList, Quote.qnone, "1".toList⟩ 1
    (by decide) (by decide) (by decide) (by decide)
  exact h

/-- Relabel an assignment's line number. -/
def Assignment.withLine (a : Assignment) (n : Nat) : Assignment := { a with line := n }

/-- Relabel a line's line number. -/
def DLine.withLine : DLine → Nat → DLine
  | .blank _ r, n => .blank n r
  | .comment _ r, n => .comment n r
  | .assignment a, n => .assignment (a.withLine n)
  | .unknown _ r, n => .unknown n r

/-- A line with its line number erased; two lines are "similar" when their
`dekey`s agree. -/
def dekey (l : DLine) : DLine := l.withLine 0

/-- The line number carried by a classified line. -/
def DLine.lineNo : DLine → Nat
  | .blank n _ => n
  | .comment n _ => n
  | .assignment a => a.line
  | .unknown n _ => n

theorem parseValueDetailed_line_irrel (n m : Nat) (x : Str) :
    (parseValueDetailed n x).1 = (parseValueDetailed m x).1 ∧
    (parseValueDetailed n x).2.1 = (parseValueDetailed m x).2.1 := by
  unfold parseValueDetailed
  split <;> (try split) <;> exact ⟨rfl, rfl⟩

theorem parseAssignmentLine_dekey (n m : Nat) (raw : Str) :
    ((parseAssignmentLine n raw).1).map (fun a => a.withLine 0) =
      ((parseAssignmentLine m raw).1).map (fun a => a.withLine 0) := by
  unfold parseAssignmentLine
  dsimp only []
  repeat' split
  all_goals first
    | rfl
    | (simp only [Option.map, Option.some.injEq, Assignment.withLine,
        Assignment.mk.injEq, true_and, and_true]
       first
        | exact (parseValueDetailed_line_irrel n m _).1
        | exact (parseValueDetailed_line_irrel n m _).2
        | exact ⟨(parseValueDetailed_line_irrel n m _).2,
            (parseValueDetailed_line_irrel n m _).1⟩
        | exact ⟨rfl, (parseValueDetailed_line_irrel n m _).2,
            (parseValueDetailed_line_irrel n m _).1⟩)

theorem parseAssignmentLine_line (n : Nat) (raw : Str) :
    ∀ a iss, parseAssignmentLine n raw = (some a, iss) → a.line = n := by
  intro a iss h
  unfold parseAssignmentLine at h
  dsimp only [] at h
  repeat' split at h
  all_goals first
    | (simp only [Prod.mk.injEq, Option.some.injEq] at h
       obtain ⟨h1, h2⟩ := h
       subst h1
       rfl)
    | simp at h

theorem classifyLine_lineNo (n : Nat) (raw : Str) : (classifyLine n raw).1.lineNo = n := by
  unfold classifyLine
  split
  · rfl
  · split
    · rfl
    · split
      · rename_i a iss heq
        simp only [DLine.lineNo]
        exact parseAssignmentLine_line n raw a iss heq
      · rfl

theorem dekey_withLine (l : DLine) (n : Nat) : dekey (l.withLine n) = dekey l := by
  cases l <;> rfl

theorem raw_withLine (l : DLine) (n : Nat) : (l.withLine n).raw = l.raw := by
  cases l <;> rfl

theorem dekey_assignment (a : Assignment) :
    dekey (DLine.assignment a) = DLine.assignment (a.withLine 0) := rfl

theorem dekey_classifyLine (n m : Nat) (raw : Str) :
    dekey (classifyLine n raw).1 = dekey (classifyLine m raw).1 := by
  unfold classifyLine
  split
  · rfl
  · split
    · rfl
    · have h := parseAssignmentLine_dekey n m raw
      split
      · rename_i a iss heqn
        rw [heqn] at h
        split
        · rename_i a' iss' heqm
          rw [heqm] at h
          have h' : a.withLine 0 = a'.withLine 0 := by simpa using h
          simp only [dekey_assignment, h']
        · rename_i iss' heqm
          rw [heqm] at h
          simp at h
      · rename_i iss heqn
        rw [heqn] at h
        split
        · rename_i a' iss' heqm
          rw [heqm] at h
          simp at h
        · rfl

theorem dekey_raw (l l' : DLine) (h : dekey l = dekey l') : l.raw = l'.raw := by
  cases l <;> cases l' <;> first
    | (simp [dekey, DLine.withLine, DLine.raw, Assignment.withLine] at h ⊢
       try simp_all [Assignment.mk.injEq])
    | rfl

/-- A segment that can sit on one physical line: no LF and no CR. -/
def lineSafe (r : Str) : Prop := ∀ c ∈ r, c ≠ '\n' ∧ c ≠ '\r'

theorem splitLines_no_lf : ∀ r : Str, (∀ c ∈ r, c ≠ '\n') → splitLines r = [r]
  | [], _ => rfl
  | [c], h => by
    have := h c (by simp)
    simp [splitLines, this]
  | c :: c2 :: rest, h => by
    have hc := h c (by simp)
    have h2 : ∀ x ∈ (c2 :: rest : Str), x ≠ '\n' := fun x hx => h x (by simp [List.mem_cons] at hx ⊢; tauto)
    have ih := splitLines_no_lf (c2 :: rest) h2
    simp only [splitLines, if_neg hc]
    split
    · rename_i hcr
      exact absurd hcr.2 (h2 c2 (by simp))
    · rw [ih]
      rfl

theorem splitLines_append_lf : ∀ (r : Str) (X : Str), lineSafe r →
    splitLines (r ++ '\n' :: X) = r :: splitLines X
  | [], X, _ => by
    cases X with
    | nil => simp [splitLines]
    | cons x xs => simp [splitLines]
  | [c], X, h => by
    obtain ⟨hn, hr⟩ := h c (by simp)
    rw [show ([c] : Str) ++ '\n' :: X = c :: '\n' :: X from rfl]
    rw [show splitLines (c :: '\n' :: X) = consHead c (splitLines ('\n' :: X)) from by
      simp only [splitLines]
      rw [if_neg hn, if_neg (by intro hcr; exact hr hcr.1)]]
    cases X with
    | nil => simp [splitLines, consHead]
    | cons x xs =>
      rw [show splitLines ('\n' :: x :: xs) = [] :: splitLines (x :: xs) from by
        simp [splitLines]]
      rfl
  | c :: c2 :: r', X, h => by
    obtain ⟨hn, hr⟩ := h c (by simp)
    have h' : lineSafe (c2 :: r') := fun x hx => h x (by simp [List.mem_cons] at hx ⊢; tauto)
    have ih := splitLines_append_lf (c2 :: r') X h'
    simp only [List.cons_append] at ih ⊢
    rw [show splitLines (c :: c2 :: (r' ++ '\n' :: X)) =
      consHead c (splitLines (c2 :: (r' ++ '\n' :: X))) from by
        simp only [splitLines]
        rw [if_neg hn, if_neg (by intro hcr; exact hr hcr.1)]]
    rw [ih]
    rfl

theorem splitLines_joinLines : ∀ raws : List Str, raws ≠ [] →
    (∀ r ∈ raws, lineSafe r) → splitLines (joinLines raws) = raws
  | [], h, _ => absurd rfl h
  | [r], _, hs => by
    rw [show joinLines [r] = r from rfl]
    exact splitLines_no_lf r fun c hc => (hs r (by simp) c hc).1
  | r :: r2 :: raws, _, hs => by
    rw [show joinLines (r :: r2 :: raws) = r ++ '\n' :: joinLines (r2 :: raws) from rfl]
    rw [splitLines_append_lf r _ (hs r (by simp))]
    rw [splitLines_joinLines (r2 :: raws) (by simp) fun x hx => hs x (by simp [hx])]

theorem joinLines_ne_nil_of_last : ∀ (xs : List Str) (r : Str), r ≠ [] →
    joinLines (xs ++ [r]) ≠ []
  | [], r, h => by simpa [joinLines]
  | x :: xs, r, h => by
    rw [List.cons_append]
    match xs ++ [r], joinLines_ne_nil_of_last xs r h with
    | y :: ys, _ =>
      simp [joinLines]

theorem getLast?_append_cons : ∀ (x : Str) (c : Char) (J : Str),
    (x ++ c :: J).getLast? = (c :: J).getLast?
  | [], _, _ => rfl
  | a :: x, c, J => by
    rw [List.cons_append]
    rw [show (a :: (x ++ c :: J)).getLast? = (x ++ c :: J).getLast? from by
      match x with
      | [] => simp [List.getLast?_cons_cons]
      | b :: x' => simp [List.getLast?_cons_cons]]
    exact getLast?_append_cons x c J

theorem getLast?_cons_of_ne_nil {α : Type} (a : α) (ss : List α) (h : ss ≠ []) :
    (a :: ss).getLast? = ss.getLast? := by
  match ss, h with
  | y :: ys, _ => simp [List.getLast?_cons_cons]

theorem getLast?_joinLines : ∀ (xs : List Str) (r : Str), r ≠ [] →
    (joinLines (xs ++ [r])).getLast? = r.getLast?
  | [], r, h => rfl
  | x :: xs, r, h => by
    rw [List.cons_append]
    have hne := joinLines_ne_nil_of_last xs r h
    rw [show joinLines (x :: (xs ++ [r])) = x ++ '\n' :: joinLines (xs ++ [r]) from by
      match xs ++ [r], hne with
      | y :: ys, _ => rfl]
    rw [getLast?_append_cons]
    rw [getLast?_cons_of_ne_nil _ _ hne]
    exact getLast?_joinLines xs r h

theorem endsWithLF_cons (c c2 : Char) (rest : Str) :
    endsWithLF (c :: c2 :: rest) = endsWithLF (c2 :: rest) := by
  simp [endsWithLF, List.getLast?_cons_cons]

theorem getLast?_splitLines_nil : ∀ T : Str, T ≠ [] → (splitLines T).getLast? = some [] →
    endsWithLF T = true
  | [], hne, _ => absurd rfl hne
  | [c], _, h => by
    by_cases hc : c = '\n'
    · simp [endsWithLF, hc, List.getLast?]
    · simp [splitLines, hc, List.getLast?] at h
  | c :: c2 :: rest, _, h => by
    simp only [splitLines] at h
    split at h
    · rw [getLast?_cons_of_ne_nil _ _ (splitLines_ne_nil (c2 :: rest))] at h
      rw [endsWithLF_cons]
      exact getLast?_splitLines_nil (c2 :: rest) (by simp) h
    · split at h
      · rename_i hcr
        match rest, h with
        | [], h =>
          obtain ⟨hc1, hc2⟩ := hcr
          subst hc1
          subst hc2
          decide
        | r :: rest', h =>
          rw [getLast?_cons_of_ne_nil _ _ (splitLines_ne_nil (r :: rest'))] at h
          rw [endsWithLF_cons, endsWithLF_cons]
          exact getLast?_splitLines_nil (r :: rest') (by simp) h
      · match hs : splitLines (c2 :: rest), splitLines_ne_nil (c2 :: rest) with
        | y :: ys, _ =>
          rw [hs] at h
          simp only [consHead] at h
          cases ys with
          | nil => simp [List.getLast?] at h
          | cons y2 ys2 =>
            rw [List.getLast?_cons_cons] at h
            rw [endsWithLF_cons]
            exact getLast?_splitLines_nil (c2 :: rest) (by simp)
              (by rw [hs, getLast?_cons_of_ne_nil _ _ (by simp)]; exact h)

theorem getLast?_ne_lf : ∀ r : Str, (∀ c ∈ r, c ≠ '\n') → r.getLast? ≠ some '\n'
  | [], _ => by simp
  | [c], h => by simpa [List.getLast?] using h c (by simp)
  | c :: c2 :: r', h => by
    rw [List.getLast?_cons_cons]
    exact getLast?_ne_lf (c2 :: r') fun x hx => h x (by simp [List.mem_cons] at hx ⊢; tauto)

theorem splitLines_joinLines_lf : ∀ raws : List Str, raws ≠ [] →
    (∀ r ∈ raws, lineSafe r) → splitLines (joinLines raws ++ ['\n']) = raws ++ [[]]
  | [], h, _ => absurd rfl h
  | [r], _, hs => by
    rw [show joinLines [r] = r from rfl]
    rw [show r ++ ['\n'] = r ++ '\n' :: ([] : Str) from rfl]
    rw [splitLines_append_lf r [] (hs r (by simp))]
    rfl
  | r :: r2 :: raws, _, hs => by
    rw [show joinLines (r :: r2 :: raws) = r ++ '\n' :: joinLines (r2 :: raws) from rfl]
    rw [show (r ++ '\n' :: joinLines (r2 :: raws)) ++ ['\n'] =
      r ++ '\n' :: (joinLines (r2 :: raws) ++ ['\n']) from by simp]
    rw [splitLines_append_lf r _ (hs r (by simp))]
    rw [splitLines_joinLines_lf (r2 :: raws) (by simp) fun x hx => hs x (by simp [hx])]
    rfl

/-- Stringifying a document whose raws are line-safe and reparsing recovers the
reclassification of the same raw segments, with the trailing-newline flag preserved
(when the flag is off, the last raw must be nonempty). -/
theorem parse_stringify_doc (lines' : List DLine) (iss : List DotenvIssue) (e : Bool)
    (hsafe : ∀ l ∈ lines', lineSafe l.raw)
    (hne : lines' ≠ [])
    (hlast : e = false → ∃ xs l, lines' = xs ++ [l] ∧ l.raw ≠ []) :
    parseDotenvDocument (stringifyDotenvDocument ⟨lines', iss, e⟩) =
      ⟨(buildLines 1 (lines'.map DLine.raw)).1, (buildLines 1 (lines'.map DLine.raw)).2, e⟩ := by
  have hraws_ne : lines'.map DLine.raw ≠ [] := by
    cases lines' with
    | nil => exact absurd rfl hne
    | cons a as => simp
  have hraws_safe : ∀ r ∈ lines'.map DLine.raw, lineSafe r := by
    intro r hr
    obtain ⟨l, hl, rfl⟩ := List.mem_map.mp hr
    exact hsafe l hl
  cases e with
  | true =>
    have hT : stringifyDotenvDocument ⟨lines', iss, true⟩ =
        joinLines (lines'.map DLine.raw) ++ ['\n'] := rfl
    rw [hT]
    have hg : (joinLines (lines'.map DLine.raw) ++ ['\n']).getLast? = some '\n' := by
      rw [show (['\n'] : Str) = ('\n' :: [] : Str) from rfl, getLast?_append_cons]
      rfl
    have he : endsWithLF (joinLines (lines'.map DLine.raw) ++ ['\n']) = true := by
      simp [endsWithLF, hg]
    unfold parseDotenvDocument
    dsimp only []
    rw [he, if_pos rfl]
    rw [splitLines_joinLines_lf _ hraws_ne hraws_safe]
    rw [List.dropLast_concat]
  | false =>
    obtain ⟨xs, l, hdecomp, hlraw⟩ := hlast rfl
    have hT : stringifyDotenvDocument ⟨lines', iss, false⟩ =
        joinLines (lines'.map DLine.raw) := by
      unfold stringifyDotenvDocument
      simp
    rw [hT]
    have hraws_decomp : lines'.map DLine.raw = xs.map DLine.raw ++ [l.raw] := by
      rw [hdecomp]
      simp
    have hg : (joinLines (lines'.map DLine.raw)).getLast? = l.raw.getLast? := by
      rw [hraws_decomp]
      exact getLast?_joinLines _ _ hlraw
    have hne_lf : l.raw.getLast? ≠ some '\n' := by
      apply getLast?_ne_lf
      intro c hc
      exact (hsafe l (by rw [hdecomp]; simp) c hc).1
    have he : endsWithLF (joinLines (lines'.map DLine.raw)) = false := by
      simpa [endsWithLF, hg] using hne_lf
    unfold parseDotenvDocument
    dsimp only []
    rw [he, if_neg (by simp)]
    rw [splitLines_joinLines _ hraws_ne hraws_safe]

/-- Re-classification of the same raw segments at different starting line numbers
agrees up to line numbers. -/
theorem buildLines_dekey_map : ∀ (n m : Nat) (raws : List Str),
    ((buildLines n raws).1).map dekey = ((buildLines m raws).1).map dekey
  | _, _, [] => rfl
  | n, m, raw :: rest => by
    simp only [buildLines, List.map_cons]
    rw [dekey_classifyLine n m raw, buildLines_dekey_map (n + 1) (m + 1) rest]

/-- A line is well-formed when re-classifying its raw text reproduces it up to
its line number. Every line produced by the parser is well-formed. -/
def wfLine (l : DLine) : Prop := dekey (classifyLine 1 l.raw).1 = dekey l

theorem wfLine_of_mem_buildLines (n : Nat) (segs : List Str) (l : DLine)
    (h : l ∈ (buildLines n segs).1) : wfLine l := by
  obtain ⟨m, r, hcl⟩ := buildLines_mem n segs l h
  have hraw : l.raw = r := by rw [← hcl, classifyLine_raw]
  unfold wfLine
  rw [hraw, ← hcl]
  exact dekey_classifyLine 1 m r

theorem wfLine_of_mem_parse (T : Str) (l : DLine)
    (h : l ∈ (parseDotenvDocument T).lines) : wfLine l :=
  wfLine_of_mem_buildLines 1 _ l h

/-- Re-classifying the raws of a list of well-formed lines reproduces those lines
up to line numbers. -/
theorem buildLines_wf_dekey : ∀ (n : Nat) (L : List DLine), (∀ l ∈ L, wfLine l) →
    ((buildLines n (L.map DLine.raw)).1).map dekey = L.map dekey
  | _, [], _ => rfl
  | n, l :: L, h => by
    simp only [List.map_cons, buildLines]
    rw [show dekey (classifyLine n l.raw).1 = dekey l from by
      rw [dekey_classifyLine n 1 l.raw]
      exact h l (by simp)]
    rw [buildLines_wf_dekey (n + 1) L fun x hx => h x (by simp [hx])]

/-- Positional line numbering: the line at index `i` of `buildLines k` carries
line number `k + i`. -/
theorem buildLines_lineNo : ∀ (k : Nat) (raws : List Str) (i : Nat) (l : DLine),
    ((buildLines k raws).1)[i]? = some l → l.lineNo = k + i
  | k, [], i, l, h => by simp [buildLines] at h
  | k, raw :: rest, 0, l, h => by
    simp only [buildLines, List.getElem?_cons_zero, Option.some.injEq] at h
    rw [← h, classifyLine_lineNo]
    omega
  | k, raw :: rest, i + 1, l, h => by
    simp only [buildLines, List.getElem?_cons_succ] at h
    have := buildLines_lineNo (k + 1) rest i l h
    omega

theorem getLast?_insertIdx : ∀ (L : List DLine) (i : Nat) (x : DLine), i < L.length →
    (List.insertIdx i x L).getLast? = L.getLast?
  | [], i, x, h => by simp at h
  | l :: ls, 0, x, h => by
    rw [show List.insertIdx 0 x (l :: ls) = x :: l :: ls from rfl]
    simp [List.getLast?_cons_cons]
  | l :: ls, i + 1, x, h => by
    rw [show List.insertIdx (i + 1) x (l :: ls) = l :: List.insertIdx i x ls from rfl]
    have hlen : i < ls.length := by simpa using h
    have hne : List.insertIdx i x ls ≠ [] := by
      have : (List.insertIdx i x ls).length = ls.length + 1 := by
        rw [List.length_insertIdx]
        simp [Nat.le_of_lt hlen]
      intro hc
      rw [hc] at this
      simp at this
    rw [getLast?_cons_of_ne_nil _ _ hne, getLast?_insertIdx ls i x hlen]
    match ls, hlen with
    | y :: ys, _ => simp [List.getLast?_cons_cons]

theorem findIdx?_add {α : Type} : ∀ (L : List α) (p : α → Bool) (s : Nat),
    List.findIdx? p L s = (List.findIdx? p L 0).map (fun i => i + s)
  | [], p, s => by simp [List.findIdx?]
  | x :: xs, p, s => by
    rw [List.findIdx?_cons, List.findIdx?_cons]
    by_cases hp : p x = true
    · simp [hp]
    · rw [if_neg hp, if_neg hp]
      rw [findIdx?_add xs p (s + 1), findIdx?_add xs p (0 + 1)]
      cases List.findIdx? p xs 0 with
      | none => rfl
      | some i =>
        simp only [Option.map]
        congr 1
        omega

theorem findIdx?_some_spec {α : Type} : ∀ (L : List α) (p : α → Bool) (i : Nat),
    List.findIdx? p L = some i →
    ∃ x, L[i]? = some x ∧ p x = true ∧ ∀ j, j < i → ∀ y, L[j]? = some y → p y = false
  | [], p, i, h => by simp [List.findIdx?] at h
  | x :: xs, p, i, h => by
    rw [List.findIdx?_cons] at h
    by_cases hp : p x = true
    · rw [if_pos hp] at h
      simp only [Option.some.injEq] at h
      refine ⟨x, by rw [← h]; simp, hp, ?_⟩
      intro j hj
      rw [← h] at hj
      omega
    · rw [if_neg hp] at h
      rw [findIdx?_add xs p (0 + 1)] at h
      cases hfx : List.findIdx? p xs 0 with
      | none => rw [hfx] at h; simp [Option.map] at h
      | some i' =>
        rw [hfx] at h
        simp only [Option.map, Option.some.injEq] at h
        obtain ⟨x', hx', hpx', hprev⟩ := findIdx?_some_spec xs p i' hfx
        refine ⟨x', by rw [← h]; simpa using hx', hpx', ?_⟩
        intro j hj y hy
        cases j with
        | zero =>
          simp only [List.getElem?_cons_zero, Option.some.injEq] at hy
          rw [← hy]
          simpa using hp
        | succ j' =>
          simp only [List.getElem?_cons_succ] at hy
          exact hprev j' (by omega) y hy

theorem findIdx?_eq_some_of {α : Type} : ∀ (L : List α) (p : α → Bool) (i : Nat) (x : α),
    L[i]? = some x → p x = true →
    (∀ j, j < i → ∀ y, L[j]? = some y → p y = false) →
    List.findIdx? p L = some i
  | [], p, i, x, hx, _, _ => by simp at hx
  | a :: as, p, 0, x, hx, hpx, _ => by
    simp only [List.getElem?_cons_zero, Option.some.injEq] at hx
    rw [List.findIdx?_cons, if_pos (hx ▸ hpx)]
  | a :: as, p, i + 1, x, hx, hpx, hprev => by
    have hpa : p a = false := hprev 0 (by omega) a (by simp)
    rw [List.findIdx?_cons, if_neg (by simp [hpa])]
    rw [findIdx?_add as p (0 + 1)]
    rw [findIdx?_eq_some_of as p i x (by simpa using hx) hpx
      (fun j hj y hy => hprev (j + 1) (by omega) y (by simpa using hy))]
    rfl

theorem getElem?_insertIdx_lt {α : Type} : ∀ (L : List α) (i j : Nat) (x : α), j < i →
    (List.insertIdx i x L)[j]? = L[j]?
  | L, 0, j, x, h => absurd h (by omega)
  | [], i + 1, j, x, h => by
    rw [show List.insertIdx (i + 1) x ([] : List α) = [] from rfl]
  | a :: as, i + 1, 0, x, h => by
    rw [show List.insertIdx (i + 1) x (a :: as) = a :: List.insertIdx i x as from rfl]
    simp
  | a :: as, i + 1, j + 1, x, h => by
    rw [show List.insertIdx (i + 1) x (a :: as) = a :: List.insertIdx i x as from rfl]
    simp only [List.getElem?_cons_succ]
    exact getElem?_insertIdx_lt as i j x (by omega)

theorem getElem?_insertIdx_self {α : Type} : ∀ (L : List α) (i : Nat) (x : α), i ≤ L.length →
    (List.insertIdx i x L)[i]? = some x
  | L, 0, x, _ => by
    rw [show List.insertIdx 0 x L = x :: L from rfl]
    simp
  | [], i + 1, x, h => by simp at h
  | a :: as, i + 1, x, h => by
    rw [show List.insertIdx (i + 1) x (a :: as) = a :: List.insertIdx i x as from rfl]
    simp only [List.getElem?_cons_succ]
    exact getElem?_insertIdx_self as i x (by simpa using h)

theorem getElem?_insertIdx_succ {α : Type} : ∀ (L : List α) (i j : Nat) (x : α), i ≤ j →
    (List.insertIdx i x L)[j + 1]? = L[j]?
  | L, 0, j, x, _ => by
    rw [show List.insertIdx 0 x L = x :: L from rfl]
    simp
  | [], i + 1, j, x, h => by
    rw [show List.insertIdx (i + 1) x ([] : List α) = [] from rfl]
    simp
  | a :: as, i + 1, j, x, h => by
    match j, h with
    | j' + 1, h =>
      rw [show List.insertIdx (i + 1) x (a :: as) = a :: List.insertIdx i x as from rfl]
      simp only [List.getElem?_cons_succ]
      exact getElem?_insertIdx_succ as i j' x (by omega)

theorem mem_insertIdx {α : Type} : ∀ (L : List α) (i : Nat) (x y : α),
    y ∈ List.insertIdx i x L → y = x ∨ y ∈ L
  | L, 0, x, y, h => by
    rw [show List.insertIdx 0 x L = x :: L from rfl] at h
    simpa using h
  | [], i + 1, x, y, h => by
    rw [show List.insertIdx (i + 1) x ([] : List α) = [] from rfl] at h
    simp at h
  | a :: as, i + 1, x, y, h => by
    rw [show List.insertIdx (i + 1) x (a :: as) = a :: List.insertIdx i x as from rfl] at h
    simp only [List.mem_cons] at h
    rcases h with rfl | h
    · exact Or.inr (by simp)
    · rcases mem_insertIdx as i x y h with h | h
      · exact Or.inl h
      · exact Or.inr (by simp [h])

theorem eq_append_of_getLast? {α : Type} : ∀ (L : List α) (a : α), L.getLast? = some a →
    ∃ xs, L = xs ++ [a]
  | [], a, h => by simp at h
  | [b], a, h => by
    simp only [List.getLast?_singleton, Option.some.injEq] at h
    exact ⟨[], by rw [h]; rfl⟩
  | b :: c :: L, a, h => by
    rw [List.getLast?_cons_cons] at h
    obtain ⟨xs, hxs⟩ := eq_append_of_getLast? (c :: L) a h
    exact ⟨b :: xs, by rw [show b :: c :: L = b :: (c :: L) from rfl, hxs]; rfl⟩

theorem splitLines_chars : ∀ (T : Str) (r : Str), r ∈ splitLines T → ∀ c ∈ r, c ∈ T ∧ c ≠ '\n'
  | [], r, hr, c, hc => by
    simp [splitLines] at hr
    subst hr
    simp at hc
  | [c0], r, hr, c, hc => by
    by_cases h0 : c0 = '\n'
    · simp [splitLines, h0] at hr
      subst hr
      simp at hc
    · simp [splitLines, h0] at hr
      subst hr
      simp at hc
      subst hc
      exact ⟨by simp, h0⟩
  | c0 :: c2 :: rest, r, hr, c, hc => by
    simp only [splitLines] at hr
    split at hr
    · simp only [List.mem_cons] at hr
      rcases hr with rfl | hr
      · simp at hc
      · have := splitLines_chars (c2 :: rest) r hr c hc
        exact ⟨List.mem_cons_of_mem c0 this.1, this.2⟩
    · split at hr
      · simp only [List.mem_cons] at hr
        rcases hr with rfl | hr
        · simp at hc
        · have := splitLines_chars rest r hr c hc
          exact ⟨List.mem_cons_of_mem c0 (List.mem_cons_of_mem c2 this.1), this.2⟩
      · rename_i h0 hcr
        match hs : splitLines (c2 :: rest), splitLines_ne_nil (c2 :: rest) with
        | y :: ys, _ =>
          rw [hs] at hr
          simp only [consHead, List.mem_cons] at hr
          rcases hr with rfl | hr
          · simp only [List.mem_cons] at hc
            rcases hc with rfl | hc
            · exact ⟨by simp, h0⟩
            · have := splitLines_chars (c2 :: rest) y (by rw [hs]; simp) c hc
              exact ⟨List.mem_cons_of_mem c0 this.1, this.2⟩
          · have := splitLines_chars (c2 :: rest) r (by rw [hs]; simp [hr]) c hc
            exact ⟨List.mem_cons_of_mem c0 this.1, this.2⟩

theorem parse_lines_def (T : Str) : (parseDotenvDocument T).lines =
    (buildLines 1 (if endsWithLF T = true then (splitLines T).dropLast else splitLines T)).1 :=
  rfl

theorem parse_ends_def (T : Str) : (parseDotenvDocument T).endsWithNewline = endsWithLF T := rfl

theorem parse_raw_chars (T : Str) (l : DLine) (h : l ∈ (parseDotenvDocument T).lines) :
    ∀ c ∈ l.raw, c ∈ T ∧ c ≠ '\n' := by
  intro c hc
  have hmem : l.raw ∈ ((parseDotenvDocument T).lines.map DLine.raw) := List.mem_map_of_mem _ h
  rw [parse_lines_def, buildLines_raws] at hmem
  have hsplit : l.raw ∈ splitLines T := by
    split at hmem
    · exact List.dropLast_subset _ hmem
    · exact hmem
  exact splitLines_chars T l.raw hsplit c hc

theorem lineSafe_of_parse (T : Str) (hT : ∀ c ∈ T, c ≠ '\r') (l : DLine)
    (h : l ∈ (parseDotenvDocument T).lines) : lineSafe l.raw := by
  intro c hc
  have := parse_raw_chars T l h c hc
  exact ⟨this.2, hT c this.1⟩

theorem parse_lineNo (T : Str) (i : Nat) (l : DLine)
    (h : (parseDotenvDocument T).lines[i]? = some l) : l.lineNo = 1 + i := by
  rw [parse_lines_def] at h
  exact buildLines_lineNo 1 _ i l h

theorem mem_joinLines : ∀ (raws : List Str) (c : Char), c ∈ joinLines raws →
    c = '\n' ∨ ∃ r ∈ raws, c ∈ r
  | [], c, h => by simp [joinLines] at h
  | [r], c, h => Or.inr ⟨r, by simp, h⟩
  | r :: r2 :: raws, c, h => by
    rw [show joinLines (r :: r2 :: raws) = r ++ '\n' :: joinLines (r2 :: raws) from rfl] at h
    simp only [List.mem_append, List.mem_cons] at h
    rcases h with h | h | h
    · exact Or.inr ⟨r, by simp, h⟩
    · exact Or.inl h
    · rcases mem_joinLines (r2 :: raws) c h with h | ⟨r', hr', hc⟩
      · exact Or.inl h
      · exact Or.inr ⟨r', List.mem_cons_of_mem r hr', hc⟩

theorem hasCRLF_eq_false_of_no_cr : ∀ T : Str, (∀ c ∈ T, c ≠ '\r') → hasCRLF T = false
  | [], _ => rfl
  | [_], _ => rfl
  | c :: c2 :: rest, h => by
    simp only [hasCRLF, Bool.or_eq_false_iff]
    refine ⟨by simp [h c (by simp)], ?_⟩
    exact hasCRLF_eq_false_of_no_cr (c2 :: rest) fun x hx => h x (List.mem_cons_of_mem c hx)

theorem stringify_no_cr (doc : DotenvDocument)
    (hsafe : ∀ l ∈ doc.lines, lineSafe l.raw) :
    ∀ c ∈ stringifyDotenvDocument doc, c ≠ '\r' := by
  intro c hc
  unfold stringifyDotenvDocument at hc
  simp only [List.mem_append] at hc
  rcases hc with hc | hc
  · rcases mem_joinLines _ c hc with rfl | ⟨r, hr, hcr⟩
    · decide
    · obtain ⟨l, hl, rfl⟩ := List.mem_map.mp hr
      exact (hsafe l hl c hcr).2
  · split at hc
    · simp only [List.mem_singleton] at hc
      subst hc
      decide
    · simp at hc

theorem listAssignments_cons (l : DLine) (L : List DLine) :
    listAssignments (l :: L) =
      (match l with | .assignment a => [a] | _ => []) ++ listAssignments L := by
  unfold listAssignments
  rw [List.filterMap_cons]
  cases l <;> rfl

theorem listAssignments_insertIdx_comment : ∀ (L : List DLine) (i n : Nat) (r : Str),
    listAssignments (List.insertIdx i (DLine.comment n r) L) = listAssignments L
  | L, 0, n, r => by
    rw [show List.insertIdx 0 (DLine.comment n r) L = DLine.comment n r :: L from rfl,
      listAssignments_cons]
    rfl
  | [], i + 1, n, r => by
    rw [show List.insertIdx (i + 1) (DLine.comment n r) ([] : List DLine) = [] from rfl]
  | l :: L, i + 1, n, r => by
    rw [show List.insertIdx (i + 1) (DLine.comment n r) (l :: L)
        = l :: List.insertIdx i (DLine.comment n r) L from rfl,
      listAssignments_cons, listAssignments_cons, listAssignments_insertIdx_comment L i n r]

theorem withLine_key (a : Assignment) (n : Nat) : (a.withLine n).key = a.key := rfl

theorem withLine_lw (a : Assignment) (n : Nat) :
    (a.withLine n).leadingWhitespace = a.leadingWhitespace := rfl

theorem listAssignments_dekey : ∀ (L L' : List DLine), L.map dekey = L'.map dekey →
    (listAssignments L).map (fun a => a.withLine 0)
      = (listAssignments L').map (fun a => a.withLine 0)
  | [], [], _ => rfl
  | [], l' :: L', h => by simp at h
  | l :: L, [], h => by simp at h
  | l :: L, l' :: L', h => by
    simp only [List.map_cons, List.cons.injEq] at h
    obtain ⟨h1, h2⟩ := h
    rw [listAssignments_cons, listAssignments_cons, List.map_append, List.map_append]
    rw [listAssignments_dekey L L' h2]
    congr 1
    cases l <;> cases l' <;> simp_all [dekey, DLine.withLine]

theorem filter_key_map_w0 (A : List Assignment) (key : Str) :
    ((A.map fun a => a.withLine 0).filter fun a => decide (a.key = key))
      = (A.filter fun a => decide (a.key = key)).map fun a => a.withLine 0 := by
  rw [List.filter_map]
  congr 1

theorem dekey_eq_comment (l : DLine) (r : Str) (h : dekey l = DLine.comment 0 r) :
    ∃ n, l = DLine.comment n r := by
  cases l with
  | blank n raw => simp [dekey, DLine.withLine] at h
  | comment n raw =>
    simp only [dekey, DLine.withLine, DLine.comment.injEq, true_and] at h
    exact ⟨n, by rw [h]⟩
  | assignment a => simp [dekey, DLine.withLine] at h
  | unknown n raw => simp [dekey, DLine.withLine] at h

theorem dekey_eq_assignment (l : DLine) (a0 : Assignment) (h : dekey l = DLine.assignment a0) :
    ∃ a, l = DLine.assignment a ∧ a.withLine 0 = a0 := by
  cases l with
  | blank n raw => simp [dekey, DLine.withLine] at h
  | comment n raw => simp [dekey, DLine.withLine] at h
  | assignment a =>
    simp only [dekey, DLine.withLine, DLine.assignment.injEq] at h
    exact ⟨a, rfl, h⟩
  | unknown n raw => simp [dekey, DLine.withLine] at h

theorem assignment_mem_listAssignments (L : List DLine) (a : Assignment)
    (h : DLine.assignment a ∈ L) : a ∈ listAssignments L := by
  unfold listAssignments
  rw [List.mem_filterMap]
  exact ⟨DLine.assignment a, h, rfl⟩

theorem map_w0_singleton (A : List Assignment) (t : Assignment)
    (h : A.map (fun a => a.withLine 0) = [t.withLine 0]) :
    ∃ t', A = [t'] ∧ t'.withLine 0 = t.withLine 0 := by
  cases A with
  | nil => simp at h
  | cons a as =>
    cases as with
    | nil =>
      simp only [List.map_cons, List.map_nil, List.cons.injEq, and_true] at h
      exact ⟨a, rfl, h⟩
    | cons b bs => simp at h

theorem map_dekey_getElem (A B : List DLine) (h : A.map dekey = B.map dekey) (i : Nat) :
    (A[i]?).map dekey = (B[i]?).map dekey := by
  have := congrArg (fun L => L[i]?) h
  simpa [List.getElem?_map] using this

theorem classify_dekey_assignment (raw : Str) (a0 : Assignment)
    (h : dekey (classifyLine 1 raw).1 = DLine.assignment a0) :
    ∃ a iss, parseAssignmentLine 1 raw = (some a, iss) ∧ a.withLine 0 = a0 := by
  unfold classifyLine at h
  split at h
  · simp [dekey, DLine.withLine] at h
  · split at h
    · simp [dekey, DLine.withLine] at h
    · cases hpa : parseAssignmentLine 1 raw with
      | mk o iss =>
        rw [hpa] at h
        cases o with
        | some a =>
          dsimp only [] at h
          simp only [dekey, DLine.withLine, DLine.assignment.injEq] at h
          exact ⟨a, iss, rfl, h⟩
        | none =>
          dsimp only [] at h
          simp [dekey, DLine.withLine] at h

theorem trimEnd_cons_ne_nil (c : Char) (rest : Str) (h : jsWs c = false) :
    trimEnd (c :: rest) ≠ [] := by
  rw [trimEnd.eq_def]
  dsimp only []
  cases htr : trimEnd rest with
  | nil => simp [h]
  | cons r rs => simp

theorem classifyLine_comment_of (n : Nat) (lw rest : Str)
    (hlw : ∀ c ∈ lw, jsWs c = true) :
    classifyLine n (lw ++ '#' :: rest) = (DLine.comment n (lw ++ '#' :: rest), []) := by
  have hts : trimStart (lw ++ '#' :: rest) = '#' :: rest := by
    rw [trimStart_ws_append lw _ hlw, trimStart_cons_of_not_ws _ _ (by decide)]
  have htrim : trim (lw ++ '#' :: rest) ≠ [] := by
    unfold trim
    rw [hts]
    exact trimEnd_cons_ne_nil _ _ (by decide)
  unfold classifyLine
  rw [if_neg htrim, hts, if_pos (show (('#' :: rest : Str)).head? = some '#' from rfl)]
/-- State reached after inserting a marker comment at the target index: reparsing
the stringified document yields a unique key match shifted one line down, the
marker comment sits immediately above it, and the text stays CR-free. -/
theorem insert_state_facts (DL : List DLine) (ti : Nat) (target : Assignment)
    (key comment : Str) (E : Bool) (ISS : List DotenvIssue)
    (hwfDL : ∀ l ∈ DL, wfLine l)
    (hsafeDL : ∀ l ∈ DL, lineSafe l.raw)
    (hkeyDL : ((listAssignments DL).filter fun a => decide (a.key = key)) = [target])
    (hjt : DL[ti]? = some (DLine.assignment target))
    (hdr_safe : lineSafe (target.leadingWhitespace ++ "# envsitter: ".toList ++ comment))
    (hlwWs : ∀ c ∈ target.leadingWhitespace, jsWs c = true)
    (hlastDL : E = false → ∃ xs l, DL = xs ++ [l] ∧ l.raw ≠ []) :
    ∃ a₁ : Assignment,
      a₁.withLine 0 = target.withLine 0 ∧
      a₁.line = ti + 2 ∧
      (((listAssignments (parseDotenvDocument (stringifyDotenvDocument ⟨List.insertIdx ti (DLine.comment target.line (target.leadingWhitespace ++ "# envsitter: ".toList ++ comment)) DL, ISS, E⟩)).lines).filter
        fun a => decide (a.key = key)) = [a₁]) ∧
      ((parseDotenvDocument (stringifyDotenvDocument ⟨List.insertIdx ti (DLine.comment target.line (target.leadingWhitespace ++ "# envsitter: ".toList ++ comment)) DL, ISS, E⟩)).lines.findIdx? (fun l => match l with
        | .assignment a => decide (a.line = a₁.line)
        | _ => false) = some (ti + 1)) ∧
      ((parseDotenvDocument (stringifyDotenvDocument ⟨List.insertIdx ti (DLine.comment target.line (target.leadingWhitespace ++ "# envsitter: ".toList ++ comment)) DL, ISS, E⟩)).lines[ti]? =
        some (DLine.comment (ti + 1) (target.leadingWhitespace ++ "# envsitter: ".toList ++ comment))) ∧
      (∀ c ∈ (stringifyDotenvDocument ⟨List.insertIdx ti (DLine.comment target.line (target.leadingWhitespace ++ "# envsitter: ".toList ++ comment)) DL, ISS, E⟩), c ≠ '\r') := by
  have hti_len : ti < DL.length := by
    by_contra hcon
    push_neg at hcon
    rw [List.getElem?_eq_none hcon] at hjt
    simp at hjt
  have hsafe1 : ∀ l ∈ (List.insertIdx ti (DLine.comment target.line (target.leadingWhitespace ++ "# envsitter: ".toList ++ comment)) DL), lineSafe l.raw := by
    intro l hl
    rcases mem_insertIdx _ _ _ _ hl with rfl | hl
    · exact hdr_safe
    · exact hsafeDL l hl
  have hlen1 : (List.insertIdx ti (DLine.comment target.line (target.leadingWhitespace ++ "# envsitter: ".toList ++ comment)) DL).length = DL.length + 1 := by
    rw [List.length_insertIdx]
    simp [Nat.le_of_lt hti_len]
  have hne1 : (List.insertIdx ti (DLine.comment target.line (target.leadingWhitespace ++ "# envsitter: ".toList ++ comment)) DL) ≠ [] := by
    intro hcon
    rw [hcon] at hlen1
    simp at hlen1
  have hlast1 : E = false → ∃ xs l, (List.insertIdx ti (DLine.comment target.line (target.leadingWhitespace ++ "# envsitter: ".toList ++ comment)) DL) = xs ++ [l] ∧ l.raw ≠ [] := by
    intro he
    obtain ⟨xs, llast, hxs, hlr⟩ := hlastDL he
    have hgl : DL.getLast? = some llast := by
      rw [hxs, List.getLast?_concat]
    have hl1 : (List.insertIdx ti (DLine.comment target.line (target.leadingWhitespace ++ "# envsitter: ".toList ++ comment)) DL).getLast? = some llast := by
      rw [getLast?_insertIdx DL ti _ hti_len]
      exact hgl
    obtain ⟨ys, hys⟩ := eq_append_of_getLast? _ llast hl1
    exact ⟨ys, llast, hys, hlr⟩
  have hparse2 := parse_stringify_doc (List.insertIdx ti (DLine.comment target.line (target.leadingWhitespace ++ "# envsitter: ".toList ++ comment)) DL) ISS E hsafe1 hne1 hlast1
  have hclass_mc : ∀ n, classifyLine n (target.leadingWhitespace ++ "# envsitter: ".toList ++ comment)
      = (DLine.comment n (target.leadingWhitespace ++ "# envsitter: ".toList ++ comment), []) := by
    intro n
    rw [show target.leadingWhitespace ++ "# envsitter: ".toList ++ comment
        = target.leadingWhitespace ++ '#' :: (" envsitter: ".toList ++ comment) from by
      rw [List.append_assoc]
      rfl]
    exact classifyLine_comment_of n target.leadingWhitespace _ hlwWs
  have hwf1 : ∀ l ∈ (List.insertIdx ti (DLine.comment target.line (target.leadingWhitespace ++ "# envsitter: ".toList ++ comment)) DL), wfLine l := by
    intro l hl
    rcases mem_insertIdx _ _ _ _ hl with rfl | hl
    · unfold wfLine
      rw [show DLine.raw (DLine.comment target.line (target.leadingWhitespace ++ "# envsitter: ".toList ++ comment)) = target.leadingWhitespace ++ "# envsitter: ".toList ++ comment from rfl, hclass_mc 1]
      rfl
    · exact hwfDL l hl
  have hdk : ((buildLines 1 ((List.insertIdx ti (DLine.comment target.line (target.leadingWhitespace ++ "# envsitter: ".toList ++ comment)) DL).map DLine.raw)).1).map dekey = (List.insertIdx ti (DLine.comment target.line (target.leadingWhitespace ++ "# envsitter: ".toList ++ comment)) DL).map dekey :=
    buildLines_wf_dekey 1 _ hwf1
  have hL1ti : (List.insertIdx ti (DLine.comment target.line (target.leadingWhitespace ++ "# envsitter: ".toList ++ comment)) DL)[ti]? = some (DLine.comment target.line (target.leadingWhitespace ++ "# envsitter: ".toList ++ comment)) :=
    getElem?_insertIdx_self _ ti _ (Nat.le_of_lt hti_len)
  have hL1ti1 : (List.insertIdx ti (DLine.comment target.line (target.leadingWhitespace ++ "# envsitter: ".toList ++ comment)) DL)[ti + 1]? = some (DLine.assignment target) := by
    rw [getElem?_insertIdx_succ _ ti ti _ (Nat.le_refl ti)]
    exact hjt
  obtain ⟨a₁, hL1, hw1⟩ : ∃ a₁, ((buildLines 1 ((List.insertIdx ti (DLine.comment target.line (target.leadingWhitespace ++ "# envsitter: ".toList ++ comment)) DL).map DLine.raw)).1)[ti + 1]? = some (DLine.assignment a₁) ∧
      a₁.withLine 0 = target.withLine 0 := by
    have h2 := map_dekey_getElem _ _ hdk (ti + 1)
    rw [hL1ti1] at h2
    cases hg : ((buildLines 1 ((List.insertIdx ti (DLine.comment target.line (target.leadingWhitespace ++ "# envsitter: ".toList ++ comment)) DL).map DLine.raw)).1)[ti + 1]? with
    | none => rw [hg] at h2; simp [Option.map] at h2
    | some l' =>
      rw [hg] at h2
      simp only [Option.map, Option.some.injEq] at h2
      rw [dekey_assignment] at h2
      obtain ⟨a₁, hl', hw⟩ := dekey_eq_assignment l' _ h2
      exact ⟨a₁, by rw [hl'], hw⟩
  have hcomment_ti : ((buildLines 1 ((List.insertIdx ti (DLine.comment target.line (target.leadingWhitespace ++ "# envsitter: ".toList ++ comment)) DL).map DLine.raw)).1)[ti]? = some (DLine.comment (ti + 1) (target.leadingWhitespace ++ "# envsitter: ".toList ++ comment)) := by
    have h2 := map_dekey_getElem _ _ hdk ti
    rw [hL1ti] at h2
    cases hg : ((buildLines 1 ((List.insertIdx ti (DLine.comment target.line (target.leadingWhitespace ++ "# envsitter: ".toList ++ comment)) DL).map DLine.raw)).1)[ti]? with
    | none => rw [hg] at h2; simp [Option.map] at h2
    | some l' =>
      rw [hg] at h2
      simp only [Option.map, Option.some.injEq] at h2
      obtain ⟨n', hl'⟩ := dekey_eq_comment l' (target.leadingWhitespace ++ "# envsitter: ".toList ++ comment) (by rw [h2]; rfl)
      have hn := buildLines_lineNo 1 _ ti l' hg
      rw [hl'] at hn
      simp only [DLine.lineNo] at hn
      rw [hl']
      congr 2
      omega
  have ha1line : a₁.line = ti + 2 := by
    have h := buildLines_lineNo 1 _ (ti + 1) _ hL1
    simp only [DLine.lineNo] at h
    omega
  have ha1key : a₁.key = key := by
    have h2 : a₁.key = target.key := congrArg (fun a => a.key) hw1
    have h3 : target.key = key := by
      have hm : target ∈ (listAssignments DL).filter fun a => decide (a.key = key) := by
        rw [hkeyDL]
        simp
      simpa using (List.mem_filter.mp hm).2
    rw [h2, h3]
  have hfilter2 : ((listAssignments ((buildLines 1 ((List.insertIdx ti (DLine.comment target.line (target.leadingWhitespace ++ "# envsitter: ".toList ++ comment)) DL).map DLine.raw)).1)).filter fun a => decide (a.key = key)) = [a₁] := by
    have hchain : (((listAssignments ((buildLines 1 ((List.insertIdx ti (DLine.comment target.line (target.leadingWhitespace ++ "# envsitter: ".toList ++ comment)) DL).map DLine.raw)).1)).filter fun a => decide (a.key = key)).map
        (fun a => a.withLine 0)) = [target.withLine 0] := by
      rw [← filter_key_map_w0, listAssignments_dekey _ _ hdk,
        listAssignments_insertIdx_comment, filter_key_map_w0, hkeyDL]
      rfl
    obtain ⟨t', ht', hw'⟩ := map_w0_singleton _ target hchain
    have ha1mem : a₁ ∈ (listAssignments ((buildLines 1 ((List.insertIdx ti (DLine.comment target.line (target.leadingWhitespace ++ "# envsitter: ".toList ++ comment)) DL).map DLine.raw)).1)).filter fun a => decide (a.key = key) := by
      apply List.mem_filter.mpr
      refine ⟨assignment_mem_listAssignments _ _ (List.getElem?_mem hL1), by simp [ha1key]⟩
    rw [ht'] at ha1mem
    simp only [List.mem_singleton] at ha1mem
    rw [ht', ha1mem]
  have hfind2 : ((buildLines 1 ((List.insertIdx ti (DLine.comment target.line (target.leadingWhitespace ++ "# envsitter: ".toList ++ comment)) DL).map DLine.raw)).1).findIdx? (fun l => match l with
      | .assignment a => decide (a.line = a₁.line)
      | _ => false) = some (ti + 1) := by
    apply findIdx?_eq_some_of _ _ (ti + 1) (DLine.assignment a₁) hL1 (by simp)
    intro j hj y hy
    cases y with
    | assignment b =>
      have hbl := buildLines_lineNo 1 _ j _ hy
      simp only [DLine.lineNo] at hbl
      simp only [decide_eq_false_iff_not]
      omega
    | blank n r => rfl
    | comment n r => rfl
    | unknown n r => rfl
  have hnocr : ∀ c ∈ (stringifyDotenvDocument ⟨List.insertIdx ti (DLine.comment target.line (target.leadingWhitespace ++ "# envsitter: ".toList ++ comment)) DL, ISS, E⟩), c ≠ '\r' :=
    stringify_no_cr _ hsafe1
  refine ⟨a₁, hw1, ha1line, ?_, ?_, ?_, hnocr⟩
  · rw [hparse2]
    exact hfilter2
  · rw [hparse2]
    exact hfind2
  · rw [hparse2]
    exact hcomment_ti

/-- Evaluating `annotateDotenvKey` on a document whose unique key match sits at
index `ti + 1` with the marker comment immediately above it: the call takes the
`updated` branch and rewrites the comment in place, leaving the text unchanged. -/
theorem annotate_on_marker_state (T2 key comment : Str) (ti : Nat) (a₁ : Assignment)
    (hcrlf2 : hasCRLF T2 = false)
    (hlw1 : ∀ c ∈ a₁.leadingWhitespace, jsWs c = true)
    (hfilter2 : ((listAssignments (parseDotenvDocument T2).lines).filter
      fun a => decide (a.key = key)) = [a₁])
    (hfind2 : (parseDotenvDocument T2).lines.findIdx? (fun l => match l with
      | .assignment a => decide (a.line = a₁.line)
      | _ => false) = some (ti + 1))
    (hprev2 : (parseDotenvDocument T2).lines[ti]? =
      some (DLine.comment (ti + 1) (a₁.leadingWhitespace ++ "# envsitter: ".toList ++ comment))) :
    (annotateDotenvKey T2 key comment none).plan.action = .updated ∧
    (annotateDotenvKey T2 key comment none).output = T2 := by
  have hmarker : markerPrefix.isPrefixOf
      (trimStart (a₁.leadingWhitespace ++ "# envsitter: ".toList ++ comment)) = true := by
    rw [List.append_assoc, trimStart_ws_append _ _ hlw1]
    rw [show ("# envsitter: ".toList ++ comment : Str) =
      '#' :: (" envsitter: ".toList ++ comment) from rfl]
    rw [trimStart_cons_of_not_ws _ _ (by decide)]
    rw [show ('#' :: (" envsitter: ".toList ++ comment) : Str) =
      markerPrefix ++ (' ' :: comment) from rfl]
    exact isPrefixOf_append_self markerPrefix (' ' :: comment)
  unfold annotateDotenvKey
  dsimp only []
  rw [hfilter2]
  dsimp only []
  rw [show (if ([a₁] : List Assignment).length > 1 then (none : Option Assignment)
    else some a₁) = some a₁ from rfl]
  dsimp only []
  rw [hfind2]
  dsimp only []
  rw [if_pos (Nat.succ_pos ti)]
  rw [show ti + 1 - 1 = ti from rfl]
  rw [hprev2]
  dsimp only []
  rw [if_pos hmarker]
  refine ⟨rfl, ?_⟩
  show stringifyDotenvDocument
    ⟨(parseDotenvDocument T2).lines.set ti (DLine.comment (ti + 1) (a₁.leadingWhitespace ++ "# envsitter: ".toList ++ comment)),
      (parseDotenvDocument T2).issues, (parseDotenvDocument T2).endsWithNewline⟩ = T2
  rw [list_set_self _ _ _ hprev2]
  exact stringify_parse_of_noCRLF T2 hcrlf2

/-- Inserting a marker comment for a uniquely matched key and then annotating the
same key again with the same comment hits the `updated` branch and leaves the
once-annotated text unchanged: annotation never duplicates the comment line. -/
theorem annotate_insert_then_update (T key comment : Str)
    (hTcr : ∀ c ∈ T, c ≠ '\r')
    (hcm : ∀ c ∈ comment, c ≠ '\n' ∧ c ≠ '\r')
    (target : Assignment)
    (hkey : ((listAssignments (parseDotenvDocument T).lines).filter
      fun a => decide (a.key = key)) = [target])
    (hins : (annotateDotenvKey T key comment none).plan.action = .inserted) :
    (annotateDotenvKey (annotateDotenvKey T key comment none).output key comment
      none).plan.action = .updated ∧
    (annotateDotenvKey (annotateDotenvKey T key comment none).output key comment
      none).output = (annotateDotenvKey T key comment none).output := by
  have htfilter : target ∈ (listAssignments (parseDotenvDocument T).lines).filter
      fun a => decide (a.key = key) := by
    rw [hkey]
    simp
  have htmem : DLine.assignment target ∈ (parseDotenvDocument T).lines :=
    mem_listAssignments _ _ (List.mem_of_mem_filter htfilter)
  have hlwWs : ∀ c ∈ target.leadingWhitespace, jsWs c = true :=
    mem_parse_assignment_lw T target htmem
  cases hti0 : (parseDotenvDocument T).lines.findIdx? (fun l => match l with
      | .assignment a => decide (a.line = target.line)
      | _ => false) with
  | none =>
    exfalso
    have heq : (annotateDotenvKey T key comment none).plan.action = .not_found := by
      unfold annotateDotenvKey
      dsimp only []
      rw [hkey]
      dsimp only []
      rw [show (if ([target] : List Assignment).length > 1 then (none : Option Assignment)
        else some target) = some target from rfl]
      dsimp only []
      rw [hti0]
    exact absurd (heq.symm.trans hins) (by simp)
  | some ti =>
    obtain ⟨x, hx, hpx, hjprev⟩ := findIdx?_some_spec _ _ ti hti0
    obtain ⟨ax, rfl, haline⟩ : ∃ ax, x = DLine.assignment ax ∧ ax.line = target.line := by
      cases x with
      | assignment a => exact ⟨a, rfl, by simpa using hpx⟩
      | blank n r => simp at hpx
      | comment n r => simp at hpx
      | unknown n r => simp at hpx
    have haxline : ax.line = 1 + ti := by
      have h := parse_lineNo T ti _ hx
      simpa [DLine.lineNo] using h
    obtain ⟨jt, hjt⟩ := List.mem_iff_getElem?.mp htmem
    have htline : target.line = 1 + jt := by
      have h := parse_lineNo T jt _ hjt
      simpa [DLine.lineNo] using h
    have hjteq : jt = ti := by omega
    rw [hjteq] at hjt
    have htsafe : ∀ c ∈ target.raw, c ≠ '\n' ∧ c ≠ '\r' :=
      lineSafe_of_parse T hTcr (DLine.assignment target) htmem
    have hwfT : dekey (classifyLine 1 target.raw).1 = DLine.assignment (target.withLine 0) :=
      wfLine_of_mem_parse T _ htmem
    obtain ⟨a2, iss2, hpa2, hw02⟩ := classify_dekey_assignment target.raw _ hwfT
    have hlw_eq : target.leadingWhitespace = List.takeWhile jsWs target.raw := by
      have h1 := parseAssignmentLine_lw 1 target.raw a2 iss2 hpa2
      have h2 : a2.leadingWhitespace = target.leadingWhitespace :=
        congrArg (fun a => a.leadingWhitespace) hw02
      rw [← h2]
      exact h1
    have hdr_safe : lineSafe (target.leadingWhitespace ++ "# envsitter: ".toList ++ comment) := by
      intro c hc
      simp only [List.mem_append] at hc
      rcases hc with (hc | hc) | hc
      · have hcr : c ∈ target.raw := (List.takeWhile_prefix jsWs).subset (by rwa [hlw_eq] at hc)
        exact htsafe c hcr
      · exact (by decide : ∀ x ∈ ("# envsitter: ".toList : Str), x ≠ '\n' ∧ x ≠ '\r') c hc
      · exact hcm c hc
    have hlastDL : (parseDotenvDocument T).endsWithNewline = false →
        ∃ xs l, (parseDotenvDocument T).lines = xs ++ [l] ∧ l.raw ≠ [] := by
      intro he
      have hTne : T ≠ [] := by
        intro hTnil
        subst hTnil
        rw [show ((listAssignments (parseDotenvDocument ([] : Str)).lines).filter
          fun a => decide (a.key = key)) = [] from rfl] at hkey
        simp at hkey
      have hclf : endsWithLF T = false := by rwa [parse_ends_def] at he
      have hlastseg : (splitLines T).getLast? ≠ some [] := by
        intro hcon
        exact absurd (getLast?_splitLines_nil T hTne hcon) (by simp [hclf])
      have hdocne : (parseDotenvDocument T).lines ≠ [] := by
        intro hcon
        rw [hcon] at htmem
        simp at htmem
      have hsegs : (parseDotenvDocument T).lines.map DLine.raw = splitLines T := by
        rw [parse_lines_def, buildLines_raws, if_neg (by simp [hclf])]
      obtain ⟨llast, hllast⟩ : ∃ llast, (parseDotenvDocument T).lines.getLast? = some llast :=
        ⟨(parseDotenvDocument T).lines.getLast hdocne, List.getLast?_eq_getLast _ hdocne⟩
      have hlraw : (splitLines T).getLast? = some llast.raw := by
        rw [← hsegs, List.getLast?_map, hllast]
        rfl
      have hlne : llast.raw ≠ [] := by
        intro hcon
        exact hlastseg (by rwa [hcon] at hlraw)
      obtain ⟨xs, hxs⟩ := eq_append_of_getLast? _ llast hllast
      exact ⟨xs, llast, hxs, hlne⟩
    obtain ⟨a₁, hw1, ha1line, hfilter2, hfind2, hprev2, hnocr2⟩ :=
      insert_state_facts (parseDotenvDocument T).lines ti target key comment
        (parseDotenvDocument T).endsWithNewline (parseDotenvDocument T).issues
        (fun l hl => wfLine_of_mem_parse T l hl)
        (fun l hl => lineSafe_of_parse T hTcr l hl)
        hkey hjt hdr_safe hlwWs hlastDL
    have heq1 : annotateDotenvKey T key comment none = ⟨stringifyDotenvDocument
        ⟨List.insertIdx ti (DLine.comment target.line (target.leadingWhitespace ++ "# envsitter: ".toList ++ comment))
            (parseDotenvDocument T).lines,
          (parseDotenvDocument T).issues, (parseDotenvDocument T).endsWithNewline⟩,
        (parseDotenvDocument T).issues, ⟨key, .inserted, none, some target.line⟩, true⟩ := by
      have hmain : (annotateDotenvKey T key comment none).plan.action = .updated ∨
          annotateDotenvKey T key comment none = ⟨stringifyDotenvDocument
        ⟨List.insertIdx ti (DLine.comment target.line (target.leadingWhitespace ++ "# envsitter: ".toList ++ comment))
            (parseDotenvDocument T).lines,
          (parseDotenvDocument T).issues, (parseDotenvDocument T).endsWithNewline⟩,
        (parseDotenvDocument T).issues, ⟨key, .inserted, none, some target.line⟩, true⟩ := by
        unfold annotateDotenvKey
        dsimp only []
        rw [hkey]
        dsimp only []
        rw [show (if ([target] : List Assignment).length > 1 then (none : Option Assignment)
          else some target) = some target from rfl]
        dsimp only []
        rw [hti0]
        dsimp only []
        repeat' split
        all_goals first
          | (left; rfl)
          | (right; rfl)
      rcases hmain with hupd | heq
      · exact absurd (hupd.symm.trans hins) (by simp)
      · exact heq
    have hlweq1 : a₁.leadingWhitespace = target.leadingWhitespace :=
      congrArg (fun a => a.leadingWhitespace) hw1
    have hlw1 : ∀ c ∈ a₁.leadingWhitespace, jsWs c = true := by
      rw [hlweq1]
      exact hlwWs
    have hprev2a : (parseDotenvDocument (stringifyDotenvDocument
        ⟨List.insertIdx ti (DLine.comment target.line (target.leadingWhitespace ++ "# envsitter: ".toList ++ comment))
            (parseDotenvDocument T).lines,
          (parseDotenvDocument T).issues,
          (parseDotenvDocument T).endsWithNewline⟩)).lines[ti]? =
        some (DLine.comment (ti + 1)
          (a₁.leadingWhitespace ++ "# envsitter: ".toList ++ comment)) := by
      rw [hlweq1]
      exact hprev2
    have hres := annotate_on_marker_state _ key comment ti a₁
      (hasCRLF_eq_false_of_no_cr _ hnocr2) hlw1 hfilter2 hfind2 hprev2a
    rw [heq1]
    exact hres

/-- C8: `annotateDotenvKey` returns `not_found` with no mutation when no
assignment carries the key; returns `ambiguous` with all candidate line numbers
and no mutation when several assignments match and the `line` parameter does not
disambiguate; with a unique target whose preceding line is a marker comment it
replaces that comment in place (`updated`); otherwise it inserts a new marker
comment immediately above the target (`inserted`); and re-annotating the same
key with the same comment after an insertion takes the `updated` branch and
leaves the text unchanged, so repeated annotation never duplicates the comment
line. -/
theorem C8_annotate_branches :
    (∀ T key comment line?,
      ((listAssignments (parseDotenvDocument T).lines).filter
        fun a => decide (a.key = key)) = [] →
      annotateDotenvKey T key comment line? =
        ⟨T, (parseDotenvDocument T).issues, ⟨key, .not_found, none, none⟩, false⟩) ∧
    (∀ T key comment,
      1 < (((listAssignments (parseDotenvDocument T).lines).filter
        fun a => decide (a.key = key))).length →
      annotateDotenvKey T key comment none =
        ⟨T, (parseDotenvDocument T).issues,
          ⟨key, .ambiguous, some ((((listAssignments (parseDotenvDocument T).lines).filter
        fun a => decide (a.key = key))).map Assignment.line), none⟩, false⟩) ∧
    (∀ T key comment ln,
      ((listAssignments (parseDotenvDocument T).lines).filter
        fun a => decide (a.key = key)) ≠ [] →
      (((listAssignments (parseDotenvDocument T).lines).filter
        fun a => decide (a.key = key))).find? (fun a => decide (a.line = ln)) = none →
      annotateDotenvKey T key comment (some ln) =
        ⟨T, (parseDotenvDocument T).issues,
          ⟨key, .ambiguous, some ((((listAssignments (parseDotenvDocument T).lines).filter
        fun a => decide (a.key = key))).map Assignment.line), none⟩, false⟩) ∧
    (∀ T key comment target ti pn praw,
      ((listAssignments (parseDotenvDocument T).lines).filter
        fun a => decide (a.key = key)) = [target] →
      (parseDotenvDocument T).lines.findIdx? (fun l => match l with
        | .assignment a => decide (a.line = target.line)
        | _ => false) = some ti →
      0 < ti →
      (parseDotenvDocument T).lines[ti - 1]? = some (DLine.comment pn praw) →
      markerPrefix.isPrefixOf (trimStart praw) = true →
      annotateDotenvKey T key comment none =
        ⟨stringifyDotenvDocument ⟨(parseDotenvDocument T).lines.set (ti - 1) (DLine.comment pn (target.leadingWhitespace ++ "# envsitter: ".toList ++ comment)),
            (parseDotenvDocument T).issues, (parseDotenvDocument T).endsWithNewline⟩,
          (parseDotenvDocument T).issues, ⟨key, .updated, none, some target.line⟩, true⟩ ∧
      ((parseDotenvDocument T).lines.set (ti - 1) (DLine.comment pn (target.leadingWhitespace ++ "# envsitter: ".toList ++ comment))).length = (parseDotenvDocument T).lines.length ∧
      ((parseDotenvDocument T).lines.set (ti - 1) (DLine.comment pn (target.leadingWhitespace ++ "# envsitter: ".toList ++ comment)))[ti - 1]? = some (DLine.comment pn (target.leadingWhitespace ++ "# envsitter: ".toList ++ comment)) ∧
      (∀ j, j ≠ ti - 1 → ((parseDotenvDocument T).lines.set (ti - 1) (DLine.comment pn (target.leadingWhitespace ++ "# envsitter: ".toList ++ comment)))[j]? = (parseDotenvDocument T).lines[j]?)) ∧
    (∀ T key comment target ti,
      ((listAssignments (parseDotenvDocument T).lines).filter
        fun a => decide (a.key = key)) = [target] →
      (parseDotenvDocument T).lines.findIdx? (fun l => match l with
        | .assignment a => decide (a.line = target.line)
        | _ => false) = some ti →
      (∀ pn praw, 0 < ti → (parseDotenvDocument T).lines[ti - 1]? =
        some (DLine.comment pn praw) →
        markerPrefix.isPrefixOf (trimStart praw) = false) →
      annotateDotenvKey T key comment none =
        ⟨stringifyDotenvDocument ⟨List.insertIdx ti (DLine.comment target.line (target.leadingWhitespace ++ "# envsitter: ".toList ++ comment)) (parseDotenvDocument T).lines,
            (parseDotenvDocument T).issues, (parseDotenvDocument T).endsWithNewline⟩,
          (parseDotenvDocument T).issues, ⟨key, .inserted, none, some target.line⟩, true⟩ ∧
      (List.insertIdx ti (DLine.comment target.line (target.leadingWhitespace ++ "# envsitter: ".toList ++ comment)) (parseDotenvDocument T).lines)[ti]? = some (DLine.comment target.line (target.leadingWhitespace ++ "# envsitter: ".toList ++ comment)) ∧
      (∀ j, j < ti → (List.insertIdx ti (DLine.comment target.line (target.leadingWhitespace ++ "# envsitter: ".toList ++ comment)) (parseDotenvDocument T).lines)[j]? = (parseDotenvDocument T).lines[j]?) ∧
      (∀ j, ti ≤ j → (List.insertIdx ti (DLine.comment target.line (target.leadingWhitespace ++ "# envsitter: ".toList ++ comment)) (parseDotenvDocument T).lines)[j + 1]? = (parseDotenvDocument T).lines[j]?)) ∧
    (∀ T key comment target,
      (∀ c ∈ T, c ≠ '\r') →
      (∀ c ∈ comment, c ≠ '\n' ∧ c ≠ '\r') →
      ((listAssignments (parseDotenvDocument T).lines).filter
        fun a => decide (a.key = key)) = [target] →
      (annotateDotenvKey T key comment none).plan.action = .inserted →
      (annotateDotenvKey (annotateDotenvKey T key comment none).output key comment
        none).plan.action = .updated ∧
      (annotateDotenvKey (annotateDotenvKey T key comment none).output key comment
        none).output = (annotateDotenvKey T key comment none).output) := by
  refine ⟨?_, ?_, ?_, ?_, ?_, ?_⟩
  · intro T key comment line? h
    unfold annotateDotenvKey
    dsimp only []
    rw [h]
  · intro T key comment hlen
    unfold annotateDotenvKey
    dsimp only []
    cases hA : ((listAssignments (parseDotenvDocument T).lines).filter
        fun a => decide (a.key = key)) with
    | nil =>
      rw [hA] at hlen
      simp at hlen
    | cons f rest =>
      rw [hA] at hlen
      dsimp only []
      rw [if_pos hlen]
  · intro T key comment ln hne hfind
    unfold annotateDotenvKey
    dsimp only []
    cases hA : ((listAssignments (parseDotenvDocument T).lines).filter
        fun a => decide (a.key = key)) with
    | nil => exact absurd hA hne
    | cons f rest =>
      rw [hA] at hfind
      dsimp only []
      rw [hfind]
  · intro T key comment target ti pn praw hkey hfind hti hprev hmk
    have hmaineq : annotateDotenvKey T key comment none =
        ⟨stringifyDotenvDocument ⟨(parseDotenvDocument T).lines.set (ti - 1) (DLine.comment pn (target.leadingWhitespace ++ "# envsitter: ".toList ++ comment)),
            (parseDotenvDocument T).issues, (parseDotenvDocument T).endsWithNewline⟩,
          (parseDotenvDocument T).issues, ⟨key, .updated, none, some target.line⟩, true⟩ := by
      unfold annotateDotenvKey
      dsimp only []
      rw [hkey]
      dsimp only []
      rw [show (if ([target] : List Assignment).length > 1 then (none : Option Assignment)
        else some target) = some target from rfl]
      dsimp only []
      rw [hfind]
      dsimp only []
      rw [if_pos hti, hprev]
      dsimp only []
      rw [if_pos hmk]
    obtain ⟨x, hx, hpx, hjp⟩ := findIdx?_some_spec _ _ ti hfind
    have hti_len : ti < (parseDotenvDocument T).lines.length := by
      by_contra hcon
      push_neg at hcon
      rw [List.getElem?_eq_none hcon] at hx
      simp at hx
    refine ⟨hmaineq, List.length_set _ _ _, List.getElem?_set_self (by omega), ?_⟩
    intro j hj
    exact List.getElem?_set_ne (Ne.symm hj)
  · intro T key comment target ti hkey hfind hnotmk
    obtain ⟨x, hx, hpx, hjp⟩ := findIdx?_some_spec _ _ ti hfind
    have hti_len : ti < (parseDotenvDocument T).lines.length := by
      by_contra hcon
      push_neg at hcon
      rw [List.getElem?_eq_none hcon] at hx
      simp at hx
    have hmaineq : annotateDotenvKey T key comment none =
        ⟨stringifyDotenvDocument ⟨List.insertIdx ti (DLine.comment target.line (target.leadingWhitespace ++ "# envsitter: ".toList ++ comment)) (parseDotenvDocument T).lines,
            (parseDotenvDocument T).issues, (parseDotenvDocument T).endsWithNewline⟩,
          (parseDotenvDocument T).issues, ⟨key, .inserted, none, some target.line⟩, true⟩ := by
      have hstep : ∀ sc : Option DLine,
          (if ti > 0 then (parseDotenvDocument T).lines[ti - 1]? else none) = sc →
          (match sc with
            | some (DLine.comment pn praw) =>
              if markerPrefix.isPrefixOf (trimStart praw) = true then
                (⟨stringifyDotenvDocument
                    ⟨(parseDotenvDocument T).lines.set (ti - 1) (DLine.comment pn (target.leadingWhitespace ++ "# envsitter: ".toList ++ comment)),
                      (parseDotenvDocument T).issues, (parseDotenvDocument T).endsWithNewline⟩,
                  (parseDotenvDocument T).issues,
                  ⟨key, .updated, none, some target.line⟩, true⟩ : AnnotateResult)
              else
                ⟨stringifyDotenvDocument ⟨List.insertIdx ti (DLine.comment target.line (target.leadingWhitespace ++ "# envsitter: ".toList ++ comment)) (parseDotenvDocument T).lines,
                    (parseDotenvDocument T).issues, (parseDotenvDocument T).endsWithNewline⟩,
                  (parseDotenvDocument T).issues,
                  ⟨key, .inserted, none, some target.line⟩, true⟩
            | _ =>
              ⟨stringifyDotenvDocument ⟨List.insertIdx ti (DLine.comment target.line (target.leadingWhitespace ++ "# envsitter: ".toList ++ comment)) (parseDotenvDocument T).lines,
                  (parseDotenvDocument T).issues, (parseDotenvDocument T).endsWithNewline⟩,
                (parseDotenvDocument T).issues,
                ⟨key, .inserted, none, some target.line⟩, true⟩) =
          ⟨stringifyDotenvDocument ⟨List.insertIdx ti (DLine.comment target.line (target.leadingWhitespace ++ "# envsitter: ".toList ++ comment)) (parseDotenvDocument T).lines,
              (parseDotenvDocument T).issues, (parseDotenvDocument T).endsWithNewline⟩,
            (parseDotenvDocument T).issues,
            ⟨key, .inserted, none, some target.line⟩, true⟩ := by
        intro sc hsc
        match sc with
        | none => rfl
        | some (DLine.blank n r) => rfl
        | some (DLine.assignment a) => rfl
        | some (DLine.unknown n r) => rfl
        | some (DLine.comment pn2 praw2) =>
          have hti0 : 0 < ti := by
            by_contra hcon
            rw [if_neg hcon] at hsc
            simp at hsc
          rw [if_pos hti0] at hsc
          dsimp only []
          rw [if_neg (by simp [hnotmk pn2 praw2 hti0 hsc])]
      unfold annotateDotenvKey
      dsimp only []
      rw [hkey]
      dsimp only []
      rw [show (if ([target] : List Assignment).length > 1 then (none : Option Assignment)
        else some target) = some target from rfl]
      dsimp only []
      rw [hfind]
      dsimp only []
      exact hstep _ rfl
    refine ⟨hmaineq, getElem?_insertIdx_self _ ti _ (Nat.le_of_lt hti_len), ?_, ?_⟩
    · intro j hj
      exact getElem?_insertIdx_lt _ ti j _ hj
    · intro j hj
      exact getElem?_insertIdx_succ _ ti j _ hj
  · intro T key comment target hTcr hcm hkey hins
    exact annotate_insert_then_update T key comment hTcr hcm target hkey hins

/-- C8 witness: concrete runs exercising every branch — a missing key reports
`not_found`, duplicate keys report `ambiguous`, a bad `line` parameter reports
`ambiguous`, an existing marker comment is `updated`, a bare assignment gets a
comment `inserted`, and annotating again after the insertion is `updated` and
leaves the text unchanged. -/
theorem C8_annotate_branches_witness :
    (annotateDotenvKey "A=1\n".toList "B".toList "c".toList none).plan.action =
      .not_found ∧
    (annotateDotenvKey "A=1\nA=2\n".toList "A".toList "c".toList none).plan.action =
      .ambiguous ∧
    (annotateDotenvKey "A=1\n".toList "A".toList "c".toList (some 5)).plan.action =
      .ambiguous ∧
    (annotateDotenvKey "# envsitter: old\nA=1\n".toList "A".toList "c".toList
      none).plan.action = .updated ∧
    (annotateDotenvKey "A=1\n".toList "A".toList "c".toList none).plan.action =
      .inserted ∧
    (annotateDotenvKey (annotateDotenvKey "A=1\n".toList "A".toList "c".toList none).output
      "A".toList "c".toList none).plan.action = .updated ∧
    (annotateDotenvKey (annotateDotenvKey "A=1\n".toList "A".toList "c".toList none).output
      "A".toList "c".toList none).output =
      (annotateDotenvKey "A=1\n".toList "A".toList "c".toList none).output := by
  obtain ⟨h1, h2, h3, h4, h5, h6⟩ := C8_annotate_branches
  refine ⟨?_, ?_, ?_, ?_, ?_, ?_, ?_⟩
  · rw [h1 "A=1\n".toList "B".toList "c".toList none (by decide)]
  · rw [h2 "A=1\nA=2\n".toList "A".toList "c".toList (by decide)]
  · rw [h3 "A=1\n".toList "A".toList "c".toList 5 (by decide) (by decide)]
  · rw [(h4 "# envsitter: old\nA=1\n".toList "A".toList "c".toList
      ⟨2, "A=1".toList, [], false, "A".toList, 1, [], "1".toList, Quote.qnone, "1".toList⟩ 1 1 "# envsitter: old".toList
      (by decide) (by decide) (by decide) (by decide) (by decide)).1]
  · rw [(h5 "A=1\n".toList "A".toList "c".toList ⟨1, "A=1".toList, [], false, "A".toList, 1, [], "1".toList, Quote.qnone, "1".toList⟩ 0
      (by decide) (by decide) (fun pn praw h _ => absurd h (by decide))).1]
  · exact (h6 "A=1\n".toList "A".toList "c".toList ⟨1, "A=1".toList, [], false, "A".toList, 1, [], "1".toList, Quote.qnone, "1".toList⟩
      (by decide) (by decide) (by decide) (by decide)).1
  · exact (h6 "A=1\n".toList "A".toList "c".toList ⟨1, "A=1".toList, [], false, "A".toList, 1, [], "1".toList, Quote.qnone, "1".toList⟩
      (by decide) (by decide) (by decide) (by decide)).2

/-- `DotenvParseError` from the snapshot parser (`parse.ts`). -/
structure DotenvParseError where
  line : Nat
  message : Str
deriving DecidableEq, Repr

/-- `parseKey` from the snapshot parser: trim, reject empty or invalid chars. -/
def parseKey (raw : Str) : Option Str :=
  let t := trim raw
  if t = [] then none
  else if t.all isValidKeyChar then some t
  else none

/-- `parseValue` from the snapshot parser: same value grammar as
`parseValueDetailed`, with plain line-level errors. -/
def parseValueSnap (n : Nat) (raw : Str) : Str × List DotenvParseError :=
  match trimStart raw with
  | [] => ([], [])
  | '\'' :: tl =>
    match findClose '\'' tl with
    | none => (tl, [⟨n, "Unterminated single-quoted value".toList⟩])
    | some (content, _) => (content, [])
  | '"' :: tl =>
    match scanDq '"' tl with
    | none => (unescapeDQ tl, [⟨n, "Unterminated double-quoted value".toList⟩])
    | some (content, _) => (unescapeDQ content, [])
  | c :: tl => (trimEnd (stripInlineComment (c :: tl)), [])

/-- One loop iteration of `parseDotenv`: process one line against the
accumulated `values` map and `errors` list. -/
def parseDotenvLine (n : Nat) (line : Str) (values : List (Str × Str))
    (errors : List DotenvParseError) : List (Str × Str) × List DotenvParseError :=
  let trimmed := trim line
  if trimmed = [] then (values, errors)
  else if trimmed.head? = some '#' then (values, errors)
  else
    let withoutExport :=
      if ("export ".toList).isPrefixOf trimmed then trimStart (trimmed.drop 7) else trimmed
    match findClose '=' withoutExport with
    | none => (values, errors ++ [⟨n, "Missing = in assignment".toList⟩])
    | some (before, after) =>
      match parseKey before with
      | none => (values, errors ++ [⟨n, "Invalid key name".toList⟩])
      | some key =>
        let v := parseValueSnap n after
        (jsMapSet key v.1 values, errors ++ v.2)

/-- The `parseDotenv` loop over the split lines, numbering from `n`. -/
def parseDotenvGo (n : Nat) (lines : List Str) (values : List (Str × Str))
    (errors : List DotenvParseError) : List (Str × Str) × List DotenvParseError :=
  match lines with
  | [] => (values, errors)
  | l :: rest =>
    let s := parseDotenvLine n l values errors
    parseDotenvGo (n + 1) rest s.1 s.2

/-- `parseDotenv` from the source: split on `/\r?\n/` and fold the line parser. -/
def parseDotenv (contents : Str) : List (Str × Str) × List DotenvParseError :=
  parseDotenvGo 1 (splitLines contents) [] []

/-- The key-to-value snapshot derived from a document: last assignment wins,
in JS `Map` insertion order (the spec's Snapshot of a Document). -/
def docSnapshotValues (T : Str) : List (Str × Str) :=
  (listAssignments (parseDotenvDocument T).lines).foldl
    (fun m a => jsMapSet a.key a.value m) []

/-- C9 counterexample: on `"export\tA=1"` the document parser accepts any
whitespace after `export` and yields `A = 1` with no issues, while the snapshot
parser requires the literal `"export "` prefix, treats `export\tA` as the key,
and fails with `Invalid key name`, producing an empty map. -/
theorem C9_parse_equiv_counterexample :
    (parseDotenvDocument "export\tA=1".toList).issues = [] ∧
    docSnapshotValues "export\tA=1".toList = [("A".toList, "1".toList)] ∧
    (parseDotenv "export\tA=1".toList).1 = [] ∧
    (parseDotenv "export\tA=1".toList).2 =
      [⟨1, "Invalid key name".toList⟩] := by
  decide

theorem trimEnd_all_ws : ∀ W : Str, (∀ c ∈ W, jsWs c = true) → trimEnd W = []
  | [], _ => rfl
  | c :: W, h => by
    rw [trimEnd.eq_def]
    dsimp only []
    rw [trimEnd_all_ws W fun x hx => h x (List.mem_cons_of_mem c hx)]
    simp [h c (by simp)]

theorem trimEnd_append_nonws : ∀ (X : Str) (c : Char) (Y : Str), jsWs c = false →
    trimEnd (X ++ c :: Y) = X ++ c :: trimEnd Y
  | [], c, Y, h => by
    rw [List.nil_append, trimEnd.eq_def]
    dsimp only []
    cases htr : trimEnd Y with
    | nil => simp [h]
    | cons r rs => rfl
  | x :: X, c, Y, h => by
    rw [List.cons_append, trimEnd.eq_def]
    dsimp only []
    rw [trimEnd_append_nonws X c Y h]
    cases X with
    | nil => rfl
    | cons a b => rfl

theorem trimEnd_append_ws : ∀ (X W : Str), (∀ c ∈ W, jsWs c = true) →
    trimEnd (X ++ W) = trimEnd X
  | [], W, h => by
    rw [List.nil_append, trimEnd_all_ws W h]
    rfl
  | x :: X, W, h => by
    rw [List.cons_append, trimEnd.eq_def]
    dsimp only []
    rw [trimEnd_append_ws X W h]
    conv_rhs => rw [trimEnd.eq_def]

theorem trimEnd_cons_congr (c : Char) (A B : Str) (h : trimEnd A = trimEnd B) :
    trimEnd (c :: A) = trimEnd (c :: B) := by
  rw [trimEnd.eq_def]
  dsimp only []
  rw [h]
  conv_rhs => rw [trimEnd.eq_def]

theorem trimEnd_decomp : ∀ X : Str, ∃ W, X = trimEnd X ++ W ∧ ∀ c ∈ W, jsWs c = true
  | [] => ⟨[], rfl, by simp⟩
  | c :: X => by
    obtain ⟨W, hW, hws⟩ := trimEnd_decomp X
    rw [trimEnd.eq_def]
    dsimp only []
    cases htr : trimEnd X with
    | nil =>
      by_cases hc : jsWs c = true
      · refine ⟨c :: X, ?_, ?_⟩
        · simp [hc]
        · intro x hx
          rcases List.mem_cons.mp hx with rfl | hx
          · exact hc
          · rw [htr] at hW
            simp only [List.nil_append] at hW
            exact hws x (hW ▸ hx)
      · refine ⟨W, ?_, hws⟩
        rw [if_neg hc, List.cons_append, List.nil_append]
        rw [htr] at hW
        simp only [List.nil_append] at hW
        rw [← hW]
    | cons r rs =>
      refine ⟨W, ?_, hws⟩
      rw [List.cons_append]
      rw [htr] at hW
      rw [← hW]

theorem trimEnd_idem (X : Str) : trimEnd (trimEnd X) = trimEnd X := by
  obtain ⟨W, hW, hws⟩ := trimEnd_decomp X
  conv_rhs => rw [hW]
  rw [trimEnd_append_ws _ _ hws]

theorem findClose_spec : ∀ (q : Char) (l content r : Str),
    findClose q l = some (content, r) →
    l = content ++ q :: r ∧ ∀ c ∈ content, c ≠ q
  | q, [], content, r, h => by simp [findClose] at h
  | q, c :: rest, content, r, h => by
    rw [findClose.eq_def] at h
    dsimp only [] at h
    by_cases hc : c = q
    · rw [if_pos hc] at h
      simp only [Option.some.injEq, Prod.mk.injEq] at h
      obtain ⟨h1, h2⟩ := h
      subst hc
      rw [← h1, ← h2]
      exact ⟨rfl, by simp⟩
    · rw [if_neg hc] at h
      cases hf : findClose q rest with
      | none => rw [hf] at h; simp [Option.map] at h
      | some p =>
        rw [hf] at h
        simp only [Option.map, Option.some.injEq, Prod.mk.injEq] at h
        obtain ⟨h1, h2⟩ := h
        obtain ⟨hl, hfree⟩ := findClose_spec q rest p.1 p.2 (by rw [hf])
        rw [← h1, ← h2]
        constructor
        · rw [List.cons_append, ← hl]
        · intro x hx
          rcases List.mem_cons.mp hx with rfl | hx
          · exact hc
          · exact hfree x hx

theorem findClose_append : ∀ (q : Char) (X Y : Str), (∀ c ∈ X, c ≠ q) →
    findClose q (X ++ q :: Y) = some (X, Y)
  | q, [], Y, _ => by
    rw [List.nil_append, findClose.eq_def]
    simp
  | q, x :: X, Y, h => by
    rw [List.cons_append, findClose.eq_def]
    dsimp only []
    rw [if_neg (h x (by simp))]
    rw [findClose_append q X Y fun c hc => h c (List.mem_cons_of_mem x hc)]
    rfl

theorem scanDq_spec : ∀ (p : Char) (l content r : Str),
    scanDq p l = some (content, r) → l = content ++ '"' :: r
  | p, [], content, r, h => by simp [scanDq] at h
  | p, c :: rest, content, r, h => by
    rw [scanDq.eq_def] at h
    dsimp only [] at h
    by_cases hc : c = '"' ∧ p ≠ '\\'
    · rw [if_pos hc] at h
      simp only [Option.some.injEq, Prod.mk.injEq] at h
      obtain ⟨h1, h2⟩ := h
      rw [← h1, ← h2, List.nil_append, hc.1]
    · rw [if_neg hc] at h
      cases hf : scanDq c rest with
      | none => rw [hf] at h; simp [Option.map] at h
      | some q =>
        rw [hf] at h
        simp only [Option.map, Option.some.injEq, Prod.mk.injEq] at h
        obtain ⟨h1, h2⟩ := h
        have hl := scanDq_spec c rest q.1 q.2 (by rw [hf])
        rw [← h1, ← h2, List.cons_append, ← hl]

theorem scanDq_shift : ∀ (p : Char) (l content r : Str),
    scanDq p l = some (content, r) →
    ∀ Y, scanDq p (content ++ '"' :: Y) = some (content, Y)
  | p, [], content, r, h, Y => by simp [scanDq] at h
  | p, c :: rest, content, r, h, Y => by
    rw [scanDq.eq_def] at h
    dsimp only [] at h
    by_cases hc : c = '"' ∧ p ≠ '\\'
    · rw [if_pos hc] at h
      simp only [Option.some.injEq, Prod.mk.injEq] at h
      obtain ⟨h1, h2⟩ := h
      rw [← h1, List.nil_append, scanDq.eq_def]
      dsimp only []
      rw [if_pos (show ('"' : Char) = '"' ∧ p ≠ '\\' from ⟨rfl, hc.2⟩)]
    · rw [if_neg hc] at h
      cases hf : scanDq c rest with
      | none => rw [hf] at h; simp [Option.map] at h
      | some q =>
        rw [hf] at h
        simp only [Option.map, Option.some.injEq, Prod.mk.injEq] at h
        obtain ⟨h1, h2⟩ := h
        rw [← h1, List.cons_append, scanDq.eq_def]
        dsimp only []
        rw [if_neg hc]
        rw [scanDq_shift c rest q.1 q.2 (by rw [hf]) Y]
        rfl

theorem sicGo_ws_tail : ∀ (b : Bool) (X W : Str), (∀ c ∈ W, jsWs c = true) →
    trimEnd (sicGo b (X ++ W)) = trimEnd (sicGo b X)
  | b, [], W, h => by
    rw [List.nil_append]
    rw [sicGo_eq_self W (fun x hx => by
      intro hc
      have := h x hx
      rw [hc] at this
      exact absurd this (by decide)) b]
    rw [show sicGo b [] = [] from rfl]
    rw [trimEnd_all_ws W h]
    rfl
  | b, x :: X, W, h => by
    rw [List.cons_append]
    rw [show sicGo b (x :: (X ++ W)) =
      if x == '#' && b then [] else x :: sicGo (jsWs x) (X ++ W) from rfl]
    rw [show sicGo b (x :: X) =
      if x == '#' && b then [] else x :: sicGo (jsWs x) X from rfl]
    by_cases hx : (x == '#' && b) = true
    · rw [if_pos hx, if_pos hx]
    · rw [if_neg hx, if_neg hx]
      exact trimEnd_cons_congr x _ _ (sicGo_ws_tail (jsWs x) X W h)

theorem dropWhile_head_not {α : Type} (p : α → Bool) : ∀ (l : List α) (c : α),
    (l.dropWhile p).head? = some c → p c = false
  | [], c, h => by simp at h
  | x :: l, c, h => by
    by_cases hx : p x = true
    · rw [List.dropWhile_cons_of_pos hx] at h
      exact dropWhile_head_not p l c h
    · rw [List.dropWhile_cons_of_neg hx] at h
      simp only [List.head?_cons, Option.some.injEq] at h
      rw [← h]
      simpa using hx

theorem takeWhile_append_all {α : Type} (p : α → Bool) : ∀ (X Y : List α),
    (∀ c ∈ X, p c = true) → List.takeWhile p (X ++ Y) = X ++ List.takeWhile p Y
  | [], Y, _ => rfl
  | x :: X, Y, h => by
    rw [List.cons_append, List.takeWhile_cons_of_pos (h x (by simp))]
    rw [takeWhile_append_all p X Y fun c hc => h c (List.mem_cons_of_mem x hc)]
    rfl

theorem parseValueDetailed_nil_of_trimStart (n : Nat) (a : Str) (h : trimStart a = []) :
    parseValueDetailed n a = ([], Quote.qnone, []) := by
  rw [parseValueDetailed.eq_def, h]

theorem parseValueDetailed_sq_of_trimStart (n : Nat) (a tl : Str)
    (h : trimStart a = '\'' :: tl) :
    parseValueDetailed n a =
      match findClose '\'' tl with
      | none => (tl, Quote.qsingle, [⟨n, 1, "Unterminated single-quoted value"⟩])
      | some (content, _) => (content, Quote.qsingle, []) := by
  rw [parseValueDetailed.eq_def, h]
  rfl

theorem parseValueSnap_nil_of_trimStart (n : Nat) (a : Str) (h : trimStart a = []) :
    parseValueSnap n a = ([], []) := by
  rw [parseValueSnap.eq_def, h]

theorem parseValueSnap_sq_of_trimStart (n : Nat) (a tl : Str)
    (h : trimStart a = '\'' :: tl) :
    parseValueSnap n a =
      match findClose '\'' tl with
      | none => (tl, [⟨n, "Unterminated single-quoted value".toList⟩])
      | some (content, _) => (content, []) := by
  rw [parseValueSnap.eq_def, h]
  rfl

theorem parseValueSnap_dq_of_trimStart (n : Nat) (a tl : Str)
    (h : trimStart a = '"' :: tl) :
    parseValueSnap n a =
      match scanDq '"' tl with
      | none => (unescapeDQ tl, [⟨n, "Unterminated double-quoted value".toList⟩])
      | some (content, _) => (unescapeDQ content, []) := by
  rw [parseValueSnap.eq_def, h]
  rfl

theorem parseValueSnap_unquoted_of_trimStart (n : Nat) (a : Str) (c : Char) (tl : Str)
    (h : trimStart a = c :: tl) (h1 : c ≠ '\'') (h2 : c ≠ '"') :
    parseValueSnap n a = (trimEnd (stripInlineComment (c :: tl)), []) := by
  rw [parseValueSnap.eq_def, h]
  split
  · rename_i heq
    exact absurd heq (by simp)
  · rename_i tl' heq
    exact absurd (List.head_eq_of_cons_eq heq) h1
  · rename_i tl' heq
    exact absurd (List.head_eq_of_cons_eq heq) h2
  · rename_i c' tl' _ _ heq
    obtain ⟨hc, htl⟩ := List.cons_eq_cons.mp heq
    rw [hc, htl]

/-- On an issue-free value, the snapshot `parseValue` applied to the
end-trimmed text computes the same value as `parseValueDetailed` on the raw
text, with no errors. -/
theorem parseValueSnap_trimEnd (n : Nat) (afterEq : Str)
    (hiss : (parseValueDetailed n afterEq).2.2 = []) :
    parseValueSnap n (trimEnd afterEq) = ((parseValueDetailed n afterEq).1, []) := by
  cases hrest : trimStart afterEq with
  | nil =>
    have hallws : ∀ x ∈ afterEq, jsWs x = true := by
      intro x hx
      have hdecomp : afterEq = afterEq.takeWhile jsWs := by
        conv_lhs => rw [← List.takeWhile_append_dropWhile jsWs afterEq]
        rw [show afterEq.dropWhile jsWs = trimStart afterEq from rfl, hrest, List.append_nil]
      exact List.mem_takeWhile_imp (hdecomp ▸ hx)
    rw [trimEnd_all_ws afterEq hallws]
    rw [parseValueSnap_nil_of_trimStart n [] rfl]
    rw [parseValueDetailed_nil_of_trimStart n afterEq hrest]
  | cons c tl =>
    have hws0 : ∀ x ∈ afterEq.takeWhile jsWs, jsWs x = true := fun x hx =>
      List.mem_takeWhile_imp hx
    have hdecomp : afterEq = afterEq.takeWhile jsWs ++ c :: tl := by
      conv_lhs => rw [← List.takeWhile_append_dropWhile jsWs afterEq]
      rw [show afterEq.dropWhile jsWs = trimStart afterEq from rfl, hrest]
    have hcnw : jsWs c = false := by
      apply dropWhile_head_not jsWs afterEq c
      rw [show afterEq.dropWhile jsWs = trimStart afterEq from rfl, hrest]
      rfl
    have htrimEnd : trimEnd afterEq = afterEq.takeWhile jsWs ++ c :: trimEnd tl := by
      conv_lhs => rw [hdecomp]
      exact trimEnd_append_nonws _ c tl hcnw
    have hts2 : trimStart (trimEnd afterEq) = c :: trimEnd tl := by
      rw [htrimEnd, trimStart_ws_append _ _ hws0]
      exact trimStart_cons_of_not_ws c _ hcnw
    by_cases hsq : c = '\''
    · subst hsq
      cases hf : findClose '\'' tl with
      | none =>
        rw [parseValueDetailed_sq_of_trimStart n afterEq tl hrest, hf] at hiss
        simp at hiss
      | some p =>
        obtain ⟨hteq, hfree⟩ := findClose_spec '\'' tl p.1 p.2 (by rw [hf])
        have htl : trimEnd tl = p.1 ++ '\'' :: trimEnd p.2 := by
          conv_lhs => rw [hteq]
          exact trimEnd_append_nonws _ _ _ (by decide)
        rw [parseValueSnap_sq_of_trimStart n (trimEnd afterEq) (trimEnd tl) hts2]
        rw [htl, findClose_append '\'' p.1 (trimEnd p.2) hfree]
        rw [parseValueDetailed_sq_of_trimStart n afterEq tl hrest, hf]
    · by_cases hdq : c = '"'
      · subst hdq
        cases hf : scanDq '"' tl with
        | none =>
          rw [parseValueDetailed_dq_of_trimStart n afterEq tl hrest, hf] at hiss
          simp at hiss
        | some p =>
          have hteq := scanDq_spec '"' tl p.1 p.2 (by rw [hf])
          have htl : trimEnd tl = p.1 ++ '"' :: trimEnd p.2 := by
            conv_lhs => rw [hteq]
            exact trimEnd_append_nonws _ _ _ (by decide)
          rw [parseValueSnap_dq_of_trimStart n (trimEnd afterEq) (trimEnd tl) hts2]
          rw [htl, scanDq_shift '"' tl p.1 p.2 (by rw [hf]) (trimEnd p.2)]
          rw [parseValueDetailed_dq_of_trimStart n afterEq tl hrest, hf]
      · rw [parseValueSnap_unquoted_of_trimStart n (trimEnd afterEq) c (trimEnd tl) hts2 hsq hdq]
        rw [parseValueDetailed_unquoted_of_trimStart n afterEq c tl hrest hsq hdq]
        obtain ⟨W, hW, hws⟩ := trimEnd_decomp tl
        have hstep : trimEnd (stripInlineComment (c :: tl)) =
            trimEnd (stripInlineComment (c :: trimEnd tl)) := by
          unfold stripInlineComment
          conv_lhs => rw [hW]
          rw [show (c :: (trimEnd tl ++ W)) = (c :: trimEnd tl) ++ W from rfl]
          exact sicGo_ws_tail true (c :: trimEnd tl) W hws
        rw [hstep]

theorem parseKey_of_key_ws (key bews : Str) (hkeyne : key ≠ [])
    (hkeyvalid : ∀ c ∈ key, isValidKeyChar c = true)
    (hkeynws : ∀ c ∈ key, jsWs c = false)
    (hbews : ∀ c ∈ bews, jsWs c = true) :
    parseKey (key ++ bews) = some key := by
  have htrimkb : trim (key ++ bews) = key := by
    match key, hkeyne with
    | k :: kt, _ =>
      unfold trim
      rw [List.cons_append, trimStart_cons_of_not_ws _ _ (hkeynws k (by simp))]
      rw [← List.cons_append, trimEnd_append_ws _ _ hbews]
      exact trimEnd_eq_self _ hkeynws
  unfold parseKey
  dsimp only []
  rw [htrimkb, if_neg hkeyne, if_pos (List.all_eq_true.mpr hkeyvalid)]

theorem parseDotenvLine_eval_core (n : Nat) (raw : Str) (key bews afterEq : Str)
    (hkeyne : key ≠ [])
    (hkeyvalid : ∀ c ∈ key, isValidKeyChar c = true)
    (hkeynws : ∀ c ∈ key, jsWs c = false)
    (hbews : ∀ c ∈ bews, jsWs c = true)
    (htrim : trim raw = key ++ bews ++ '=' :: trimEnd afterEq)
    (hnexp : ("export ".toList).isPrefixOf (trim raw) = false)
    (hiss : (parseValueDetailed n afterEq).2.2 = []) :
    ∀ v e, parseDotenvLine n raw v e =
      (jsMapSet key (parseValueDetailed n afterEq).1 v, e) := by
  intro v e
  have hne_eq : ∀ c ∈ key ++ bews, c ≠ '=' := by
    intro c hc
    rcases List.mem_append.mp hc with hc | hc
    · intro hcon
      subst hcon
      exact absurd (hkeyvalid _ hc) (by decide)
    · intro hcon
      subst hcon
      exact absurd (hbews _ hc) (by decide)
  match key, hkeyne, hkeyvalid, hkeynws, htrim, hne_eq with
  | k :: kt, _, hkeyvalid, hkeynws, htrim, hne_eq =>
    have hk : isValidKeyChar k = true := hkeyvalid k (by simp)
    have h1 : ¬(trim raw = []) := by
      rw [htrim]
      simp
    have h2 : ¬((trim raw).head? = some '#') := by
      rw [htrim, List.cons_append, List.cons_append]
      intro hcon
      simp only [List.head?_cons, Option.some.injEq] at hcon
      rw [hcon] at hk
      exact absurd hk (by decide)
    have h3 : ¬(("export ".toList).isPrefixOf (trim raw) = true) := by
      rw [hnexp]
      simp
    have h4 : findClose '=' (trim raw) = some ((k :: kt) ++ bews, trimEnd afterEq) := by
      rw [htrim]
      exact findClose_append '=' _ _ hne_eq
    unfold parseDotenvLine
    dsimp only []
    rw [if_neg h1, if_neg h2, if_neg h3, h4]
    dsimp only []
    rw [parseKey_of_key_ws _ _ (by simp) hkeyvalid hkeynws hbews]
    dsimp only []
    rw [parseValueSnap_trimEnd n afterEq hiss]
    rw [List.append_nil]

theorem parseDotenvLine_eval_export (n : Nat) (raw : Str) (expWs2 key bews afterEq : Str)
    (hkeyne : key ≠ [])
    (hkeyvalid : ∀ c ∈ key, isValidKeyChar c = true)
    (hkeynws : ∀ c ∈ key, jsWs c = false)
    (hbews : ∀ c ∈ bews, jsWs c = true)
    (hexpws : ∀ c ∈ expWs2, jsWs c = true)
    (htrim : trim raw = "export ".toList ++ (expWs2 ++ (key ++ bews ++ '=' :: trimEnd afterEq)))
    (hiss : (parseValueDetailed n afterEq).2.2 = []) :
    ∀ v e, parseDotenvLine n raw v e =
      (jsMapSet key (parseValueDetailed n afterEq).1 v, e) := by
  intro v e
  have hne_eq : ∀ c ∈ key ++ bews, c ≠ '=' := by
    intro c hc
    rcases List.mem_append.mp hc with hc | hc
    · intro hcon
      subst hcon
      exact absurd (hkeyvalid _ hc) (by decide)
    · intro hcon
      subst hcon
      exact absurd (hbews _ hc) (by decide)
  match key, hkeyne, hkeyvalid, hkeynws, htrim, hne_eq with
  | k :: kt, _, hkeyvalid, hkeynws, htrim, hne_eq =>
    have h1 : ¬(trim raw = []) := by
      rw [htrim]
      simp
    have h2 : ¬((trim raw).head? = some '#') := by
      rw [htrim]
      rw [show ("export ".toList : Str) ++ (expWs2 ++ ((k :: kt) ++ bews ++ '=' :: trimEnd afterEq))
        = 'e' :: ("xport ".toList ++ (expWs2 ++ ((k :: kt) ++ bews ++ '=' :: trimEnd afterEq)))
        from rfl]
      simp
    have h3 : ("export ".toList).isPrefixOf (trim raw) = true := by
      rw [htrim]
      exact isPrefixOf_append_self _ _
    have h5 : trimStart ((trim raw).drop 7) = (k :: kt) ++ bews ++ '=' :: trimEnd afterEq := by
      rw [htrim]
      rw [show (7 : Nat) = ("export ".toList : Str).length from rfl, List.drop_left]
      rw [trimStart_ws_append _ _ hexpws, List.cons_append]
      exact trimStart_cons_of_not_ws _ _ (hkeynws k (by simp))
    have h4 : findClose '=' (trimStart ((trim raw).drop 7)) =
        some ((k :: kt) ++ bews, trimEnd afterEq) := by
      rw [h5]
      exact findClose_append '=' _ _ hne_eq
    unfold parseDotenvLine
    dsimp only []
    rw [if_neg h1, if_neg h2, if_pos h3, h4]
    dsimp only []
    rw [parseKey_of_key_ws _ _ (by simp) hkeyvalid hkeynws hbews]
    dsimp only []
    rw [parseValueSnap_trimEnd n afterEq hiss]
    rw [List.append_nil]

/-- On a line whose whitespace is plain spaces, a successful issue-free
document-parser assignment makes the snapshot parser record exactly the same
key and value. -/
theorem parseDotenvLine_assign (n : Nat) (raw : Str) (a : Assignment)
    (hsp : ∀ c ∈ raw, jsWs c = true → c = ' ')
    (h : parseAssignmentLine n raw = (some a, [])) :
    ∀ v e, parseDotenvLine n raw v e = (jsMapSet a.key a.value v, e) := by
  have hR1sub : ∀ c, c ∈ raw.dropWhile jsWs → c ∈ raw := by
    intro c hc
    have hdec := List.takeWhile_append_dropWhile jsWs raw
    rw [← hdec]
    exact List.mem_append.mpr (Or.inr hc)
  unfold parseAssignmentLine at h
  dsimp only [] at h
  by_cases hcond : (exportKw.isPrefixOf (raw.dropWhile jsWs) &&
      (match (raw.dropWhile jsWs).drop 6 with | c :: _ => jsWs c | [] => false)) = true
  · simp only [if_pos hcond] at h
    obtain ⟨hpre, hM⟩ : exportKw.isPrefixOf (raw.dropWhile jsWs) = true ∧
        (match (raw.dropWhile jsWs).drop 6 with | c :: _ => jsWs c | [] => false) = true := by
      simpa using hcond
    obtain ⟨t, ht⟩ := List.isPrefixOf_iff_prefix.mp hpre
    have hdrop : (raw.dropWhile jsWs).drop 6 = t := by
      rw [← ht, show (6 : Nat) = (exportKw : Str).length from rfl, List.drop_left]
    simp only [hdrop] at h hM
    cases t with
    | nil => simp at hM
    | cons c0 t2 =>
      have hc0ws : jsWs c0 = true := by simpa using hM
      have hc0mem : c0 ∈ raw := by
        apply hR1sub
        rw [← ht]
        exact List.mem_append.mpr (Or.inr (by simp))
      have hc0 : c0 = ' ' := hsp c0 hc0mem hc0ws
      subst hc0
      rw [show ((' ' :: t2 : Str).dropWhile jsWs) = t2.dropWhile jsWs from
        List.dropWhile_cons_of_pos (by decide)] at h
      have hR2sub : ∀ c, c ∈ t2.dropWhile jsWs → c ∈ raw := by
        intro c hc
        apply hR1sub
        rw [← ht]
        apply List.mem_append.mpr
        refine Or.inr (List.mem_cons_of_mem _ ?_)
        have hdec := List.takeWhile_append_dropWhile jsWs t2
        rw [← hdec]
        exact List.mem_append.mpr (Or.inr hc)
      by_cases hkeynil : (t2.dropWhile jsWs).takeWhile isValidKeyChar = []
      · simp only [if_pos hkeynil] at h
        exact absurd h (by simp)
      · simp only [if_neg hkeynil] at h
        by_cases hhd : (match ((t2.dropWhile jsWs).dropWhile isValidKeyChar).head? with
            | some c => !jsWs c && c != '=' | none => false) = true
        · simp only [if_pos hhd] at h
          exact absurd h (by simp)
        · simp only [if_neg hhd] at h
          cases hr4 : ((t2.dropWhile jsWs).dropWhile isValidKeyChar).dropWhile jsWs with
          | nil =>
            rw [hr4] at h
            exact absurd h (by simp)
          | cons c rest =>
            rw [hr4] at h
            by_cases hc : c = '='
            · subst hc
              try dsimp only [] at h
              simp only [Prod.mk.injEq, Option.some.injEq] at h
              obtain ⟨ha, hiss⟩ := h
              subst ha
              dsimp only []
              have hkeyvalid : ∀ c ∈ (t2.dropWhile jsWs).takeWhile isValidKeyChar,
                  isValidKeyChar c = true := fun c hc => List.mem_takeWhile_imp hc
              have hkeysub : ∀ c, c ∈ (t2.dropWhile jsWs).takeWhile isValidKeyChar → c ∈ raw :=
                fun c hc => hR2sub c ((List.takeWhile_prefix _).subset hc)
              have hkeynws : ∀ c ∈ (t2.dropWhile jsWs).takeWhile isValidKeyChar,
                  jsWs c = false := by
                intro c hc
                by_contra hcon
                simp only [Bool.not_eq_false] at hcon
                have hcsp := hsp c (hkeysub c hc) hcon
                subst hcsp
                exact absurd (hkeyvalid _ hc) (by decide)
              have hr3sub : ∀ c, c ∈ (t2.dropWhile jsWs).dropWhile isValidKeyChar → c ∈ raw := by
                intro c hc
                apply hR2sub
                have hdec := List.takeWhile_append_dropWhile isValidKeyChar (t2.dropWhile jsWs)
                rw [← hdec]
                exact List.mem_append.mpr (Or.inr hc)
              have hbews : ∀ c ∈ ((t2.dropWhile jsWs).dropWhile isValidKeyChar).takeWhile jsWs,
                  jsWs c = true := fun c hc => List.mem_takeWhile_imp hc
              have hr3eq : (t2.dropWhile jsWs).dropWhile isValidKeyChar =
                  ((t2.dropWhile jsWs).dropWhile isValidKeyChar).takeWhile jsWs ++ '=' :: rest := by
                conv_lhs => rw [← List.takeWhile_append_dropWhile jsWs
                  ((t2.dropWhile jsWs).dropWhile isValidKeyChar)]
                rw [hr4]
              have hexpws2 : ∀ c ∈ t2.takeWhile jsWs, jsWs c = true :=
                fun c hc => List.mem_takeWhile_imp hc
              have htrim : trim raw = "export ".toList ++ (t2.takeWhile jsWs ++
                  ((t2.dropWhile jsWs).takeWhile isValidKeyChar ++
                    ((t2.dropWhile jsWs).dropWhile isValidKeyChar).takeWhile jsWs ++
                    '=' :: trimEnd rest)) := by
                show trimEnd (raw.dropWhile jsWs) = _
                conv_lhs => rw [← ht]
                conv_lhs => rw [show (' ' :: t2 : Str) =
                  ' ' :: (t2.takeWhile jsWs ++ t2.dropWhile jsWs) from by
                    rw [List.takeWhile_append_dropWhile]]
                conv_lhs => rw [show t2.dropWhile jsWs =
                  (t2.dropWhile jsWs).takeWhile isValidKeyChar ++
                    (t2.dropWhile jsWs).dropWhile isValidKeyChar from
                  (List.takeWhile_append_dropWhile _ _).symm]
                conv_lhs => rw [hr3eq]
                rw [show exportKw ++ ' ' :: (t2.takeWhile jsWs ++
                    ((t2.dropWhile jsWs).takeWhile isValidKeyChar ++
                      (((t2.dropWhile jsWs).dropWhile isValidKeyChar).takeWhile jsWs ++
                        '=' :: rest))) =
                  (exportKw ++ ' ' :: (t2.takeWhile jsWs ++
                    ((t2.dropWhile jsWs).takeWhile isValidKeyChar ++
                      ((t2.dropWhile jsWs).dropWhile isValidKeyChar).takeWhile jsWs))) ++
                    '=' :: rest from by simp [List.append_assoc]]
                rw [trimEnd_append_nonws _ '=' rest (by decide)]
                rw [show ("export ".toList : Str) = exportKw ++ [' '] from rfl]
                simp [List.append_assoc]
              have happ := parseDotenvLine_eval_export n raw (t2.takeWhile jsWs)
                ((t2.dropWhile jsWs).takeWhile isValidKeyChar)
                (((t2.dropWhile jsWs).dropWhile isValidKeyChar).takeWhile jsWs)
                rest hkeynil hkeyvalid hkeynws
                (fun c hc => hbews c hc) hexpws2 htrim hiss
              intro v e
              exact happ v e
            · split at h
              · rename_i heq
                exact absurd (List.head_eq_of_cons_eq heq) hc
              · exact absurd h (by simp)
  · simp only [if_neg hcond] at h
    by_cases hkeynil : (raw.dropWhile jsWs).takeWhile isValidKeyChar = []
    · simp only [if_pos hkeynil] at h
      exact absurd h (by simp)
    · simp only [if_neg hkeynil] at h
      by_cases hhd : (match ((raw.dropWhile jsWs).dropWhile isValidKeyChar).head? with
          | some c => !jsWs c && c != '=' | none => false) = true
      · simp only [if_pos hhd] at h
        exact absurd h (by simp)
      · simp only [if_neg hhd] at h
        cases hr4 : ((raw.dropWhile jsWs).dropWhile isValidKeyChar).dropWhile jsWs with
        | nil =>
          rw [hr4] at h
          exact absurd h (by simp)
        | cons c rest =>
          rw [hr4] at h
          by_cases hc : c = '='
          · subst hc
            try dsimp only [] at h
            simp only [Prod.mk.injEq, Option.some.injEq] at h
            obtain ⟨ha, hiss⟩ := h
            subst ha
            dsimp only []
            have hkeyvalid : ∀ c ∈ (raw.dropWhile jsWs).takeWhile isValidKeyChar,
                isValidKeyChar c = true := fun c hc => List.mem_takeWhile_imp hc
            have hkeysub : ∀ c, c ∈ (raw.dropWhile jsWs).takeWhile isValidKeyChar → c ∈ raw :=
              fun c hc => hR1sub c ((List.takeWhile_prefix _).subset hc)
            have hkeynws : ∀ c ∈ (raw.dropWhile jsWs).takeWhile isValidKeyChar,
                jsWs c = false := by
              intro c hc
              by_contra hcon
              simp only [Bool.not_eq_false] at hcon
              have hcsp := hsp c (hkeysub c hc) hcon
              subst hcsp
              exact absurd (hkeyvalid _ hc) (by decide)
            have hr3sub : ∀ c, c ∈ (raw.dropWhile jsWs).dropWhile isValidKeyChar → c ∈ raw := by
              intro c hc
              apply hR1sub
              have hdec := List.takeWhile_append_dropWhile isValidKeyChar (raw.dropWhile jsWs)
              rw [← hdec]
              exact List.mem_append.mpr (Or.inr hc)
            have hbews : ∀ c ∈ ((raw.dropWhile jsWs).dropWhile isValidKeyChar).takeWhile jsWs,
                jsWs c = true := fun c hc => List.mem_takeWhile_imp hc
            have hbewsub : ∀ c, c ∈ ((raw.dropWhile jsWs).dropWhile isValidKeyChar).takeWhile jsWs
                → c ∈ raw :=
              fun c hc => hr3sub c ((List.takeWhile_prefix _).subset hc)
            have hr3eq : (raw.dropWhile jsWs).dropWhile isValidKeyChar =
                ((raw.dropWhile jsWs).dropWhile isValidKeyChar).takeWhile jsWs ++ '=' :: rest := by
              conv_lhs => rw [← List.takeWhile_append_dropWhile jsWs
                ((raw.dropWhile jsWs).dropWhile isValidKeyChar)]
              rw [hr4]
            have htrim : trim raw = (raw.dropWhile jsWs).takeWhile isValidKeyChar ++
                ((raw.dropWhile jsWs).dropWhile isValidKeyChar).takeWhile jsWs ++
                '=' :: trimEnd rest := by
              show trimEnd (raw.dropWhile jsWs) = _
              conv_lhs => rw [show raw.dropWhile jsWs =
                (raw.dropWhile jsWs).takeWhile isValidKeyChar ++
                  (raw.dropWhile jsWs).dropWhile isValidKeyChar from
                (List.takeWhile_append_dropWhile _ _).symm]
              conv_lhs => rw [hr3eq]
              rw [← List.append_assoc]
              exact trimEnd_append_nonws _ '=' rest (by decide)
            have hnexp : ("export ".toList).isPrefixOf (trim raw) = false := by
              by_contra hcon2
              simp only [Bool.not_eq_false] at hcon2
              obtain ⟨rest2, hrest2⟩ := List.isPrefixOf_iff_prefix.mp hcon2
              have hkeyT1 : List.takeWhile isValidKeyChar (trim raw) =
                  (raw.dropWhile jsWs).takeWhile isValidKeyChar := by
                rw [htrim, List.append_assoc]
                rw [takeWhile_append_all _ _ _ hkeyvalid]
                rw [show List.takeWhile isValidKeyChar
                    (((raw.dropWhile jsWs).dropWhile isValidKeyChar).takeWhile jsWs ++
                      '=' :: trimEnd rest) = [] from ?_]
                · rw [List.append_nil]
                · cases hbw : ((raw.dropWhile jsWs).dropWhile isValidKeyChar).takeWhile jsWs with
                  | nil =>
                    rw [List.nil_append]
                    exact List.takeWhile_cons_of_neg (by decide)
                  | cons b bs =>
                    rw [List.cons_append]
                    apply List.takeWhile_cons_of_neg
                    have hbws := hbews b (by rw [hbw]; simp)
                    have hbsp := hsp b (hbewsub b (by rw [hbw]; simp)) hbws
                    subst hbsp
                    decide
              have hkeyT2 : List.takeWhile isValidKeyChar (trim raw) = exportKw := by
                rw [← hrest2]
                rw [show ("export ".toList : Str) ++ rest2 = exportKw ++ (' ' :: rest2) from
                  rfl]
                rw [takeWhile_append_all _ _ _ (by decide)]
                rw [List.takeWhile_cons_of_neg (by decide), List.append_nil]
              have hkeyexp : (raw.dropWhile jsWs).takeWhile isValidKeyChar = exportKw := by
                rw [← hkeyT1, hkeyT2]
              have hr1eq : raw.dropWhile jsWs =
                  exportKw ++ (raw.dropWhile jsWs).dropWhile isValidKeyChar := by
                have hbase := List.takeWhile_append_dropWhile isValidKeyChar (raw.dropWhile jsWs)
                rw [hkeyexp] at hbase
                exact hbase.symm
              have hpre : exportKw.isPrefixOf (raw.dropWhile jsWs) = true := by
                rw [hr1eq]
                exact isPrefixOf_append_self _ _
              have hcmp : (' ' :: rest2 : Str) =
                  ((raw.dropWhile jsWs).dropWhile isValidKeyChar).takeWhile jsWs ++
                    '=' :: trimEnd rest := by
                apply @List.append_cancel_left Char exportKw
                rw [show exportKw ++ (' ' :: rest2) = ("export ".toList : Str) ++ rest2 from
                  rfl]
                rw [hrest2, htrim, hkeyexp, List.append_assoc]
              cases hbw : ((raw.dropWhile jsWs).dropWhile isValidKeyChar).takeWhile jsWs with
              | nil =>
                rw [hbw, List.nil_append] at hcmp
                exact absurd (List.head_eq_of_cons_eq hcmp) (by decide)
              | cons b bs =>
                have hb : b = ' ' := by
                  rw [hbw, List.cons_append] at hcmp
                  exact (List.head_eq_of_cons_eq hcmp).symm
                have hR3head : (raw.dropWhile jsWs).dropWhile isValidKeyChar =
                    b :: (bs ++ '=' :: rest) := by
                  rw [hr3eq, hbw, List.cons_append]
                have hdrop6 : (raw.dropWhile jsWs).drop 6 =
                    (raw.dropWhile jsWs).dropWhile isValidKeyChar := by
                  conv_lhs => rw [hr1eq]
                  rw [show (6 : Nat) = (exportKw : Str).length from rfl, List.drop_left]
                have hMtrue : (match (raw.dropWhile jsWs).drop 6 with
                    | c :: _ => jsWs c | [] => false) = true := by
                  rw [hdrop6, hR3head]
                  subst hb
                  show jsWs ' ' = true
                  decide
                exact hcond (by rw [hpre, hMtrue]; rfl)
            intro v e
            exact parseDotenvLine_eval_core n raw _ _ rest hkeynil hkeyvalid hkeynws
              hbews htrim hnexp hiss v e
          · split at h
            · rename_i heq
              exact absurd (List.head_eq_of_cons_eq heq) hc
            · exact absurd h (by simp)

theorem parseDotenvLine_skip_blank (n : Nat) (raw : Str) (h : trim raw = []) :
    ∀ v e, parseDotenvLine n raw v e = (v, e) := by
  intro v e
  unfold parseDotenvLine
  dsimp only []
  rw [if_pos h]

theorem trimEnd_cons_shape (c : Char) (l : Str) :
    trimEnd (c :: l) = [] ∨ ∃ l2, trimEnd (c :: l) = c :: l2 := by
  rw [trimEnd.eq_def]
  dsimp only []
  cases htr : trimEnd l with
  | nil =>
    by_cases hc : jsWs c = true
    · left
      simp [hc]
    · right
      exact ⟨[], by simp [hc]⟩
  | cons r rs =>
    right
    exact ⟨r :: rs, rfl⟩

theorem parseDotenvLine_skip_comment (n : Nat) (raw tl : Str)
    (hhd : trimStart raw = '#' :: tl) :
    ∀ v e, parseDotenvLine n raw v e = (v, e) := by
  intro v e
  have htr : trim raw = trimEnd ('#' :: tl) := by
    unfold trim
    rw [hhd]
  have hne : trim raw ≠ [] := by
    rw [htr]
    exact trimEnd_cons_ne_nil '#' tl (by decide)
  have hh : (trim raw).head? = some '#' := by
    rcases trimEnd_cons_shape '#' tl with hsh | ⟨l2, hsh⟩
    · exact absurd hsh (trimEnd_cons_ne_nil '#' tl (by decide))
    · rw [htr, hsh]
      rfl
  unfold parseDotenvLine
  dsimp only []
  rw [if_neg hne, if_pos hh]

theorem parseAssignmentLine_cases (n : Nat) (raw : Str) :
    (∃ a iss, parseAssignmentLine n raw = (some a, iss)) ∨
    (∃ iss, parseAssignmentLine n raw = (none, iss) ∧ iss ≠ []) := by
  unfold parseAssignmentLine
  dsimp only []
  repeat' split
  all_goals first
    | (left; exact ⟨_, _, rfl⟩)
    | (right; exact ⟨_, rfl, by simp⟩)

/-- Dispatch: a classified, issue-free, space-whitespace line is processed by the
snapshot parser exactly as the document classification dictates. -/
theorem parseDotenvLine_classify (n : Nat) (raw : Str)
    (hsp : ∀ c ∈ raw, jsWs c = true → c = ' ')
    (hiss : (classifyLine n raw).2 = []) :
    ∀ v e, parseDotenvLine n raw v e =
      ((match (classifyLine n raw).1 with
        | DLine.assignment a => jsMapSet a.key a.value v
        | _ => v), e) := by
  intro v e
  unfold classifyLine at hiss ⊢
  by_cases hb : trim raw = []
  · rw [if_pos hb]
    dsimp only []
    exact parseDotenvLine_skip_blank n raw hb v e
  · rw [if_neg hb] at hiss ⊢
    by_cases hcm : (trimStart raw).head? = some '#'
    · rw [if_pos hcm]
      dsimp only []
      obtain ⟨tl, htl⟩ : ∃ tl, trimStart raw = '#' :: tl := by
        cases hts : trimStart raw with
        | nil =>
          rw [hts] at hcm
          simp at hcm
        | cons c tl =>
          rw [hts] at hcm
          simp only [List.head?_cons, Option.some.injEq] at hcm
          exact ⟨tl, by rw [hcm]⟩
      exact parseDotenvLine_skip_comment n raw tl htl v e
    · rw [if_neg hcm] at hiss ⊢
      rcases parseAssignmentLine_cases n raw with ⟨a, iss, hpa⟩ | ⟨iss, hpa, hne⟩
      · rw [hpa] at hiss ⊢
        dsimp only [] at hiss ⊢
        subst hiss
        exact parseDotenvLine_assign n raw a hsp hpa v e
      · rw [hpa] at hiss
        dsimp only [] at hiss
        exact absurd hiss hne

/-- The snapshot parsing loop computes the last-wins map of the classified
assignments, for issue-free, space-whitespace lines. -/
theorem parseDotenvGo_build : ∀ (n : Nat) (segs : List Str) (v : List (Str × Str))
    (e : List DotenvParseError),
    (∀ r ∈ segs, ∀ c ∈ r, jsWs c = true → c = ' ') →
    (buildLines n segs).2 = [] →
    parseDotenvGo n segs v e =
      ((listAssignments (buildLines n segs).1).foldl (fun m a => jsMapSet a.key a.value m) v, e)
  | n, [], v, e, _, _ => rfl
  | n, raw :: rest, v, e, hsp, hiss => by
    have hiss2 : (classifyLine n raw).2 = [] ∧ (buildLines (n + 1) rest).2 = [] := by
      have h2 := hiss
      simp only [buildLines] at h2
      exact List.append_eq_nil.mp h2
    rw [show parseDotenvGo n (raw :: rest) v e =
      parseDotenvGo (n + 1) rest (parseDotenvLine n raw v e).1 (parseDotenvLine n raw v e).2
      from rfl]
    rw [parseDotenvLine_classify n raw (hsp raw (by simp)) hiss2.1]
    dsimp only []
    rw [parseDotenvGo_build (n + 1) rest _ e (fun r hr => hsp r (by simp [hr])) hiss2.2]
    simp only [buildLines]
    rw [listAssignments_cons, List.foldl_append]
    cases hcl : (classifyLine n raw).1 <;> rfl

theorem parseDotenvGo_append_blank : ∀ (n : Nat) (xs : List Str) (v : List (Str × Str))
    (e : List DotenvParseError),
    parseDotenvGo n (xs ++ [[]]) v e = parseDotenvGo n xs v e
  | n, [], v, e => by
    rw [show parseDotenvGo n ([] ++ [[]]) v e =
      parseDotenvGo (n + 1) [] (parseDotenvLine n [] v e).1 (parseDotenvLine n [] v e).2
      from rfl]
    rw [parseDotenvLine_skip_blank n [] rfl]
    rfl
  | n, x :: xs, v, e => by
    rw [List.cons_append]
    rw [show parseDotenvGo n (x :: (xs ++ [[]])) v e =
      parseDotenvGo (n + 1) (xs ++ [[]]) (parseDotenvLine n x v e).1 (parseDotenvLine n x v e).2
      from rfl]
    rw [parseDotenvGo_append_blank (n + 1) xs _ _]
    rfl

/-- C9 (amended): on texts whose whitespace characters are only spaces and
newlines, when the document parser reports no issues, the snapshot parser
parseDotenv produces no errors and its values map equals the last-wins
key-to-value snapshot of the document's assignment lines. -/
theorem C9_parse_equiv_amended (T : Str)
    (hws : ∀ c ∈ T, jsWs c = true → c = ' ' ∨ c = '\n')
    (hiss : (parseDotenvDocument T).issues = []) :
    (parseDotenv T).1 = docSnapshotValues T ∧ (parseDotenv T).2 = [] := by
  have hsegs : ∀ r ∈ splitLines T, ∀ c ∈ r, jsWs c = true → c = ' ' := by
    intro r hr c hc hcw
    obtain ⟨hmem, hnl⟩ := splitLines_chars T r hr c hc
    rcases hws c hmem hcw with h | h
    · exact h
    · exact absurd h hnl
  unfold parseDotenv docSnapshotValues parseDotenvDocument
  unfold parseDotenvDocument at hiss
  dsimp only [] at hiss ⊢
  by_cases he : endsWithLF T = true
  · rw [if_pos he] at hiss ⊢
    obtain ⟨xs, hxs, hne⟩ := splitLines_endsWithLF T he
    rw [hxs, List.dropLast_concat] at hiss ⊢
    rw [parseDotenvGo_append_blank]
    rw [parseDotenvGo_build 1 xs [] []
      (fun r hr => hsegs r (by rw [hxs]; exact List.mem_append.mpr (Or.inl hr))) hiss]
    exact ⟨rfl, rfl⟩
  · rw [if_neg he] at hiss ⊢
    rw [parseDotenvGo_build 1 (splitLines T) [] [] hsegs hiss]
    exact ⟨rfl, rfl⟩

/-- C9 witness: a text with a comment, an exported assignment, a single-quoted
value with spaces, and a duplicate key parses identically through both parsers,
with the later assignment winning. -/
theorem C9_parse_equiv_amended_witness :
    (parseDotenv "# c\nexport A=1\nB='x y'\nA=2\n".toList).1 =
      docSnapshotValues "# c\nexport A=1\nB='x y'\nA=2\n".toList ∧
    (parseDotenv "# c\nexport A=1\nB='x y'\nA=2\n".toList).2 = [] :=
  C9_parse_equiv_amended "# c\nexport A=1\nB='x y'\nA=2\n".toList (by decide) (by decide)

/-- Formatting scope (`FormatMode`): per-section or whole file. -/
inductive FormatMode
  | sections
  | global
deriving DecidableEq, Repr

/-- Sorting choice (`FormatSort`). -/
inductive FormatSort
  | alpha
  | none
deriving DecidableEq, Repr

/-- Kind test `l.kind === 'blank'`. -/
def DLine.isBlank : DLine → Bool
  | .blank _ _ => true
  | _ => false

/-- Kind test `l.kind === 'comment'`. -/
def DLine.isComment : DLine → Bool
  | .comment _ _ => true
  | _ => false

/-- Kind test `l.kind === 'assignment'`. -/
def DLine.isAssignment : DLine → Bool
  | .assignment _ => true
  | _ => false

/-- The loop of `splitIntoSections`: each blank line closes the current section
(the blank stays at that section's end); the final section is pushed as-is. -/
def sisGo : List DLine → List DLine → List (List DLine)
  | current, [] => [current]
  | current, l :: rest =>
    if l.isBlank then (current ++ [l]) :: sisGo [] rest
    else sisGo (current ++ [l]) rest

/-- `splitIntoSections` from the source. -/
def splitIntoSections (docLines : List DLine) : List (List DLine) :=
  sisGo [] docLines

/-- The header split of `formatSection`: comments seen before the first
assignment go to the header, everything else to the rest. -/
def hsGo : Bool → List DLine → List DLine × List DLine
  | _, [] => ([], [])
  | saw, l :: rest =>
    if !saw && l.isComment then
      let p := hsGo saw rest
      (l :: p.1, p.2)
    else
      let p := hsGo (saw || l.isAssignment) rest
      (p.1, l :: p.2)

/-- The block-chunking loop of `formatSection`: comments pend, an assignment
closes a keyed block made of its pending comments plus itself, anything else
flushes the pending comments and itself to the trailing run; leftover pending
comments end the trailing run. -/
def chunkGo : List DLine → List DLine → List (Str × List DLine) × List DLine
  | pending, [] => ([], pending)
  | pending, DLine.comment n r :: rest => chunkGo (pending ++ [DLine.comment n r]) rest
  | pending, DLine.assignment a :: rest =>
    let p := chunkGo [] rest
    ((a.key, pending ++ [DLine.assignment a]) :: p.1, p.2)
  | pending, DLine.blank n r :: rest =>
    let p := chunkGo [] rest
    (p.1, pending ++ [DLine.blank n r] ++ p.2)
  | pending, DLine.unknown n r :: rest =>
    let p := chunkGo [] rest
    (p.1, pending ++ [DLine.unknown n r] ++ p.2)

/-- `formatSection` from the source, with the `localeCompare`-based ≤-test of
the block sort (`a.key.localeCompare(b.key)`) abstracted as `le`. -/
def formatSection (le : Str → Str → Bool) (sectionLines : List DLine)
    (srt : FormatSort) : List DLine :=
  match srt with
  | .none => sectionLines
  | .alpha =>
    let hr := hsGo false sectionLines
    let bt := chunkGo [] hr.2
    let sorted := bt.1.insertionSort fun a b => le a.1 b.1 = true
    hr.1 ++ (sorted.map Prod.snd).flatten ++ bt.2

/-- The mode dispatch of `formatDotenv`: global formats the whole line list as
one section; sections splits on blanks, formats each, and re-concatenates. -/
def formatLines (le : Str → Str → Bool) (mode : FormatMode) (srt : FormatSort)
    (L : List DLine) : List DLine :=
  match mode with
  | .global => formatSection le L srt
  | .sections => ((splitIntoSections L).map fun s => formatSection le s srt).flatten

/-- Result of `formatDotenv`. -/
structure FormatDotenvResult where
  output : Str
  issues : List DotenvIssue
  hasChanges : Bool
deriving DecidableEq, Repr

/-- `formatDotenv` from the source: parse, return the text unchanged for
`sort: 'none'`, otherwise reformat the lines per mode and re-stringify with the
original issues and trailing-newline flag; `hasChanges` compares output text to
input text. -/
def formatDotenv (le : Str → Str → Bool) (contents : Str) (mode : FormatMode)
    (srt : FormatSort) : FormatDotenvResult :=
  let doc := parseDotenvDocument contents
  match srt with
  | .none => ⟨contents, doc.issues, false⟩
  | .alpha =>
    let nextLines := formatLines le mode srt doc.lines
    let output := stringifyDotenvDocument ⟨nextLines, doc.issues, doc.endsWithNewline⟩
    ⟨output, doc.issues, decide (output ≠ contents)⟩

/-- A concrete total transitive comparator standing in for
`a.localeCompare(b) <= 0`: compare first characters. -/
def leDemo (a b : Str) : Bool := decide (a.headD 'a' ≤ b.headD 'a')

theorem isBlank_dekey (l : DLine) : (dekey l).isBlank = l.isBlank := by
  cases l <;> rfl

theorem isComment_dekey (l : DLine) : (dekey l).isComment = l.isComment := by
  cases l <;> rfl

theorem isAssignment_dekey (l : DLine) : (dekey l).isAssignment = l.isAssignment := by
  cases l <;> rfl

theorem dekey_eq_blank (l : DLine) (r : Str) (h : dekey l = DLine.blank 0 r) :
    ∃ n, l = DLine.blank n r := by
  cases l with
  | blank n raw =>
    simp only [dekey, DLine.withLine, DLine.blank.injEq, true_and] at h
    exact ⟨n, by rw [h]⟩
  | comment n raw => simp [dekey, DLine.withLine] at h
  | assignment a => simp [dekey, DLine.withLine] at h
  | unknown n raw => simp [dekey, DLine.withLine] at h

theorem dekey_eq_unknown (l : DLine) (r : Str) (h : dekey l = DLine.unknown 0 r) :
    ∃ n, l = DLine.unknown n r := by
  cases l with
  | blank n raw => simp [dekey, DLine.withLine] at h
  | comment n raw => simp [dekey, DLine.withLine] at h
  | assignment a => simp [dekey, DLine.withLine] at h
  | unknown n raw =>
    simp only [dekey, DLine.withLine, DLine.unknown.injEq, true_and] at h
    exact ⟨n, by rw [h]⟩

theorem map_raw_of_map_dekey : ∀ (X Y : List DLine), X.map dekey = Y.map dekey →
    X.map DLine.raw = Y.map DLine.raw
  | [], [], _ => rfl
  | [], _ :: _, h => by simp at h
  | _ :: _, [], h => by simp at h
  | x :: X, y :: Y, h => by
    simp only [List.map_cons, List.cons.injEq] at h ⊢
    exact ⟨dekey_raw x y h.1, map_raw_of_map_dekey X Y h.2⟩

theorem hsGo_cons (saw : Bool) (l : DLine) (rest : List DLine) :
    hsGo saw (l :: rest) =
      if !saw && l.isComment then
        (l :: (hsGo saw rest).1, (hsGo saw rest).2)
      else
        ((hsGo (saw || l.isAssignment) rest).1,
          l :: (hsGo (saw || l.isAssignment) rest).2) := rfl

theorem hsGo_true : ∀ xs : List DLine, hsGo true xs = ([], xs)
  | [] => rfl
  | l :: rest => by
    rw [hsGo_cons]
    have hc : (!true && l.isComment) = false := rfl
    rw [hc, if_neg (by simp)]
    rw [show (true || l.isAssignment) = true from rfl, hsGo_true rest]

theorem hsGo_header_comments : ∀ (saw : Bool) (xs : List DLine),
    ∀ x ∈ (hsGo saw xs).1, x.isComment = true
  | _, [], x, hx => by simp [hsGo] at hx
  | saw, l :: rest, x, hx => by
    rw [hsGo_cons] at hx
    by_cases hc : (!saw && l.isComment) = true
    · rw [if_pos hc] at hx
      rcases List.mem_cons.mp hx with h | h
      · rw [h]
        exact (Bool.and_elim_right hc)
      · exact hsGo_header_comments saw rest x h
    · rw [if_neg hc] at hx
      exact hsGo_header_comments (saw || l.isAssignment) rest x hx

theorem hsGo_perm : ∀ (saw : Bool) (xs : List DLine),
    ((hsGo saw xs).1 ++ (hsGo saw xs).2).Perm xs
  | _, [] => by simp [hsGo]
  | saw, l :: rest => by
    rw [hsGo_cons]
    by_cases hc : (!saw && l.isComment) = true
    · rw [if_pos hc]
      exact (hsGo_perm saw rest).cons l
    · rw [if_neg hc]
      exact (List.perm_middle).trans ((hsGo_perm (saw || l.isAssignment) rest).cons l)

theorem hsGo_append (l : DLine) (hl : l.isComment = false) :
    ∀ (saw : Bool) (xs : List DLine),
    hsGo saw (xs ++ [l]) = ((hsGo saw xs).1, (hsGo saw xs).2 ++ [l])
  | saw, [] => by
    rw [show ([] : List DLine) ++ [l] = [l] from rfl, hsGo_cons]
    rw [hl]
    rw [if_neg (by simp)]
    rw [show hsGo (saw || l.isAssignment) [] = ([], []) from rfl]
    rfl
  | saw, x :: xs => by
    rw [List.cons_append, hsGo_cons, hsGo_cons]
    by_cases hc : (!saw && x.isComment) = true
    · rw [if_pos hc, if_pos hc, hsGo_append l hl saw xs]
    · rw [if_neg hc, if_neg hc, hsGo_append l hl (saw || x.isAssignment) xs]
      rfl

theorem hsGo_noComment : ∀ (saw : Bool) (xs : List DLine),
    (∀ x ∈ xs, x.isComment = false) → hsGo saw xs = ([], xs)
  | _, [], _ => rfl
  | saw, l :: rest, h => by
    rw [hsGo_cons]
    have hl : l.isComment = false := h l (by simp)
    rw [hl, if_neg (by simp)]
    rw [hsGo_noComment (saw || l.isAssignment) rest fun x hx => h x (by simp [hx])]

theorem hsGo_comments : ∀ (C ys : List DLine), (∀ x ∈ C, x.isComment = true) →
    hsGo false (C ++ ys) = (C ++ (hsGo false ys).1, (hsGo false ys).2)
  | [], ys, _ => by simp
  | c :: C, ys, h => by
    rw [List.cons_append, hsGo_cons]
    have hc : c.isComment = true := h c (by simp)
    rw [if_pos (by simp [hc])]
    rw [hsGo_comments C ys fun x hx => h x (by simp [hx])]
    rfl

theorem hsGo_assign_head (l : DLine) (hl : l.isAssignment = true) (ys : List DLine) :
    hsGo false (l :: ys) = ([], l :: ys) := by
  rw [hsGo_cons]
  have hc : l.isComment = false := by
    cases l <;> simp_all [DLine.isComment, DLine.isAssignment]
  rw [hc, if_neg (by simp), hl]
  rw [show (false || true) = true from rfl, hsGo_true ys]

theorem hsGo_no_assign_rest : ∀ (xs : List DLine),
    (∀ x ∈ xs, x.isAssignment = false) → ∀ x ∈ (hsGo false xs).2, x.isComment = false
  | [], _, x, hx => by simp [hsGo] at hx
  | l :: rest, h, x, hx => by
    rw [hsGo_cons] at hx
    by_cases hc : (!false && l.isComment) = true
    · rw [if_pos hc] at hx
      exact hsGo_no_assign_rest rest (fun y hy => h y (by simp [hy])) x hx
    · rw [if_neg hc] at hx
      rw [h l (by simp), Bool.or_false] at hx
      rcases List.mem_cons.mp hx with h1 | h1
      · rw [h1]
        simpa using hc
      · exact hsGo_no_assign_rest rest (fun y hy => h y (by simp [hy])) x h1

theorem hsGo_assign_mem_rest (saw : Bool) (xs : List DLine) (x : DLine) (hx : x ∈ xs)
    (ha : x.isAssignment = true) : x ∈ (hsGo saw xs).2 := by
  have hmem : x ∈ (hsGo saw xs).1 ++ (hsGo saw xs).2 := (hsGo_perm saw xs).mem_iff.mpr hx
  rcases List.mem_append.mp hmem with h | h
  · have := hsGo_header_comments saw xs x h
    cases x <;> simp_all [DLine.isComment, DLine.isAssignment]
  · exact h

theorem chunkGo_comment_cons (pending : List DLine) (n : Nat) (r : Str) (rest : List DLine) :
    chunkGo pending (DLine.comment n r :: rest) =
      chunkGo (pending ++ [DLine.comment n r]) rest := rfl

theorem chunkGo_assign_cons (pending : List DLine) (a : Assignment) (rest : List DLine) :
    chunkGo pending (DLine.assignment a :: rest) =
      ((a.key, pending ++ [DLine.assignment a]) :: (chunkGo [] rest).1,
        (chunkGo [] rest).2) := rfl

theorem chunkGo_other_cons (pending : List DLine) (l : DLine) (rest : List DLine)
    (hc : l.isComment = false) (ha : l.isAssignment = false) :
    chunkGo pending (l :: rest) =
      ((chunkGo [] rest).1, pending ++ [l] ++ (chunkGo [] rest).2) := by
  cases l with
  | blank n r => rfl
  | comment n r => simp [DLine.isComment] at hc
  | assignment a => simp [DLine.isAssignment] at ha
  | unknown n r => rfl

theorem chunkGo_no_assign : ∀ (pending xs : List DLine),
    (∀ x ∈ xs, x.isAssignment = false) → chunkGo pending xs = ([], pending ++ xs)
  | pending, [], _ => by simp [chunkGo]
  | pending, DLine.comment n r :: rest, h => by
    rw [chunkGo_comment_cons,
      chunkGo_no_assign (pending ++ [DLine.comment n r]) rest fun x hx => h x (by simp [hx])]
    simp
  | _, DLine.assignment a :: rest, h => by
    have := h (DLine.assignment a) (by simp)
    simp [DLine.isAssignment] at this
  | pending, DLine.blank n r :: rest, h => by
    rw [chunkGo_other_cons pending (DLine.blank n r) rest rfl rfl,
      chunkGo_no_assign [] rest fun x hx => h x (by simp [hx])]
    simp
  | pending, DLine.unknown n r :: rest, h => by
    rw [chunkGo_other_cons pending (DLine.unknown n r) rest rfl rfl,
      chunkGo_no_assign [] rest fun x hx => h x (by simp [hx])]
    simp

theorem chunkGo_append_other (l : DLine) (hc : l.isComment = false)
    (ha : l.isAssignment = false) : ∀ (pending xs : List DLine),
    chunkGo pending (xs ++ [l]) = ((chunkGo pending xs).1, (chunkGo pending xs).2 ++ [l])
  | pending, [] => by
    rw [show ([] : List DLine) ++ [l] = [l] from rfl, chunkGo_other_cons pending l [] hc ha]
    simp [chunkGo]
  | pending, DLine.comment n r :: rest => by
    rw [List.cons_append, chunkGo_comment_cons, chunkGo_comment_cons,
      chunkGo_append_other l hc ha (pending ++ [DLine.comment n r]) rest]
  | pending, DLine.assignment a :: rest => by
    rw [List.cons_append, chunkGo_assign_cons, chunkGo_assign_cons,
      chunkGo_append_other l hc ha [] rest]
  | pending, DLine.blank n r :: rest => by
    rw [List.cons_append, chunkGo_other_cons pending (DLine.blank n r) _ rfl rfl,
      chunkGo_other_cons pending (DLine.blank n r) _ rfl rfl,
      chunkGo_append_other l hc ha [] rest]
    simp
  | pending, DLine.unknown n r :: rest => by
    rw [List.cons_append, chunkGo_other_cons pending (DLine.unknown n r) _ rfl rfl,
      chunkGo_other_cons pending (DLine.unknown n r) _ rfl rfl,
      chunkGo_append_other l hc ha [] rest]
    simp

theorem chunkGo_block : ∀ (pending P : List DLine) (a : Assignment) (ys : List DLine),
    (∀ x ∈ P, x.isComment = true) →
    chunkGo pending (P ++ DLine.assignment a :: ys) =
      ((a.key, pending ++ P ++ [DLine.assignment a]) :: (chunkGo [] ys).1,
        (chunkGo [] ys).2)
  | pending, [], a, ys, _ => by
    rw [show ([] : List DLine) ++ DLine.assignment a :: ys = DLine.assignment a :: ys from rfl,
      chunkGo_assign_cons]
    simp
  | pending, x :: P, a, ys, h => by
    cases x with
    | comment n r =>
      rw [List.cons_append, chunkGo_comment_cons,
        chunkGo_block (pending ++ [DLine.comment n r]) P a ys fun y hy => h y (by simp [hy])]
      simp
    | blank n r => simpa [DLine.isComment] using h (DLine.blank n r) (by simp)
    | assignment b => simpa [DLine.isComment] using h (DLine.assignment b) (by simp)
    | unknown n r => simpa [DLine.isComment] using h (DLine.unknown n r) (by simp)

theorem chunkGo_blocks_shape : ∀ (pending xs : List DLine),
    (∀ x ∈ pending, x.isComment = true) → ∀ b ∈ (chunkGo pending xs).1,
    ∃ P a, (∀ x ∈ P, x.isComment = true) ∧ b.2 = P ++ [DLine.assignment a] ∧ b.1 = a.key
  | _, [], _, b, hb => by simp [chunkGo] at hb
  | pending, DLine.comment n r :: rest, hp, b, hb => by
    rw [chunkGo_comment_cons] at hb
    exact chunkGo_blocks_shape (pending ++ [DLine.comment n r]) rest
      (fun x hx => by
        rcases List.mem_append.mp hx with h | h
        · exact hp x h
        · simp only [List.mem_singleton] at h
          rw [h]; rfl) b hb
  | pending, DLine.assignment a :: rest, hp, b, hb => by
    rw [chunkGo_assign_cons] at hb
    rcases List.mem_cons.mp hb with h | h
    · exact ⟨pending, a, hp, by rw [h], by rw [h]⟩
    · exact chunkGo_blocks_shape [] rest (by simp) b h
  | pending, DLine.blank n r :: rest, hp, b, hb => by
    rw [chunkGo_other_cons pending (DLine.blank n r) rest rfl rfl] at hb
    exact chunkGo_blocks_shape [] rest (by simp) b hb
  | pending, DLine.unknown n r :: rest, hp, b, hb => by
    rw [chunkGo_other_cons pending (DLine.unknown n r) rest rfl rfl] at hb
    exact chunkGo_blocks_shape [] rest (by simp) b hb

theorem chunkGo_trailing_not_assign : ∀ (pending xs : List DLine),
    (∀ x ∈ pending, x.isAssignment = false) →
    ∀ x ∈ (chunkGo pending xs).2, x.isAssignment = false
  | pending, [], hp, x, hx => by
    simp only [chunkGo] at hx
    exact hp x hx
  | pending, DLine.comment n r :: rest, hp, x, hx => by
    rw [chunkGo_comment_cons] at hx
    exact chunkGo_trailing_not_assign (pending ++ [DLine.comment n r]) rest
      (fun y hy => by
        rcases List.mem_append.mp hy with h | h
        · exact hp y h
        · simp only [List.mem_singleton] at h
          rw [h]; rfl) x hx
  | pending, DLine.assignment a :: rest, hp, x, hx => by
    rw [chunkGo_assign_cons] at hx
    exact chunkGo_trailing_not_assign [] rest (by simp) x hx
  | pending, DLine.blank n r :: rest, hp, x, hx => by
    rw [chunkGo_other_cons pending (DLine.blank n r) rest rfl rfl] at hx
    rcases List.mem_append.mp hx with h | h
    · rcases List.mem_append.mp h with h1 | h1
      · exact hp x h1
      · simp only [List.mem_singleton] at h1
        rw [h1]; rfl
    · exact chunkGo_trailing_not_assign [] rest (by simp) x h
  | pending, DLine.unknown n r :: rest, hp, x, hx => by
    rw [chunkGo_other_cons pending (DLine.unknown n r) rest rfl rfl] at hx
    rcases List.mem_append.mp hx with h | h
    · rcases List.mem_append.mp h with h1 | h1
      · exact hp x h1
      · simp only [List.mem_singleton] at h1
        rw [h1]; rfl
    · exact chunkGo_trailing_not_assign [] rest (by simp) x h

theorem chunkGo_nil_blocks : ∀ (pending xs : List DLine),
    (chunkGo pending xs).1 = [] → ∀ x ∈ xs, x.isAssignment = false
  | _, [], _, x, hx => by simp at hx
  | pending, DLine.comment n r :: rest, h, x, hx => by
    rw [chunkGo_comment_cons] at h
    rcases List.mem_cons.mp hx with h1 | h1
    · rw [h1]; rfl
    · exact chunkGo_nil_blocks _ rest h x h1
  | pending, DLine.assignment a :: rest, h, x, hx => by
    rw [chunkGo_assign_cons] at h
    simp at h
  | pending, DLine.blank n r :: rest, h, x, hx => by
    rw [chunkGo_other_cons pending (DLine.blank n r) rest rfl rfl] at h
    rcases List.mem_cons.mp hx with h1 | h1
    · rw [h1]; rfl
    · exact chunkGo_nil_blocks [] rest h x h1
  | pending, DLine.unknown n r :: rest, h, x, hx => by
    rw [chunkGo_other_cons pending (DLine.unknown n r) rest rfl rfl] at h
    rcases List.mem_cons.mp hx with h1 | h1
    · rw [h1]; rfl
    · exact chunkGo_nil_blocks [] rest h x h1

theorem chunkGo_perm : ∀ (pending xs : List DLine),
    (((chunkGo pending xs).1.map Prod.snd).flatten ++ (chunkGo pending xs).2).Perm
      (pending ++ xs)
  | pending, [] => by simp [chunkGo]
  | pending, DLine.comment n r :: rest => by
    rw [chunkGo_comment_cons]
    refine (chunkGo_perm (pending ++ [DLine.comment n r]) rest).trans ?_
    rw [List.append_assoc]
    rfl
  | pending, DLine.assignment a :: rest => by
    rw [chunkGo_assign_cons]
    rw [List.map_cons, List.flatten_cons]
    have ih := chunkGo_perm [] rest
    rw [List.nil_append] at ih
    rw [List.append_assoc (pending ++ [DLine.assignment a])]
    have h2 := ih.append_left (pending ++ [DLine.assignment a])
    rw [show (pending ++ [DLine.assignment a]) ++ rest
        = pending ++ DLine.assignment a :: rest from by
      rw [List.append_assoc]
      rfl] at h2
    exact h2
  | pending, DLine.blank n r :: rest => by
    rw [chunkGo_other_cons pending (DLine.blank n r) rest rfl rfl]
    have ih := chunkGo_perm [] rest
    rw [List.nil_append] at ih
    refine (List.perm_append_comm_assoc _ _ _).trans ?_
    have h2 := ih.append_left (pending ++ [DLine.blank n r])
    rw [show (pending ++ [DLine.blank n r]) ++ rest
        = pending ++ DLine.blank n r :: rest from by
      rw [List.append_assoc]
      rfl] at h2
    exact h2
  | pending, DLine.unknown n r :: rest => by
    rw [chunkGo_other_cons pending (DLine.unknown n r) rest rfl rfl]
    have ih := chunkGo_perm [] rest
    rw [List.nil_append] at ih
    refine (List.perm_append_comm_assoc _ _ _).trans ?_
    have h2 := ih.append_left (pending ++ [DLine.unknown n r])
    rw [show (pending ++ [DLine.unknown n r]) ++ rest
        = pending ++ DLine.unknown n r :: rest from by
      rw [List.append_assoc]
      rfl] at h2
    exact h2

theorem formatSection_none (le : Str → Str → Bool) (L : List DLine) :
    formatSection le L .none = L := rfl

theorem formatSection_alpha (le : Str → Str → Bool) (L : List DLine) :
    formatSection le L .alpha =
      (hsGo false L).1 ++
        (((chunkGo [] (hsGo false L).2).1.insertionSort
          fun a b => le a.1 b.1 = true).map Prod.snd).flatten ++
        (chunkGo [] (hsGo false L).2).2 := rfl

theorem formatSection_nil (le : Str → Str → Bool) :
    formatSection le [] .alpha = [] := rfl

theorem formatSection_perm (le : Str → Str → Bool) (L : List DLine) (srt : FormatSort) :
    (formatSection le L srt).Perm L := by
  cases srt with
  | none => rfl
  | alpha =>
    rw [formatSection_alpha]
    have hsort : ((((chunkGo [] (hsGo false L).2).1.insertionSort
        fun a b => le a.1 b.1 = true).map Prod.snd).flatten).Perm
        (((chunkGo [] (hsGo false L).2).1.map Prod.snd).flatten) :=
      ((List.perm_insertionSort _ _).map Prod.snd).flatten
    have hchunk := chunkGo_perm [] (hsGo false L).2
    rw [List.nil_append] at hchunk
    refine List.Perm.trans ?_ (hsGo_perm false L)
    rw [List.append_assoc]
    exact ((hsort.append_right _).trans hchunk).append_left _

theorem formatSection_mem (le : Str → Str → Bool) (L : List DLine) (srt : FormatSort)
    (x : DLine) (hx : x ∈ formatSection le L srt) : x ∈ L :=
  (formatSection_perm le L srt).mem_iff.mp hx

theorem formatSection_append_other (le : Str → Str → Bool) (l : DLine)
    (hc : l.isComment = false) (ha : l.isAssignment = false) (xs : List DLine) :
    formatSection le (xs ++ [l]) .alpha = formatSection le xs .alpha ++ [l] := by
  rw [formatSection_alpha, formatSection_alpha]
  rw [hsGo_append l hc false xs]
  rw [chunkGo_append_other l hc ha [] (hsGo false xs).2]
  rw [← List.append_assoc]

theorem rechunk : ∀ (bs : List (Str × List DLine)) (t : List DLine),
    (∀ b ∈ bs, ∃ P a, (∀ x ∈ P, x.isComment = true) ∧
      b.2 = P ++ [DLine.assignment a] ∧ b.1 = a.key) →
    (∀ x ∈ t, x.isAssignment = false) →
    chunkGo [] ((bs.map Prod.snd).flatten ++ t) = (bs, t)
  | [], t, _, ht => by
    rw [List.map_nil, List.flatten_nil, List.nil_append, chunkGo_no_assign [] t ht,
      List.nil_append]
  | b :: bs, t, hbs, ht => by
    obtain ⟨P, a, hPc, hb2, hb1⟩ := hbs b (by simp)
    rw [List.map_cons, List.flatten_cons, hb2]
    rw [List.append_assoc (P ++ [DLine.assignment a])]
    rw [show (P ++ [DLine.assignment a]) ++ ((bs.map Prod.snd).flatten ++ t)
        = P ++ DLine.assignment a :: ((bs.map Prod.snd).flatten ++ t) from by
      rw [List.append_assoc]
      rfl]
    rw [chunkGo_block [] P a _ hPc]
    rw [rechunk bs t (fun x hx => hbs x (by simp [hx])) ht]
    rw [List.nil_append, ← hb2, ← hb1]

/-- A line list of the shape produced by an alpha `formatSection` run — sorted
comment-led header, key-sorted blocks, assignment-free trailing run — is a fixed
point of `formatSection`. -/
theorem formatSection_fix (le : Str → Str → Bool) (h t : List DLine)
    (bs : List (Str × List DLine))
    (hhc : ∀ x ∈ h, x.isComment = true)
    (hbs : ∀ b ∈ bs, ∃ P a, (∀ x ∈ P, x.isComment = true) ∧
      b.2 = P ++ [DLine.assignment a] ∧ b.1 = a.key)
    (hsorted : List.Sorted (fun a b => le a.1 b.1 = true) bs)
    (ht : ∀ x ∈ t, x.isAssignment = false)
    (htc : bs = [] → ∀ x ∈ t, x.isComment = false) :
    formatSection le (h ++ (bs.map Prod.snd).flatten ++ t) .alpha
      = h ++ (bs.map Prod.snd).flatten ++ t := by
  cases bs with
  | nil =>
    have htc' := htc rfl
    rw [List.map_nil, List.flatten_nil, List.append_nil]
    rw [formatSection_alpha]
    rw [hsGo_comments h t hhc, hsGo_noComment false t htc']
    rw [chunkGo_no_assign [] t ht]
    rw [show (([] : List (Str × List DLine)).insertionSort
      fun a b => le a.1 b.1 = true) = [] from rfl]
    simp
  | cons s₁ srest =>
    obtain ⟨P₁, a₁, hP₁c, hs₁2, hs₁1⟩ := hbs s₁ (by simp)
    have hM : h ++ (((s₁ :: srest).map Prod.snd).flatten) ++ t
        = (h ++ P₁) ++ (DLine.assignment a₁ ::
            ((srest.map Prod.snd).flatten ++ t)) := by
      rw [List.map_cons, List.flatten_cons, hs₁2]
      simp [List.append_assoc]
    rw [hM, formatSection_alpha]
    rw [hsGo_comments (h ++ P₁) _ (fun x hx => by
      rcases List.mem_append.mp hx with h1 | h1
      · exact hhc x h1
      · exact hP₁c x h1)]
    rw [hsGo_assign_head (DLine.assignment a₁) rfl]
    rw [chunkGo_assign_cons]
    rw [rechunk srest t (fun b hb => hbs b (by simp [hb])) ht]
    have hsorted₂ : List.Sorted (fun (a b : Str × List DLine) => le a.1 b.1 = true)
        ((a₁.key, [] ++ [DLine.assignment a₁]) :: srest) := by
      rw [List.sorted_cons]
      rw [List.sorted_cons] at hsorted
      refine ⟨fun y hy => ?_, hsorted.2⟩
      have := hsorted.1 y hy
      rw [hs₁1] at this
      exact this
    rw [List.Sorted.insertionSort_eq hsorted₂]
    simp [List.append_assoc]

/-- One alpha `formatSection` pass is idempotent (for a total transitive
comparator). -/
theorem formatSection_idem (le : Str → Str → Bool)
    (htot : ∀ a b, le a b = true ∨ le b a = true)
    (htrans : ∀ a b c, le a b = true → le b c = true → le a c = true)
    (L : List DLine) :
    formatSection le (formatSection le L .alpha) .alpha
      = formatSection le L .alpha := by
  haveI : IsTotal (Str × List DLine) (fun a b => le a.1 b.1 = true) :=
    ⟨fun a b => htot a.1 b.1⟩
  haveI : IsTrans (Str × List DLine) (fun a b => le a.1 b.1 = true) :=
    ⟨fun a b c => htrans a.1 b.1 c.1⟩
  have hperm := List.perm_insertionSort (fun (a b : Str × List DLine) => le a.1 b.1 = true)
    (chunkGo [] (hsGo false L).2).1
  rw [formatSection_alpha le L]
  refine formatSection_fix le _ _ _ (hsGo_header_comments false L) ?_ ?_ ?_ ?_
  · intro b hb
    exact chunkGo_blocks_shape [] (hsGo false L).2 (by simp) b (hperm.mem_iff.mp hb)
  · exact List.sorted_insertionSort _ _
  · exact chunkGo_trailing_not_assign [] (hsGo false L).2 (by simp)
  · intro hnil
    have hblocks : (chunkGo [] (hsGo false L).2).1 = [] := by
      have := hperm.symm
      rw [hnil] at this
      exact List.Perm.eq_nil this
    have hnoassign : ∀ x ∈ (hsGo false L).2, x.isAssignment = false :=
      chunkGo_nil_blocks [] (hsGo false L).2 hblocks
    have hLnoassign : ∀ x ∈ L, x.isAssignment = false := by
      intro x hx
      rcases List.mem_append.mp ((hsGo_perm false L).mem_iff.mpr hx) with h1 | h1
      · have := hsGo_header_comments false L x h1
        cases x <;> simp_all [DLine.isComment, DLine.isAssignment]
      · exact hnoassign x h1
    have htr : (chunkGo [] (hsGo false L).2).2 = (hsGo false L).2 := by
      rw [chunkGo_no_assign [] (hsGo false L).2 hnoassign, List.nil_append]
    rw [htr]
    exact hsGo_no_assign_rest L hLnoassign

theorem sisGo_cons_blank (cur : List DLine) (l : DLine) (rest : List DLine)
    (h : l.isBlank = true) :
    sisGo cur (l :: rest) = (cur ++ [l]) :: sisGo [] rest := by
  simp [sisGo, h]

theorem sisGo_cons_nonblank (cur : List DLine) (l : DLine) (rest : List DLine)
    (h : l.isBlank = false) :
    sisGo cur (l :: rest) = sisGo (cur ++ [l]) rest := by
  simp [sisGo, h]

theorem flatten_sisGo : ∀ (cur L : List DLine), (sisGo cur L).flatten = cur ++ L
  | cur, [] => by simp [sisGo]
  | cur, l :: rest => by
    by_cases h : l.isBlank = true
    · rw [sisGo_cons_blank cur l rest h, List.flatten_cons, flatten_sisGo [] rest]
      simp
    · rw [sisGo_cons_nonblank cur l rest (by simpa using h),
        flatten_sisGo (cur ++ [l]) rest]
      simp

theorem sisGo_shape : ∀ (cur L : List DLine), (∀ x ∈ cur, x.isBlank = false) →
    ∃ S last, sisGo cur L = S ++ [last] ∧
      (∀ s ∈ S, ∃ body b, s = body ++ [b] ∧
        (∀ x ∈ body, x.isBlank = false) ∧ b.isBlank = true) ∧
      (∀ x ∈ last, x.isBlank = false)
  | cur, [], hc => ⟨[], cur, rfl, by simp, hc⟩
  | cur, l :: rest, hc => by
    by_cases h : l.isBlank = true
    · obtain ⟨S, last, hS, hclosed, hlast⟩ := sisGo_shape [] rest (by simp)
      refine ⟨(cur ++ [l]) :: S, last, ?_, fun s hs => ?_, hlast⟩
      · rw [sisGo_cons_blank cur l rest h, hS]
        rfl
      · rcases List.mem_cons.mp hs with h1 | h1
        · exact ⟨cur, l, h1, hc, h⟩
        · exact hclosed s h1
    · obtain ⟨S, last, hS, hclosed, hlast⟩ := sisGo_shape (cur ++ [l]) rest (fun x hx => by
        rcases List.mem_append.mp hx with h1 | h1
        · exact hc x h1
        · simp only [List.mem_singleton] at h1
          rw [h1]
          simpa using h)
      exact ⟨S, last,
        by rw [sisGo_cons_nonblank cur l rest (by simpa using h)]; exact hS,
        hclosed, hlast⟩

theorem sisGo_blankfree : ∀ (cur c : List DLine), (∀ x ∈ c, x.isBlank = false) →
    sisGo cur c = [cur ++ c]
  | cur, [], _ => by simp [sisGo]
  | cur, l :: rest, h => by
    rw [sisGo_cons_nonblank cur l rest (h l (by simp)),
      sisGo_blankfree (cur ++ [l]) rest fun x hx => h x (by simp [hx])]
    simp

theorem sisGo_closed_run : ∀ (cur body : List DLine) (b : DLine) (tail : List DLine),
    (∀ x ∈ body, x.isBlank = false) → b.isBlank = true →
    sisGo cur (body ++ b :: tail) = (cur ++ body ++ [b]) :: sisGo [] tail
  | cur, [], b, tail, _, hb => by
    rw [List.nil_append, sisGo_cons_blank cur b tail hb]
    simp
  | cur, x :: body, b, tail, h, hb => by
    rw [List.cons_append, sisGo_cons_nonblank cur x _ (h x (by simp)),
      sisGo_closed_run (cur ++ [x]) body b tail (fun y hy => h y (by simp [hy])) hb]
    simp

theorem sisGo_append_blank (l : DLine) (hb : l.isBlank = true) : ∀ (cur xs : List DLine),
    ∃ S c, sisGo cur xs = S ++ [c] ∧ sisGo cur (xs ++ [l]) = S ++ [c ++ [l], []]
  | cur, [] => by
    refine ⟨[], cur, rfl, ?_⟩
    rw [show ([] : List DLine) ++ [l] = [l] from rfl, sisGo_cons_blank cur l [] hb]
    rfl
  | cur, x :: xs => by
    by_cases hx : x.isBlank = true
    · obtain ⟨S, c, h1, h2⟩ := sisGo_append_blank l hb [] xs
      refine ⟨(cur ++ [x]) :: S, c, ?_, ?_⟩
      · rw [sisGo_cons_blank cur x xs hx, h1]
        rfl
      · rw [List.cons_append, sisGo_cons_blank cur x _ hx, h2]
        rfl
    · obtain ⟨S, c, h1, h2⟩ := sisGo_append_blank l hb (cur ++ [x]) xs
      refine ⟨S, c, ?_, ?_⟩
      · rw [sisGo_cons_nonblank cur x xs (by simpa using hx)]
        exact h1
      · rw [List.cons_append, sisGo_cons_nonblank cur x _ (by simpa using hx)]
        exact h2

/-- Re-splitting a concatenation of blank-terminated sections followed by a
blank-free final section recovers exactly those sections. -/
theorem resplit : ∀ (S : List (List DLine)) (last : List DLine),
    (∀ s ∈ S, ∃ body b, s = body ++ [b] ∧
      (∀ x ∈ body, x.isBlank = false) ∧ b.isBlank = true) →
    (∀ x ∈ last, x.isBlank = false) →
    sisGo [] ((S ++ [last]).flatten) = S ++ [last]
  | [], last, _, hl => by
    rw [List.nil_append]
    rw [show ([last] : List (List DLine)).flatten = last from by simp]
    rw [sisGo_blankfree [] last hl, List.nil_append]
  | s :: S, last, hS, hl => by
    obtain ⟨body, b, hs, hbody, hb⟩ := hS s (by simp)
    rw [List.cons_append, List.flatten_cons, hs]
    rw [List.append_assoc body, List.singleton_append]
    rw [sisGo_closed_run [] body b _ hbody hb]
    rw [resplit S last (fun x hx => hS x (by simp [hx])) hl]
    rw [List.nil_append, ← hs]

theorem formatLines_sections_def (le : Str → Str → Bool) (srt : FormatSort)
    (L : List DLine) :
    formatLines le .sections srt L =
      ((sisGo [] L).map fun s => formatSection le s srt).flatten := rfl

theorem formatLines_perm (le : Str → Str → Bool) (mode : FormatMode) (L : List DLine) :
    (formatLines le mode .alpha L).Perm L := by
  cases mode with
  | global => exact formatSection_perm le L .alpha
  | sections =>
    have h1 : ∀ ss : List (List DLine),
        ((ss.map fun s => formatSection le s FormatSort.alpha).flatten).Perm ss.flatten := by
      intro ss
      induction ss with
      | nil => rfl
      | cons s ss ih =>
        rw [List.map_cons, List.flatten_cons, List.flatten_cons]
        exact (formatSection_perm le s .alpha).append ih
    have h2 := h1 (sisGo [] L)
    rw [flatten_sisGo [] L, List.nil_append] at h2
    exact h2

theorem formatLines_mem (le : Str → Str → Bool) (mode : FormatMode) (L : List DLine)
    (x : DLine) (hx : x ∈ formatLines le mode .alpha L) : x ∈ L :=
  (formatLines_perm le mode L).mem_iff.mp hx

theorem formatLines_append_blank (le : Str → Str → Bool) (mode : FormatMode)
    (l : DLine) (hb : l.isBlank = true) (xs : List DLine) :
    formatLines le mode .alpha (xs ++ [l]) = formatLines le mode .alpha xs ++ [l] := by
  have hc : l.isComment = false := by
    cases l <;> simp_all [DLine.isBlank, DLine.isComment]
  have ha : l.isAssignment = false := by
    cases l <;> simp_all [DLine.isBlank, DLine.isAssignment]
  cases mode with
  | global => exact formatSection_append_other le l hc ha xs
  | sections =>
    obtain ⟨S, c, h1, h2⟩ := sisGo_append_blank l hb [] xs
    rw [formatLines_sections_def, formatLines_sections_def, h1, h2]
    rw [show S ++ [c ++ [l], []] = (S ++ [c ++ [l]]) ++ [[]] from by simp]
    rw [List.map_append, List.map_append, List.map_append]
    rw [List.flatten_append, List.flatten_append, List.flatten_append]
    rw [show (([c ++ [l]] : List (List DLine)).map
        fun s => formatSection le s FormatSort.alpha)
      = [formatSection le (c ++ [l]) FormatSort.alpha] from rfl]
    rw [formatSection_append_other le l hc ha c]
    simp [formatSection_nil]

theorem formatLines_idem (le : Str → Str → Bool)
    (htot : ∀ a b, le a b = true ∨ le b a = true)
    (htrans : ∀ a b c, le a b = true → le b c = true → le a c = true)
    (mode : FormatMode) (L : List DLine) :
    formatLines le mode .alpha (formatLines le mode .alpha L)
      = formatLines le mode .alpha L := by
  cases mode with
  | global => exact formatSection_idem le htot htrans L
  | sections =>
    obtain ⟨S, last, hS, hclosed, hlast⟩ := sisGo_shape [] L (by simp)
    have hF : formatLines le .sections .alpha L =
        ((S.map fun s => formatSection le s FormatSort.alpha)
          ++ [formatSection le last FormatSort.alpha]).flatten := by
      rw [formatLines_sections_def, hS, List.map_append]
      rfl
    have hclosed₂ : ∀ fs ∈ S.map fun s => formatSection le s FormatSort.alpha,
        ∃ body b, fs = body ++ [b] ∧
          (∀ x ∈ body, x.isBlank = false) ∧ b.isBlank = true := by
      intro fs hfs
      obtain ⟨s, hsmem, hfs'⟩ := List.mem_map.mp hfs
      obtain ⟨body, b, hsdec, hbody, hb⟩ := hclosed s hsmem
      have hcb : b.isComment = false := by
        cases b <;> simp_all [DLine.isBlank, DLine.isComment]
      have hab : b.isAssignment = false := by
        cases b <;> simp_all [DLine.isBlank, DLine.isAssignment]
      refine ⟨formatSection le body .alpha, b, ?_, fun x hx => ?_, hb⟩
      · rw [← hfs', hsdec]
        exact formatSection_append_other le b hcb hab body
      · exact hbody x (formatSection_mem le body .alpha x hx)
    have hlast₂ : ∀ x ∈ formatSection le last .alpha, x.isBlank = false :=
      fun x hx => hlast x (formatSection_mem le last .alpha x hx)
    rw [hF, formatLines_sections_def]
    rw [resplit (S.map fun s => formatSection le s FormatSort.alpha)
      (formatSection le last .alpha) hclosed₂ hlast₂]
    rw [List.map_append, List.map_map]
    have hcomp : S.map ((fun s => formatSection le s FormatSort.alpha) ∘
        fun s => formatSection le s FormatSort.alpha)
      = S.map fun s => formatSection le s FormatSort.alpha := by
      refine List.map_congr_left ?_
      intro s _
      exact formatSection_idem le htot htrans s
    rw [hcomp]
    rw [show (([formatSection le last FormatSort.alpha] : List (List DLine)).map
        fun s => formatSection le s FormatSort.alpha)
      = [formatSection le (formatSection le last FormatSort.alpha) FormatSort.alpha] from rfl]
    rw [formatSection_idem le htot htrans last]

theorem hsGo_congr : ∀ (saw : Bool) (L M : List DLine), L.map dekey = M.map dekey →
    (hsGo saw L).1.map dekey = (hsGo saw M).1.map dekey ∧
    (hsGo saw L).2.map dekey = (hsGo saw M).2.map dekey
  | _, [], [], _ => ⟨rfl, rfl⟩
  | _, [], _ :: _, h => by simp at h
  | _, _ :: _, [], h => by simp at h
  | saw, l :: L, m :: M, h => by
    simp only [List.map_cons, List.cons.injEq] at h
    obtain ⟨h1, h2⟩ := h
    have hcEq : l.isComment = m.isComment := by
      rw [← isComment_dekey l, ← isComment_dekey m, h1]
    have haEq : l.isAssignment = m.isAssignment := by
      rw [← isAssignment_dekey l, ← isAssignment_dekey m, h1]
    rw [hsGo_cons, hsGo_cons]
    by_cases hc : (!saw && l.isComment) = true
    · rw [if_pos hc, if_pos (by rw [← hcEq]; exact hc)]
      obtain ⟨ih1, ih2⟩ := hsGo_congr saw L M h2
      refine ⟨?_, ih2⟩
      simp only [List.map_cons]
      rw [h1, ih1]
    · rw [if_neg hc, if_neg (by rw [← hcEq]; exact hc)]
      rw [← haEq]
      obtain ⟨ih1, ih2⟩ := hsGo_congr (saw || l.isAssignment) L M h2
      refine ⟨ih1, ?_⟩
      simp only [List.map_cons]
      rw [h1, ih2]

theorem chunkGo_congr : ∀ (p q L M : List DLine), p.map dekey = q.map dekey →
    L.map dekey = M.map dekey →
    (chunkGo p L).1.map (fun b => (b.1, b.2.map dekey))
      = (chunkGo q M).1.map (fun b => (b.1, b.2.map dekey)) ∧
    (chunkGo p L).2.map dekey = (chunkGo q M).2.map dekey
  | p, q, [], [], hpq, _ => ⟨rfl, hpq⟩
  | _, _, [], _ :: _, _, h => by simp at h
  | _, _, _ :: _, [], _, h => by simp at h
  | p, q, l :: L, m :: M, hpq, h => by
    simp only [List.map_cons, List.cons.injEq] at h
    obtain ⟨h1, h2⟩ := h
    cases l with
    | comment n r =>
      obtain ⟨n2, hm⟩ := dekey_eq_comment m r (by rw [← h1]; rfl)
      subst hm
      rw [chunkGo_comment_cons, chunkGo_comment_cons]
      exact chunkGo_congr (p ++ [DLine.comment n r]) (q ++ [DLine.comment n2 r]) L M
        (by simp only [List.map_append, hpq, List.map_cons, List.map_nil]; rfl) h2
    | assignment a =>
      obtain ⟨a2, hm, ha2⟩ := dekey_eq_assignment m (a.withLine 0) (by rw [← h1]; rfl)
      subst hm
      rw [chunkGo_assign_cons, chunkGo_assign_cons]
      obtain ⟨ih1, ih2⟩ := chunkGo_congr [] [] L M rfl h2
      have hkey : a2.key = a.key := by rw [← withLine_key a2 0, ha2, withLine_key]
      refine ⟨?_, ih2⟩
      simp only [List.map_cons]
      rw [ih1, hkey]
      congr 2
      simp only [List.map_append, hpq, List.map_cons, List.map_nil]
      rw [dekey_assignment, dekey_assignment, ha2]
    | blank n r =>
      obtain ⟨n2, hm⟩ := dekey_eq_blank m r (by rw [← h1]; rfl)
      subst hm
      rw [chunkGo_other_cons p (DLine.blank n r) L rfl rfl,
        chunkGo_other_cons q (DLine.blank n2 r) M rfl rfl]
      obtain ⟨ih1, ih2⟩ := chunkGo_congr [] [] L M rfl h2
      refine ⟨ih1, ?_⟩
      simp only [List.map_append, hpq, ih2, List.map_cons, List.map_nil]
      rfl
    | unknown n r =>
      obtain ⟨n2, hm⟩ := dekey_eq_unknown m r (by rw [← h1]; rfl)
      subst hm
      rw [chunkGo_other_cons p (DLine.unknown n r) L rfl rfl,
        chunkGo_other_cons q (DLine.unknown n2 r) M rfl rfl]
      obtain ⟨ih1, ih2⟩ := chunkGo_congr [] [] L M rfl h2
      refine ⟨ih1, ?_⟩
      simp only [List.map_append, hpq, ih2, List.map_cons, List.map_nil]
      rfl

theorem sortBlocks_congr (le : Str → Str → Bool) (bs cs : List (Str × List DLine))
    (h : bs.map (fun b => (b.1, b.2.map dekey)) = cs.map (fun b => (b.1, b.2.map dekey))) :
    (bs.insertionSort fun a b => le a.1 b.1 = true).map (fun b => (b.1, b.2.map dekey))
      = (cs.insertionSort fun a b => le a.1 b.1 = true).map
          (fun b => (b.1, b.2.map dekey)) := by
  rw [List.map_insertionSort (fun a b => le a.1 b.1 = true)
    (fun a b => le a.1 b.1 = true) _ bs (fun a _ b _ => Iff.rfl)]
  rw [List.map_insertionSort (fun a b => le a.1 b.1 = true)
    (fun a b => le a.1 b.1 = true) _ cs (fun a _ b _ => Iff.rfl)]
  rw [h]

theorem formatSection_congr (le : Str → Str → Bool) (L M : List DLine) (srt : FormatSort)
    (h : L.map dekey = M.map dekey) :
    (formatSection le L srt).map dekey = (formatSection le M srt).map dekey := by
  cases srt with
  | none => exact h
  | alpha =>
    rw [formatSection_alpha, formatSection_alpha]
    obtain ⟨hh, hr⟩ := hsGo_congr false L M h
    obtain ⟨hb, ht⟩ := chunkGo_congr [] [] (hsGo false L).2 (hsGo false M).2 rfl hr
    have hs := sortBlocks_congr le _ _ hb
    simp only [List.map_append]
    rw [hh, ht]
    congr 1
    congr 1
    rw [List.map_flatten, List.map_flatten]
    have hswap : ∀ bs : List (Str × List DLine),
        (bs.map Prod.snd).map (List.map dekey)
          = (bs.map fun b => (b.1, b.2.map dekey)).map Prod.snd := by
      intro bs
      rw [List.map_map, List.map_map]
      rfl
    rw [hswap, hswap, hs]

theorem sisGo_congr : ∀ (c d L M : List DLine), c.map dekey = d.map dekey →
    L.map dekey = M.map dekey →
    (sisGo c L).map (List.map dekey) = (sisGo d M).map (List.map dekey)
  | c, d, [], [], hcd, _ => by simp [sisGo, hcd]
  | _, _, [], _ :: _, _, h => by simp at h
  | _, _, _ :: _, [], _, h => by simp at h
  | c, d, l :: L, m :: M, hcd, h => by
    simp only [List.map_cons, List.cons.injEq] at h
    obtain ⟨h1, h2⟩ := h
    have hbEq : l.isBlank = m.isBlank := by
      rw [← isBlank_dekey l, ← isBlank_dekey m, h1]
    by_cases hb : l.isBlank = true
    · rw [sisGo_cons_blank c l L hb, sisGo_cons_blank d m M (by rw [← hbEq]; exact hb)]
      simp only [List.map_cons]
      rw [sisGo_congr [] [] L M rfl h2]
      congr 1
      simp only [List.map_append, hcd, List.map_cons, List.map_nil, h1]
    · rw [sisGo_cons_nonblank c l L (by simpa using hb),
        sisGo_cons_nonblank d m M (by rw [← hbEq]; simpa using hb)]
      exact sisGo_congr (c ++ [l]) (d ++ [m]) L M
        (by simp only [List.map_append, hcd, List.map_cons, List.map_nil, h1]) h2

theorem flatten_map_fs_congr (le : Str → Str → Bool) : ∀ (ss tt : List (List DLine)),
    ss.map (List.map dekey) = tt.map (List.map dekey) →
    ((ss.map fun s => formatSection le s FormatSort.alpha).flatten).map dekey
      = ((tt.map fun s => formatSection le s FormatSort.alpha).flatten).map dekey
  | [], [], _ => rfl
  | [], _ :: _, h => by simp at h
  | _ :: _, [], h => by simp at h
  | s :: ss, t :: tt, h => by
    simp only [List.map_cons, List.cons.injEq] at h
    rw [List.map_cons, List.map_cons, List.flatten_cons, List.flatten_cons,
      List.map_append, List.map_append]
    rw [formatSection_congr le s t .alpha h.1, flatten_map_fs_congr le ss tt h.2]

theorem formatLines_congr (le : Str → Str → Bool) (mode : FormatMode)
    (L M : List DLine) (h : L.map dekey = M.map dekey) :
    (formatLines le mode .alpha L).map dekey
      = (formatLines le mode .alpha M).map dekey := by
  cases mode with
  | global => exact formatSection_congr le L M .alpha h
  | sections =>
    rw [formatLines_sections_def, formatLines_sections_def]
    exact flatten_map_fs_congr le _ _ (sisGo_congr [] [] L M rfl h)

theorem parse_lines_ne_nil (T : Str) : (parseDotenvDocument T).lines ≠ [] := by
  rw [parse_lines_def]
  intro hnil
  have hraws := buildLines_raws 1
    (if endsWithLF T = true then (splitLines T).dropLast else splitLines T)
  rw [hnil] at hraws
  simp only [List.map_nil] at hraws
  by_cases he : endsWithLF T = true
  · rw [if_pos he] at hraws
    obtain ⟨xs, hxs, hne⟩ := splitLines_endsWithLF T he
    rw [hxs, List.dropLast_concat] at hraws
    exact hne hraws.symm
  · rw [if_neg he] at hraws
    exact splitLines_ne_nil T hraws.symm

theorem stringify_mk (L : List DLine) (iss : List DotenvIssue) (e : Bool) :
    stringifyDotenvDocument ⟨L, iss, e⟩
      = joinLines (L.map DLine.raw) ++ (if e then ['\n'] else []) := rfl

theorem formatDotenv_alpha_output (le : Str → Str → Bool) (mode : FormatMode) (S : Str) :
    (formatDotenv le S mode .alpha).output
      = stringifyDotenvDocument ⟨formatLines le mode .alpha (parseDotenvDocument S).lines,
          (parseDotenvDocument S).issues, endsWithLF S⟩ := rfl

/-- When re-stringifying the formatted lines reproduces the trailing-newline
flag faithfully (the flag is on, or the last formatted line has nonempty raw
text), a second `formatDotenv` pass returns the first pass's output unchanged. -/
theorem formatDotenv_reparse_fix (le : Str → Str → Bool) (mode : FormatMode) (T : Str)
    (htot : ∀ a b, le a b = true ∨ le b a = true)
    (htrans : ∀ a b c, le a b = true → le b c = true → le a c = true)
    (hT : ∀ c ∈ T, c ≠ '\r')
    (hlast : endsWithLF T = false → ∃ xs l,
      formatLines le mode .alpha (parseDotenvDocument T).lines = xs ++ [l] ∧ l.raw ≠ []) :
    (formatDotenv le (formatDotenv le T mode .alpha).output mode .alpha).output
      = (formatDotenv le T mode .alpha).output := by
  have hwf : ∀ l ∈ formatLines le mode .alpha (parseDotenvDocument T).lines, wfLine l :=
    fun l hl => wfLine_of_mem_parse T l (formatLines_mem le mode _ l hl)
  have hsafe : ∀ l ∈ formatLines le mode .alpha (parseDotenvDocument T).lines,
      lineSafe l.raw :=
    fun l hl => lineSafe_of_parse T hT l (formatLines_mem le mode _ l hl)
  have hne : formatLines le mode .alpha (parseDotenvDocument T).lines ≠ [] := by
    intro h
    have hperm := formatLines_perm le mode (parseDotenvDocument T).lines
    rw [h] at hperm
    exact parse_lines_ne_nil T (List.Perm.nil_eq hperm).symm
  have hidem := formatLines_idem le htot htrans mode (parseDotenvDocument T).lines
  have hout1 : (formatDotenv le T mode .alpha).output =
      stringifyDotenvDocument ⟨formatLines le mode .alpha (parseDotenvDocument T).lines,
        (parseDotenvDocument T).issues, endsWithLF T⟩ := rfl
  have hp := parse_stringify_doc (formatLines le mode .alpha (parseDotenvDocument T).lines)
    (parseDotenvDocument T).issues (endsWithLF T) hsafe hne hlast
  have hdk : ((buildLines 1 ((formatLines le mode .alpha
        (parseDotenvDocument T).lines).map DLine.raw)).1).map dekey
      = (formatLines le mode .alpha (parseDotenvDocument T).lines).map dekey :=
    buildLines_wf_dekey 1 _ hwf
  have hcong := formatLines_congr le mode _ _ hdk
  rw [hidem] at hcong
  have hraws := map_raw_of_map_dekey _ _ hcong
  have hlines2 : (parseDotenvDocument (stringifyDotenvDocument
        ⟨formatLines le mode .alpha (parseDotenvDocument T).lines,
          (parseDotenvDocument T).issues, endsWithLF T⟩)).lines
      = (buildLines 1 ((formatLines le mode .alpha
          (parseDotenvDocument T).lines).map DLine.raw)).1 :=
    congrArg DotenvDocument.lines hp
  have he2 : endsWithLF (stringifyDotenvDocument
        ⟨formatLines le mode .alpha (parseDotenvDocument T).lines,
          (parseDotenvDocument T).issues, endsWithLF T⟩)
      = endsWithLF T :=
    congrArg DotenvDocument.endsWithNewline hp
  rw [hout1, formatDotenv_alpha_output, hlines2, he2, stringify_mk, stringify_mk, hraws]

/-- C6 counterexample: a lone carriage return at the end of a line survives
into the line's raw text; sorting moves that line off the end of the file, the
re-serialized text then contains a CRLF pair which the next parse collapses,
and the second format output differs from the first. -/
theorem C6_format_idempotent_counterexample :
    (formatDotenv leDemo
        (formatDotenv leDemo "B=2\nA=1\r".toList FormatMode.global FormatSort.alpha).output
        FormatMode.global FormatSort.alpha).output ≠
      (formatDotenv leDemo "B=2\nA=1\r".toList FormatMode.global FormatSort.alpha).output := by
  decide

/-- C6 (amended): for input text containing no carriage returns and a total
transitive comparator, `formatDotenv` is idempotent on its output text, for
every mode in sections/global and sort in alpha/none. -/
theorem C6_format_idempotent_amended (le : Str → Str → Bool) (T : Str)
    (mode : FormatMode) (srt : FormatSort)
    (hT : ∀ c ∈ T, c ≠ '\r')
    (htot : ∀ a b, le a b = true ∨ le b a = true)
    (htrans : ∀ a b c, le a b = true → le b c = true → le a c = true) :
    (formatDotenv le (formatDotenv le T mode srt).output mode srt).output
      = (formatDotenv le T mode srt).output := by
  cases srt with
  | none => rfl
  | alpha =>
    have hwf : ∀ l ∈ formatLines le mode .alpha (parseDotenvDocument T).lines, wfLine l :=
      fun l hl => wfLine_of_mem_parse T l (formatLines_mem le mode _ l hl)
    have hsafe : ∀ l ∈ formatLines le mode .alpha (parseDotenvDocument T).lines,
        lineSafe l.raw :=
      fun l hl => lineSafe_of_parse T hT l (formatLines_mem le mode _ l hl)
    have hne : formatLines le mode .alpha (parseDotenvDocument T).lines ≠ [] := by
      intro h
      have hperm := formatLines_perm le mode (parseDotenvDocument T).lines
      rw [h] at hperm
      exact parse_lines_ne_nil T (List.Perm.nil_eq hperm).symm
    have hidem := formatLines_idem le htot htrans mode (parseDotenvDocument T).lines
    by_cases he : endsWithLF T = true
    · refine formatDotenv_reparse_fix le mode T htot htrans hT fun hf => ?_
      rw [he] at hf
      cases hf
    · have he' : endsWithLF T = false := by
        revert he
        cases endsWithLF T <;> simp
      obtain ⟨llast, hgl⟩ : ∃ a, (formatLines le mode .alpha
          (parseDotenvDocument T).lines).getLast? = some a := by
        cases hgl : (formatLines le mode .alpha
            (parseDotenvDocument T).lines).getLast? with
        | some a => exact ⟨a, rfl⟩
        | none => exact absurd (List.getLast?_eq_none.mp hgl) hne
      obtain ⟨xs, hdecomp⟩ := eq_append_of_getLast? _ llast hgl
      by_cases hraw : llast.raw = []
      · have hwfl : wfLine llast := hwf llast (by rw [hdecomp]; simp)
        have hdkl : dekey llast = DLine.blank 0 [] := by
          have h0 := hwfl
          unfold wfLine at h0
          rw [hraw] at h0
          rw [← h0]
          rfl
        obtain ⟨nb, hllast⟩ := dekey_eq_blank llast [] hdkl
        cases hxs : xs with
        | nil =>
          have hO1 : (formatDotenv le T mode .alpha).output = [] := by
            rw [formatDotenv_alpha_output, stringify_mk, he']
            rw [hdecomp, hxs, hllast]
            rfl
          rw [hO1]
          cases mode <;> rfl
        | cons x0 xrest =>
          have hxne : xs.map DLine.raw ≠ [] := by
            rw [hxs]
            simp
          have hxsafe : ∀ r ∈ xs.map DLine.raw, lineSafe r := by
            intro r hr
            obtain ⟨l, hl, hrl⟩ := List.mem_map.mp hr
            rw [← hrl]
            exact hsafe l (by rw [hdecomp]; exact List.mem_append.mpr (Or.inl hl))
          have hO1 : (formatDotenv le T mode .alpha).output
              = joinLines (xs.map DLine.raw) ++ ['\n'] := by
            rw [formatDotenv_alpha_output, stringify_mk, he']
            rw [hdecomp, hllast, List.map_append]
            rw [show (([DLine.blank nb []] : List DLine).map DLine.raw) = [[]] from rfl]
            rw [joinLines_append_nil _ hxne]
            rw [if_neg (by simp)]
            rw [List.append_nil]
          have he2 : endsWithLF (joinLines (xs.map DLine.raw) ++ ['\n']) = true := by
            unfold endsWithLF
            rw [show (['\n'] : Str) = '\n' :: ([] : Str) from rfl, getLast?_append_cons]
            decide
          have hsplit : splitLines (joinLines (xs.map DLine.raw) ++ ['\n'])
              = xs.map DLine.raw ++ [[]] :=
            splitLines_joinLines_lf (xs.map DLine.raw) hxne hxsafe
          have hlines2 : (parseDotenvDocument
                (joinLines (xs.map DLine.raw) ++ ['\n'])).lines
              = (buildLines 1 (xs.map DLine.raw)).1 := by
            rw [parse_lines_def, if_pos he2, hsplit, List.dropLast_concat]
          have hxwf : ∀ l ∈ xs, wfLine l :=
            fun l hl => hwf l (by rw [hdecomp]; exact List.mem_append.mpr (Or.inl hl))
          have hdkx : ((buildLines 1 (xs.map DLine.raw)).1).map dekey = xs.map dekey :=
            buildLines_wf_dekey 1 xs hxwf
          have hGNL : formatLines le mode FormatSort.alpha
              (xs ++ [DLine.blank nb []]) = xs ++ [DLine.blank nb []] := by
            rw [← hllast, ← hdecomp]
            exact hidem
          have happ := formatLines_append_blank le mode (DLine.blank nb []) rfl xs
          have hGxs : formatLines le mode FormatSort.alpha xs = xs := by
            have h2 : formatLines le mode FormatSort.alpha xs ++ [DLine.blank nb []]
                = xs ++ [DLine.blank nb []] := by
              rw [← happ]
              exact hGNL
            exact List.append_cancel_right h2
          have hcong := formatLines_congr le mode
            ((buildLines 1 (xs.map DLine.raw)).1) xs hdkx
          rw [hGxs] at hcong
          have hraws := map_raw_of_map_dekey _ _ hcong
          rw [hO1, formatDotenv_alpha_output, stringify_mk, hlines2, he2, hraws,
            if_pos rfl]
      · exact formatDotenv_reparse_fix le mode T htot htrans hT
          fun _ => ⟨xs, llast, hdecomp, hraw⟩

/-- C6 witness: formatting a commented section with keys out of order twice
agrees with formatting it once, in sections mode with alphabetical sort. -/
theorem C6_format_idempotent_amended_witness :
    (formatDotenv leDemo
        (formatDotenv leDemo "# s\nB=2\nA=1\n".toList
          FormatMode.sections FormatSort.alpha).output
        FormatMode.sections FormatSort.alpha).output
      = (formatDotenv leDemo "# s\nB=2\nA=1\n".toList
          FormatMode.sections FormatSort.alpha).output :=
  C6_format_idempotent_amended leDemo "# s\nB=2\nA=1\n".toList FormatMode.sections
    FormatSort.alpha (by decide)
    (fun a b => by
      unfold leDemo
      rcases le_total (a.headD 'a') (b.headD 'a') with h | h
      · exact Or.inl (decide_eq_true h)
      · exact Or.inr (decide_eq_true h))
    (fun a b c hab hbc => by
      unfold leDemo at hab hbc ⊢
      exact decide_eq_true (le_trans (of_decide_eq_true hab) (of_decide_eq_true hbc)))

end Envsitter
